import Mathlib

/-!
# Verification of the `dbrheo` core agent runtime

A shallow embedding, in Lean 4, of the parts of the repository that the
claims under scrutiny are about:

* `packages/core/src/dbrheo/core/scheduler.py` — the `ToolScheduler`
  state machine (`schedule`, `handle_confirmation_response`,
  `_attempt_execution_of_scheduled_calls`, `_set_status`,
  `_check_and_notify_completion`, `_notify_tool_calls_update`,
  `_is_running`);
* `packages/core/src/dbrheo/types/tool_types.py` and
  `types/core_types.py` — the data model for tool calls;
* `packages/core/src/dbrheo/tools/registry.py` — `ToolRegistry`;
* `packages/core/src/dbrheo/tools/mcp/mcp_registry.py` — the MCP
  unregistration path;
* `packages/core/src/dbrheo/utils/parameter_sanitizer.py` —
  `sanitize_parameters` and its recursive worker, together with
  `ToolRegistry.get_function_declarations`.

Modelling conventions:

* The runtime is a single asyncio event loop and the scheduler's
  operations run to completion between user-visible suspension points;
  the embedding therefore treats each public operation as a function
  from scheduler state (plus the environment's answers to the awaited
  tool methods) to scheduler state.  Tool objects are opaque: a tool is
  identified by a string and the behaviour of its `should_confirm_execute`
  and `execute` methods is supplied by a `ToolEnv` record of functions.
* The UI callbacks (`on_tool_calls_update`, `on_all_tools_complete`) and
  the start/return of each `tool.execute` call are recorded in
  observation logs (`events`, `execLog`) carried in the state; the logs
  are instrumentation and feed no decision in the embedded code.
  `transitions` likewise records every replacement performed by
  `_set_status`, carrying the status the call had before and the freshly
  constructed call record.
* Python `time.time()` is an abstract `Nat` supplied per operation;
  Python dicts keyed by strings are association lists.
-/

namespace DbRheo

/-- The seven status strings of the tool-call state machine
(`tool_types.py`: `validating`, `scheduled`, `awaiting_approval`,
`executing`, `success`, `error`, `cancelled`). -/
inductive TStatus where
  | validating
  | scheduled
  | awaiting_approval
  | executing
  | success
  | error
  | cancelled
deriving DecidableEq, Repr

/-- `status in ['success', 'error', 'cancelled']` — the terminal statuses. -/
def TStatus.isTerminal : TStatus → Bool
  | .success => true
  | .error => true
  | .cancelled => true
  | _ => false

/-- Payload of a `functionResponse` part: the scheduler builds either
`{'error': msg}` or (via `convert_to_function_response`) an output
payload. -/
inductive FRPayload where
  | output (s : String)
  | error (s : String)
deriving DecidableEq, Repr

/-- `Part` (`core_types.py`), restricted to the two shapes the scheduler
actually attaches to a `ToolCallResponseInfo`: a `{'text': ...}` dict and
a `{'functionResponse': {'id': ..., 'name': ..., 'response': ...}}` dict. -/
inductive RPart where
  | text (s : String)
  | functionResponse (id name : String) (response : FRPayload)
deriving DecidableEq, Repr

/-- Tool argument dict: keyed map from names to (opaque) values. -/
abbrev Args := List (String × String)

/-- `ToolCallRequestInfo` (`tool_types.py`). -/
structure ToolCallRequestInfo where
  call_id : String
  name : String
  args : Args
  is_client_initiated : Bool := false
  prompt_id : String := ""
deriving DecidableEq, Repr

/-- `ToolCallResponseInfo` (`tool_types.py`); the `error` field holds the
message string of the attached exception. -/
structure ToolCallResponseInfo where
  call_id : String
  response_parts : RPart
  result_display : Option String := none
  error : Option String := none
deriving DecidableEq, Repr

/-- `ToolResult` (`tool_types.py`). -/
structure ToolResult where
  summary : Option String := none
  llm_content : String := ""
  return_display : Option String := none
  error : Option String := none
deriving DecidableEq, Repr

/-- The dynamically-typed `details` argument of `_set_status`: either
confirmation details (for `awaiting_approval`) or a response (for the
terminal statuses).  Confirmation details are opaque to the scheduler and
modelled as a string token. -/
inductive Details where
  | confirm (c : String)
  | resp (r : ToolCallResponseInfo)
deriving DecidableEq, Repr

/-- A tool-call record.  The Python code uses one dataclass per status
(`ValidatingToolCall`, …) and reads missing fields through
`getattr(_, _, None)`; the embedding uses a single record whose optional
fields are `none` exactly when the corresponding dataclass lacks them.
A tool object is identified by an opaque string. -/
structure ToolCall where
  request : ToolCallRequestInfo
  tool : Option String := none
  status : TStatus
  start_time : Option Nat := none
  confirmation_details : Option String := none
  response : Option ToolCallResponseInfo := none
  duration_ms : Option Nat := none
deriving DecidableEq, Repr

/-- One replacement performed by `_set_status`: the call id, the status
the call had before, and the freshly constructed record. -/
structure Trans where
  call_id : String
  before : TStatus
  newCall : ToolCall
deriving DecidableEq, Repr

/-- Observation log entry for the UI callbacks: `on_tool_calls_update`
(with the list it is passed) and `on_all_tools_complete` (with the list
of completed calls). -/
inductive SchedEvent where
  | callsUpdate (calls : List ToolCall)
  | allComplete (calls : List ToolCall)
deriving DecidableEq, Repr

/-- Observation log entry for tool execution: the `await
tool.execute(...)` call starting, and control returning from it. -/
inductive ExecEv where
  | start (cid : String)
  | finish (cid : String)
deriving DecidableEq, Repr

/-- The scheduler's mutable state (`self.tool_calls`) plus the
observation logs. -/
structure SchedulerState where
  tool_calls : List ToolCall
  events : List SchedEvent := []
  transitions : List Trans := []
  execLog : List ExecEv := []
deriving DecidableEq, Repr

/-- The initial scheduler state (`__init__`: `self.tool_calls = []`). -/
def initState : SchedulerState := ⟨[], [], [], []⟩

/-- Environment supplying the registry lookup and the behaviour of the
awaited tool methods.  `getTool` embeds `tool_registry.get_tool`;
`shouldConfirm t args aborted` embeds `tool.should_confirm_execute(args,
signal)` (`.error` = the coroutine raised, `.ok none` = falsy ⇒ no
confirmation, `.ok (some c)` = confirmation details); `exec t args
aborted` embeds `tool.execute(args, signal, updater)` (`.error` = raised). -/
structure ToolEnv where
  getTool : String → Option String
  shouldConfirm : String → Args → Bool → Except String (Option String)
  exec : String → Args → Bool → Except String ToolResult

/-! ## The scheduler (`core/scheduler.py`) -/

/-- `_notify_tool_calls_update`: fires `on_tool_calls_update` with the
current list (recorded as a `callsUpdate` event). -/
def notifyToolCallsUpdate (s : SchedulerState) : SchedulerState :=
  { s with events := s.events ++ [.callsUpdate s.tool_calls] }

/-- `_is_running`: `any(call.status in ['executing', 'awaiting_approval'] for call in self.tool_calls)`. -/
def isRunning (s : SchedulerState) : Bool :=
  s.tool_calls.any fun c => c.status = .executing || c.status = .awaiting_approval

/-- `_check_and_notify_completion`: if the list is non-empty, every call
terminal, none awaiting approval and none executing, capture the list,
clear it, fire `on_all_tools_complete` with the captured calls and then
notify listeners; otherwise leave the state unchanged. -/
def checkAndNotifyCompletion (s : SchedulerState) : SchedulerState :=
  if s.tool_calls.length = 0 then s
  else
    let all_calls_terminal := s.tool_calls.all fun c => c.status.isTerminal
    let has_awaiting_approval := s.tool_calls.any fun c => c.status = .awaiting_approval
    let has_executing := s.tool_calls.any fun c => c.status = .executing
    if 0 < s.tool_calls.length ∧ all_calls_terminal ∧ ¬has_awaiting_approval ∧ ¬has_executing then
      let completed_calls := s.tool_calls
      let s1 := { s with tool_calls := [] }
      notifyToolCallsUpdate { s1 with events := s1.events ++ [.allComplete completed_calls] }
    else s

/-- `duration = time.time() - existing_start_time if existing_start_time else 0`
(falsy check: a missing or zero start time gives duration 0), then
`duration * 1000`. -/
def durationMs (start_time : Option Nat) (now : Nat) : Nat :=
  match start_time with
  | some t => if t = 0 then 0 else (now - t) * 1000
  | none => 0

/-- Projection of the dynamic `details` argument for the
`awaiting_approval` branch of `_set_status` (the call sites always pass
confirmation details there). -/
def Details.asConfirm : Option Details → Option String
  | some (.confirm c) => some c
  | _ => none

/-- Projection of the dynamic `details` argument for the terminal
branches of `_set_status` (the call sites always pass a
`ToolCallResponseInfo` there). -/
def Details.asResp : Option Details → Option ToolCallResponseInfo
  | some (.resp r) => some r
  | _ => none

/-- The per-status construction in `_set_status`: from the existing call
(`existing_start_time`, `existing_tool`, the immutable `request`) and the
`details` argument, build the replacement record; `none` when the target
status has no constructor branch (only `scheduled`, `executing`,
`awaiting_approval`, `success`, `error`, `cancelled` do — the `else`
branch `continue`s). -/
def mkStatusCall (tc : ToolCall) (st : TStatus) (details : Option Details) (now : Nat) :
    Option ToolCall :=
  match st with
  | .scheduled => some { request := tc.request, tool := tc.tool, status := .scheduled,
                         start_time := tc.start_time }
  | .executing => some { request := tc.request, tool := tc.tool, status := .executing,
                         start_time := tc.start_time }
  | .awaiting_approval => some { request := tc.request, tool := tc.tool,
                                 confirmation_details := Details.asConfirm details,
                                 status := .awaiting_approval, start_time := tc.start_time }
  | .success => some { request := tc.request, tool := tc.tool,
                       response := Details.asResp details, status := .success,
                       duration_ms := some (durationMs tc.start_time now) }
  | .error => some { request := tc.request, response := Details.asResp details,
                     status := .error, duration_ms := some (durationMs tc.start_time now) }
  | .cancelled => some { request := tc.request, tool := tc.tool,
                         response := Details.asResp details, status := .cancelled,
                         duration_ms := some (durationMs tc.start_time now) }
  | .validating => none

/-- The scan-and-replace loop of `_set_status`: find the first call whose
`call_id` matches, whose status is not terminal and for which the target
status has a constructor branch, and replace it; all other calls pass
through unchanged.  The second component records the replacement
performed (instrumentation). -/
def setStatusCore : List ToolCall → String → TStatus → Option Details → Nat →
    List ToolCall × List Trans
  | [], _, _, _, _ => ([], [])
  | tc :: rest, cid, st, details, now =>
    if tc.request.call_id = cid ∧ ¬tc.status.isTerminal then
      match mkStatusCall tc st details now with
      | some nc => (nc :: rest, [⟨cid, tc.status, nc⟩])
      | none =>
        let (l, ts) := setStatusCore rest cid st details now
        (tc :: l, ts)
    else
      let (l, ts) := setStatusCore rest cid st details now
      (tc :: l, ts)

/-- `_set_status`: perform the replacement, notify listeners, then run
the completion sweep. -/
def setStatus (s : SchedulerState) (cid : String) (st : TStatus) (details : Option Details)
    (now : Nat) : SchedulerState :=
  let core := setStatusCore s.tool_calls cid st details now
  checkAndNotifyCompletion (notifyToolCallsUpdate
    { s with tool_calls := core.1, transitions := s.transitions ++ core.2 })

/-- Modelled from the spec: `convert_to_function_response`
(`packages/core/src/dbrheo/utils/function_response.py`, imported by the
scheduler but absent from `src/`).  Spec §6: "each tool result becomes a
Part of the form `{ functionResponse: { id, name, response: { output |
error | <tool-specific fields> } } }`". -/
def convert_to_function_response (name call_id : String) (result : ToolResult) : RPart :=
  match result.error with
  | some e => .functionResponse call_id name (.error e)
  | none => .functionResponse call_id name (.output result.llm_content)

/-- `_set_status` as seen from inside the execution loop of
`_attempt_execution_of_scheduled_calls`.  The loop iterates the list
*object* that `self.tool_calls` held when the loop began; when the
completion sweep rebinds `self.tool_calls` to a fresh empty list, the
iterated object keeps the pre-rebinding contents.  `frozen = none` means
the iterated object is still the one `self.tool_calls` refers to;
`frozen = some l` is its (immutable from then on) contents after the
sweep rebound `self.tool_calls`. -/
def setStatusTracked (frozen : Option (List ToolCall)) (s : SchedulerState) (cid : String)
    (st : TStatus) (details : Option Details) (now : Nat) :
    Option (List ToolCall) × SchedulerState :=
  let l := (setStatusCore s.tool_calls cid st details now).1
  let s' := setStatus s cid st details now
  let frozen' := if frozen = none ∧ l ≠ [] ∧ s'.tool_calls = [] then some l else frozen
  (frozen', s')

/-- One iteration of the `for tool_call in self.tool_calls` loop of
`_attempt_execution_of_scheduled_calls`: read the `i`-th element of the
iterated list object; if it is `scheduled`, set it `executing`, await
`tool.execute` (its start and return are logged), then set `success`
(result without error), or `error` (result with error, or the call
raised — a call whose `tool` attribute is `None` raises
`AttributeError`, caught by the same handler). -/
def execStep (env : ToolEnv) (aborted : Bool) (now : Nat)
    (p : Option (List ToolCall) × SchedulerState) (i : Nat) :
    Option (List ToolCall) × SchedulerState :=
  let frozen := p.1
  let s := p.2
  let obj := frozen.getD s.tool_calls
  match obj.get? i with
  | none => p
  | some tc =>
    if tc.status = .scheduled then
      let cid := tc.request.call_id
      let fs1 := setStatusTracked frozen s cid .executing none now
      let f1 := fs1.1
      let s1 := { fs1.2 with execLog := fs1.2.execLog ++ [ExecEv.start cid] }
      let res : Except String ToolResult :=
        match tc.tool with
        | some t => env.exec t tc.request.args aborted
        | none => .error "AttributeError: NoneType object has no attribute execute"
      let s2 := { s1 with execLog := s1.execLog ++ [ExecEv.finish cid] }
      match res with
      | .ok result =>
        let function_response := convert_to_function_response tc.request.name cid result
        match result.error with
        | some err =>
          setStatusTracked f1 s2 cid .error
            (some (.resp ⟨cid, function_response, result.return_display, some err⟩)) now
        | none =>
          setStatusTracked f1 s2 cid .success
            (some (.resp ⟨cid, function_response, result.return_display, none⟩)) now
      | .error e =>
        setStatusTracked f1 s2 cid .error
          (some (.resp ⟨cid, .functionResponse cid tc.request.name (.error e), none, some e⟩)) now
    else p

/-- `_attempt_execution_of_scheduled_calls`: iterate the current list
object position by position (its length never changes while it is
iterated; the sweep can only rebind `self.tool_calls`, which `execStep`
tracks through `frozen`). -/
def attemptExecution (s : SchedulerState) (env : ToolEnv) (aborted : Bool) (now : Nat) :
    SchedulerState :=
  ((List.range s.tool_calls.length).foldl (execStep env aborted now) (none, s)).2

/-- The message of the `Exception` attached to a request whose tool name
is not in the registry: `f"Tool '{request.name}' not found in registry"`. -/
def notFoundMsg (name : String) : String :=
  "Tool \x27" ++ name ++ "\x27 not found in registry"

/-- The terminal `ErroredToolCall` that `schedule` creates for a request
whose tool is not in the registry (`duration_ms=0`, response carrying the
not-found `functionResponse`). -/
def errorNotFoundCall (req : ToolCallRequestInfo) : ToolCall :=
  { request := req, status := .error, duration_ms := some 0,
    response := some ⟨req.call_id,
      .functionResponse req.call_id req.name (.error (notFoundMsg req.name)),
      none, some (notFoundMsg req.name)⟩ }

/-- The `ValidatingToolCall` that `schedule` creates for a request whose
tool is found (`start_time=time.time()`). -/
def validatingCall (req : ToolCallRequestInfo) (tool : String) (now : Nat) : ToolCall :=
  { request := req, tool := some tool, status := .validating, start_time := some now }

/-- Batch creation in `schedule`: one call per request, in order. -/
def makeNewCalls (env : ToolEnv) (now : Nat) (requests : List ToolCallRequestInfo) :
    List ToolCall :=
  requests.map fun req =>
    match env.getTool req.name with
    | none => errorNotFoundCall req
    | some t => validatingCall req t now

/-- The validation-and-confirmation loop of `schedule`: iterate the
`new_tool_calls` snapshot (the objects created above — their `status`
fields are the creation-time ones); for each call created `validating`,
await `tool.should_confirm_execute` and set `awaiting_approval`
(truthy details), `scheduled` (falsy), or `error` (raised). -/
def validateLoop (env : ToolEnv) (aborted : Bool) (now : Nat) :
    List ToolCall → SchedulerState → SchedulerState
  | [], s => s
  | tc :: rest, s =>
    if tc.status = .validating then
      let cid := tc.request.call_id
      let s' :=
        match (match tc.tool with
               | some t => env.shouldConfirm t tc.request.args aborted
               | none => .error "AttributeError: NoneType object has no attribute should_confirm_execute") with
        | .ok (some confirmation_details) =>
          setStatus s cid .awaiting_approval (some (.confirm confirmation_details)) now
        | .ok none => setStatus s cid .scheduled none now
        | .error e =>
          setStatus s cid .error (some (.resp ⟨cid,
            .functionResponse cid tc.request.name (.error ("Validation failed: " ++ e)),
            none, some e⟩)) now
      validateLoop env aborted now rest s'
    else validateLoop env aborted now rest s

/-- `schedule(requests, signal)`.  Raises (second component `true`,
state unchanged) when a call is `executing` or `awaiting_approval`;
otherwise appends the new batch, notifies, runs validation/confirmation,
and attempts execution of all scheduled calls. -/
def schedule (s : SchedulerState) (requests : List ToolCallRequestInfo) (env : ToolEnv)
    (aborted : Bool) (now : Nat) : SchedulerState × Bool :=
  if isRunning s then (s, true)
  else
    let new_tool_calls := makeNewCalls env now requests
    let s1 := notifyToolCallsUpdate { s with tool_calls := s.tool_calls ++ new_tool_calls }
    let s2 := validateLoop env aborted now new_tool_calls s1
    (attemptExecution s2 env aborted now, false)

/-- Python `dict.update` for one key: replace the value of an existing
key in place, else append the pair. -/
def dictSet (d : Args) (k v : String) : Args :=
  if d.any (fun kv => kv.1 = k) then d.map (fun kv => if kv.1 = k then (k, v) else kv)
  else d ++ [(k, v)]

/-- Python `args.update(payload)`. -/
def dictUpdate (d : Args) (payload : Args) : Args :=
  payload.foldl (fun acc kv => dictSet acc kv.1 kv.2) d

/-- The lookup loop of `handle_confirmation_response`: the first call
whose `call_id` matches and whose status is `awaiting_approval`. -/
def findAwaiting (l : List ToolCall) (cid : String) : Option ToolCall :=
  l.find? fun c => c.request.call_id = cid ∧ c.status = .awaiting_approval

/-- `tool_call.request.args.update(payload)`: the found call's request
object is the list entry's request object, so the update lands on the
first matching awaiting entry. -/
def updateArgsFirstAwaiting : List ToolCall → String → Args → List ToolCall
  | [], _, _ => []
  | tc :: rest, cid, payload =>
    if tc.request.call_id = cid ∧ tc.status = .awaiting_approval then
      { tc with request := { tc.request with args := dictUpdate tc.request.args payload } } :: rest
    else tc :: updateArgsFirstAwaiting rest cid payload

/-- Python truthiness of the optional `payload` dict. -/
def payloadTruthy : Option Args → Bool
  | none => false
  | some p => !p.isEmpty

/-- `handle_confirmation_response(call_id, outcome, signal, payload)`.
No awaiting call with the id ⇒ return unchanged.  `cancel` or aborted
signal ⇒ `cancelled` with the user-cancelled response.
`modify_with_editor` with truthy payload ⇒ merge payload into the
request's args, then `scheduled`.  A proceed variant ⇒ `scheduled`.  In
every branch, finally attempt execution of all scheduled calls. -/
def handleConfirmationResponse (s : SchedulerState) (cid outcome : String) (env : ToolEnv)
    (aborted : Bool) (payload : Option Args) (now : Nat) : SchedulerState :=
  match findAwaiting s.tool_calls cid with
  | none => s
  | some _ =>
    if outcome = "cancel" || aborted then
      let cancel_response : ToolCallResponseInfo :=
        ⟨cid, .text "User cancelled the operation", some "操作已被用户取消", none⟩
      attemptExecution (setStatus s cid .cancelled (some (.resp cancel_response)) now)
        env aborted now
    else if outcome = "modify_with_editor" && payloadTruthy payload then
      let s' := { s with
        tool_calls := updateArgsFirstAwaiting s.tool_calls cid (payload.getD []) }
      attemptExecution (setStatus s' cid .scheduled none now) env aborted now
    else if ["proceed_once", "proceed_always", "proceed_always_server",
             "proceed_always_tool"].contains outcome then
      attemptExecution (setStatus s cid .scheduled none now) env aborted now
    else
      attemptExecution s env aborted now

/-! ## The parameter sanitizer (`utils/parameter_sanitizer.py`)

Python dicts are heap objects and nested dicts are shared by reference;
the embedding makes the heap explicit.  A JSON value is an atom, a
reference to a dict object on the heap, or a list of values.  The
`properties` container dict (whose object identity is never observed by
the sanitizer: it is read, never passed to the recursion nor mutated) is
inlined as an `omap`. -/

/-- An atomic JSON value: a primitive (string/number/bool rendered as an
opaque string) or a reference to a dict object on the heap.  The
sanitizer's only test on non-dict values is `isinstance(_, dict)`, so
deeper non-dict structure need not be distinguished. -/
inductive JAtom where
  | prim (s : String)
  | ref (id : Nat)
deriving DecidableEq, Repr

/-- JSON values as stored in schema dicts. -/
inductive JVal where
  | atom (a : JAtom)
  | arr (elems : List JAtom)
  | omap (entries : List (String × JAtom))
deriving DecidableEq, Repr

/-- Shorthand for a primitive entry. -/
def JVal.prim (s : String) : JVal := .atom (.prim s)

/-- Shorthand for a dict-reference entry. -/
def JVal.ref (i : Nat) : JVal := .atom (.ref i)

/-- A dict object: insertion-ordered association list. -/
structure JObj where
  entries : List (String × JVal)
deriving DecidableEq, Repr

/-- The heap: id → dict object. -/
abbrev Heap := List (Nat × JObj)

/-- Heap lookup. -/
def heapGet (h : Heap) (i : Nat) : Option JObj :=
  (h.find? fun p => p.1 = i).map Prod.snd

/-- Heap update at an existing id. -/
def heapSet (h : Heap) (i : Nat) (o : JObj) : Heap :=
  h.map fun p => if p.1 = i then (i, o) else p

/-- Dict key lookup. -/
def JObj.lookup (o : JObj) (k : String) : Option JVal :=
  (o.entries.find? fun p => p.1 = k).map Prod.snd

/-- `del schema[field]`. -/
def JObj.del (o : JObj) (k : String) : JObj :=
  ⟨o.entries.filter fun p => p.1 ≠ k⟩

/-- The `unsupported_fields` list of `_sanitize_parameters_recursive`. -/
def unsupportedFields : List String :=
  ["default", "minimum", "maximum", "minLength", "maxLength", "minItems", "maxItems",
   "uniqueItems", "additionalProperties", "$schema", "$ref", "$defs"]

/-- Delete all unsupported fields, then apply the `format` rule: when
`schema.get('type') == 'string'` and a `format` is present whose value is
not `'enum'` or `'date-time'`, delete `format`. -/
def sanitizeObj (o : JObj) : JObj :=
  let o1 := unsupportedFields.foldl JObj.del o
  if o1.lookup "type" = some (.prim "string") then
    match o1.lookup "format" with
    | some (.prim f) => if f = "enum" ∨ f = "date-time" then o1 else o1.del "format"
    | some _ => o1.del "format"
    | none => o1
  else o1

/-- The child sub-schemas the recursion descends into: the dict-valued
entries of a dict-valued `properties`, a dict-valued `items`, and the
dict elements of list-valued `anyOf` / `oneOf` / `allOf`. -/
def childIds (o : JObj) : List Nat :=
  (match o.lookup "properties" with
   | some (.omap m) => m.filterMap fun p => match p.2 with | .ref i => some i | _ => none
   | _ => []) ++
  (match o.lookup "items" with
   | some (.atom (.ref i)) => [i]
   | _ => []) ++
  (match o.lookup "anyOf" with
   | some (.arr l) => l.filterMap fun v => match v with | .ref i => some i | _ => none
   | _ => []) ++
  (match o.lookup "oneOf" with
   | some (.arr l) => l.filterMap fun v => match v with | .ref i => some i | _ => none
   | _ => []) ++
  (match o.lookup "allOf" with
   | some (.arr l) => l.filterMap fun v => match v with | .ref i => some i | _ => none
   | _ => [])

/-- `_sanitize_parameters_recursive(schema, visited)`: already-visited
objects are skipped; otherwise the object is marked visited, its
unsupported fields deleted in place, and the recursion descends into its
child sub-schemas.  Recursion depth is bounded by `fuel` (every
productive call marks a fresh id visited, so any fuel exceeding the
number of heap objects suffices; `fuelSufficient` below makes this
precise). -/
def sanRec : Nat → Heap → List Nat → Nat → Heap × List Nat
  | 0, h, visited, _ => (h, visited)
  | fuel + 1, h, visited, i =>
    if i ∈ visited then (h, visited)
    else
      let visited1 := i :: visited
      match heapGet h i with
      | none => (h, visited1)
      | some o =>
        let o1 := sanitizeObj o
        let h1 := heapSet h i o1
        (childIds o1).foldl (fun p c => sanRec fuel p.1 p.2 c) (h1, visited1)

/-- `sanitize_parameters(schema)`: a falsy schema (absent object or empty
dict) is returned as-is; otherwise a shallow copy is allocated at the
fresh id (its entries — including the references to nested dicts — are
the original's) and the recursive cleaner is run on the copy. -/
def sanitize_parameters (h : Heap) (root fresh : Nat) : Heap × Nat :=
  match heapGet h root with
  | none => (h, root)
  | some o =>
    if o.entries = [] then (h, root)
    else
      let h1 : Heap := (fresh, o) :: h
      ((sanRec (h1.length + 1) h1 [] fresh).1, fresh)

/-! ## The tool registry (`tools/registry.py`) and the MCP
unregistration path (`tools/mcp/mcp_registry.py`) -/

/-- The slice of a `Tool` object that the registry operations read: its
stable `name`, its `description`, and (for `get_function_declarations`)
the heap id of its stored `parameter_schema` dict. -/
structure RegTool where
  name : String
  description : String := ""
  schemaRoot : Nat := 0
deriving DecidableEq, Repr

/-- `ToolInfo` (`registry.py`). -/
structure ToolInfo where
  tool : RegTool
  capabilities : List String
  tags : List String
  priority : Nat := 50
  metadata : List (String × String) := []
deriving DecidableEq, Repr

/-- `ToolRegistry`'s three indices: `self.tools` (name → `ToolInfo`),
`self._capability_index` (capability → set of names), `self._tag_index`
(tag → set of names).  Dicts are insertion-ordered association lists and
Python sets are membership-deduplicated lists. -/
structure ToolRegistry where
  tools : List (String × ToolInfo) := []
  capability_index : List (String × List String) := []
  tag_index : List (String × List String) := []
deriving DecidableEq, Repr

/-- `self.tools[tool.name] = tool_info`: replace in place or append. -/
def dictPutInfo (d : List (String × ToolInfo)) (k : String) (v : ToolInfo) :
    List (String × ToolInfo) :=
  if d.any (fun kv => kv.1 = k) then d.map (fun kv => if kv.1 = k then (k, v) else kv)
  else d ++ [(k, v)]

/-- `index.setdefault(key, set()).add(name)`. -/
def indexAdd (idx : List (String × List String)) (k name : String) :
    List (String × List String) :=
  if idx.any (fun kv => kv.1 = k) then
    idx.map fun kv =>
      if kv.1 = k then (k, if name ∈ kv.2 then kv.2 else kv.2 ++ [name]) else kv
  else idx ++ [(k, [name])]

/-- `ToolRegistry.register_tool`: adds the tool to the primary index and
to every capability and tag index. -/
def register_tool (reg : ToolRegistry) (tool : RegTool) (capabilities : List String)
    (tags : List String) (priority : Nat) (metadata : List (String × String)) :
    ToolRegistry :=
  let tool_info : ToolInfo := ⟨tool, capabilities, tags, priority, metadata⟩
  { tools := dictPutInfo reg.tools tool.name tool_info
    capability_index := capabilities.foldl (fun ci cap => indexAdd ci cap tool.name)
      reg.capability_index
    tag_index := tags.foldl (fun ti tag => indexAdd ti tag tool.name) reg.tag_index }

/-- `ToolRegistry.get_tool`. -/
def get_tool (reg : ToolRegistry) (name : String) : Option RegTool :=
  ((reg.tools.find? fun kv => kv.1 = name).map fun kv => kv.2.tool)

/-- `MCPRegistry._unregister_all_tools` (`mcp_registry.py`): for each
tracked tool name, remove it from the main registry *only if* the
registry has an `unregister_tool` method — `hasattr(tool_registry,
'unregister_tool')` is `False`, since `ToolRegistry` (`registry.py`)
defines no such method — and delete the name from the MCP registry's own
`registered_tools` tracking dict.  Returns the (untouched) registry and
the remaining tracked names. -/
def unregisterAllTools (reg : ToolRegistry) (registered_tools : List String) :
    ToolRegistry × List String :=
  registered_tools.foldl
    (fun p tool_name => (p.1, p.2.filter fun n => n ≠ tool_name))
    (reg, registered_tools)

/-- One entry of the declaration list built by
`ToolRegistry.get_function_declarations`: `{"name": ..., "description":
..., "parameters": cleaned}` with `parameters` the heap id returned by
`sanitize_parameters`. -/
structure FnDecl where
  name : String
  description : String
  parameters : Nat
deriving DecidableEq, Repr

/-- Priority order used by `sorted(self.tools.values(), key=lambda x:
x.priority, reverse=True)`. -/
def priorityGe (a b : ToolInfo) : Prop := b.priority ≤ a.priority

instance : DecidableRel priorityGe := fun a b => Nat.decLe b.priority a.priority

/-- `ToolRegistry.get_function_declarations`: sort the registered tools
by priority descending, then for each tool sanitize its stored
`parameter_schema` (each call allocates one fresh heap id) and emit its
declaration.  The heap is threaded through the calls because
`sanitize_parameters` mutates the nested dicts of the stored schemas in
place. -/
def get_function_declarations (reg : ToolRegistry) (h : Heap) (fresh : Nat) :
    Heap × Nat × List FnDecl :=
  let sorted_tools := (reg.tools.map Prod.snd).insertionSort priorityGe
  sorted_tools.foldl
    (fun (acc : Heap × Nat × List FnDecl) info =>
      let cleaned := sanitize_parameters acc.1 info.tool.schemaRoot acc.2.1
      (cleaned.1, acc.2.1 + 1,
       acc.2.2 ++ [⟨info.tool.name, info.tool.description, cleaned.2⟩]))
    (h, fresh, [])

/-! ## Derived notions used by the theorems -/

/-- The condition under which the completion sweep clears the list:
non-empty, every call terminal, none awaiting approval, none executing. -/
def sweepCond (l : List ToolCall) : Prop :=
  l ≠ [] ∧ (∀ c ∈ l, c.status.isTerminal) ∧
  (∀ c ∈ l, c.status ≠ .awaiting_approval) ∧ (∀ c ∈ l, c.status ≠ .executing)

instance (l : List ToolCall) : Decidable (sweepCond l) := by
  unfold sweepCond; infer_instance

/-- The defined edges of the tool-call state machine (spec §4.5):
`validating → scheduled | awaitingApproval | error`,
`scheduled → executing`, `awaitingApproval → scheduled | cancelled`,
`executing → success | error | cancelled`. -/
def validEdge : TStatus → TStatus → Bool
  | .validating, .scheduled => true
  | .validating, .awaiting_approval => true
  | .validating, .error => true
  | .scheduled, .executing => true
  | .awaiting_approval, .scheduled => true
  | .awaiting_approval, .cancelled => true
  | .executing, .success => true
  | .executing, .error => true
  | .executing, .cancelled => true
  | _, _ => false

/-- An observable operation on the scheduler: a `schedule` call or a
`handle_confirmation_response` call, with the environment's behaviour,
the signal state and the clock reading during the operation. -/
inductive SchedOp where
  | sched (requests : List ToolCallRequestInfo) (env : ToolEnv) (aborted : Bool) (now : Nat)
  | confirm (cid outcome : String) (env : ToolEnv) (aborted : Bool) (payload : Option Args)
      (now : Nat)

/-- Apply one operation to the scheduler state. -/
def applyOp (s : SchedulerState) : SchedOp → SchedulerState
  | .sched requests env aborted now => (schedule s requests env aborted now).1
  | .confirm cid outcome env aborted payload now =>
    handleConfirmationResponse s cid outcome env aborted payload now

/-- The input contract on a batch (spec §3: "CallId MUST be unique within
a batch"; a fresh batch also does not reuse the id of a call still held
by the scheduler). -/
def freshBatch (s : SchedulerState) (requests : List ToolCallRequestInfo) : Prop :=
  (requests.map fun r => r.call_id).Nodup ∧
  ∀ r ∈ requests, ∀ c ∈ s.tool_calls, r.call_id ≠ c.request.call_id

/-- Contract on operations: `schedule` receives well-formed batches. -/
def goodOp (s : SchedulerState) : SchedOp → Prop
  | .sched requests _ _ _ => freshBatch s requests
  | .confirm _ _ _ _ _ _ => True

/-- Scheduler states reachable from the initial state by sequences of
contract-respecting operations. -/
inductive Reach : SchedulerState → Prop
  | init : Reach initState
  | step {s : SchedulerState} (op : SchedOp) : Reach s → goodOp s op → Reach (applyOp s op)

/-- The response shape of a terminal call: `success` and `error` calls
carry a `functionResponse` whose `id` is the request's `call_id` and
whose `name` is the request's `name`; `cancelled` calls carry the
user-cancelled text part.  In both cases the response's own `call_id`
field is the request's `call_id`. -/
def TermShape (c : ToolCall) : Prop :=
  ((c.status = .success ∨ c.status = .error) →
    ∃ r pl, c.response = some r ∧ r.call_id = c.request.call_id ∧
      r.response_parts = .functionResponse c.request.call_id c.request.name pl) ∧
  (c.status = .cancelled →
    ∃ r, c.response = some r ∧ r.call_id = c.request.call_id ∧
      r.response_parts = .text "User cancelled the operation")

/-- Observable progress between two states of one operation: events are
only appended, and the `tool_calls` list can become empty only if it
already was or an `on_all_tools_complete` callback fired on the way. -/
def Progress (s0 s1 : SchedulerState) : Prop :=
  ∃ e, s1.events = s0.events ++ e ∧
    (s1.tool_calls = [] → s0.tool_calls = [] ∨ ∃ l, SchedEvent.allComplete l ∈ e)

/-! ## Lemmas about the completion sweep -/

theorem checkAndNotifyCompletion_of_not_cond {s : SchedulerState}
    (h : ¬sweepCond s.tool_calls) : checkAndNotifyCompletion s = s := by
  unfold checkAndNotifyCompletion
  by_cases h0 : s.tool_calls.length = 0
  · simp [h0]
  · simp only [h0, if_false]
    rw [if_neg]
    intro ⟨hpos, hterm, hnaw, hnex⟩
    exact h ⟨by simpa using h0,
      fun c hc => by simpa using List.all_eq_true.mp hterm c hc,
      fun c hc hst => hnaw (List.any_eq_true.mpr ⟨c, hc, by simp [hst]⟩),
      fun c hc hst => hnex (List.any_eq_true.mpr ⟨c, hc, by simp [hst]⟩)⟩

theorem checkAndNotifyCompletion_of_cond {s : SchedulerState}
    (h : sweepCond s.tool_calls) :
    checkAndNotifyCompletion s =
      { s with tool_calls := [],
               events := s.events ++ [.allComplete s.tool_calls, .callsUpdate []] } := by
  obtain ⟨hne, hterm, hnaw, hnex⟩ := h
  unfold checkAndNotifyCompletion
  have h0 : ¬s.tool_calls.length = 0 := by simpa using hne
  simp only [h0, if_false]
  rw [if_pos]
  · simp [notifyToolCallsUpdate]
  · refine ⟨List.length_pos.mpr hne,
      List.all_eq_true.mpr fun c hc => by simpa using hterm c hc, ?_, ?_⟩
    · intro hany
      obtain ⟨c, hc, hst⟩ := List.any_eq_true.mp hany
      exact hnaw c hc (by simpa using hst)
    · intro hany
      obtain ⟨c, hc, hst⟩ := List.any_eq_true.mp hany
      exact hnex c hc (by simpa using hst)

/-- The sweep's own result never satisfies the clearing condition. -/
theorem not_sweepCond_checkAndNotifyCompletion (s : SchedulerState) :
    ¬sweepCond (checkAndNotifyCompletion s).tool_calls := by
  by_cases h : sweepCond s.tool_calls
  · rw [checkAndNotifyCompletion_of_cond h]
    rintro ⟨hne, -⟩
    exact hne rfl
  · rw [checkAndNotifyCompletion_of_not_cond h]
    exact h

/-- C2: the scheduler's `tool_calls` list is cleared by the completion
sweep only when it is non-empty, every call is terminal, none is
awaiting approval and none is executing; when it is cleared, the
completed calls are captured, the list emptied, `on_all_tools_complete`
fired exactly once with the captured calls, and listeners notified of
the empty state afterwards (in that order in the event log); the sweep
is a no-op when the condition fails, and it runs after every state
transition — the state `_set_status` leaves behind never still satisfies
the clearing condition. -/
theorem completion_sweep_spec (s : SchedulerState) :
    (¬sweepCond s.tool_calls → checkAndNotifyCompletion s = s) ∧
    (sweepCond s.tool_calls →
      checkAndNotifyCompletion s =
        { s with tool_calls := [],
                 events := s.events ++ [.allComplete s.tool_calls, .callsUpdate []] }) ∧
    ((checkAndNotifyCompletion s).tool_calls = [] →
      s.tool_calls = [] ∨ sweepCond s.tool_calls) ∧
    (∀ cid st details now, ¬sweepCond ((setStatus s cid st details now).tool_calls)) := by
  refine ⟨fun h => checkAndNotifyCompletion_of_not_cond h,
    fun h => checkAndNotifyCompletion_of_cond h, ?_, ?_⟩
  · intro hcleared
    by_cases h : sweepCond s.tool_calls
    · exact Or.inr h
    · rw [checkAndNotifyCompletion_of_not_cond h] at hcleared
      exact Or.inl hcleared
  · intro cid st details now
    exact not_sweepCond_checkAndNotifyCompletion _

/-- A concrete terminal call used by several witnesses. -/
def doneCall : ToolCall :=
  { request := { call_id := "w1", name := "t", args := [] }, status := .success,
    response := some ⟨"w1", .functionResponse "w1" "t" (.output "ok"), none, none⟩,
    duration_ms := some 0 }

theorem completion_sweep_spec_witness :
    checkAndNotifyCompletion ⟨[doneCall], [], [], []⟩ =
      { tool_calls := [], events := [.allComplete [doneCall], .callsUpdate []],
        transitions := [], execLog := [] } :=
  (completion_sweep_spec ⟨[doneCall], [], [], []⟩).2.1 (by decide)

/-! ## C4: the `schedule` pre-condition -/

/-- C4: `schedule` raises exactly when some call is `executing` or
`awaiting_approval`, and when it raises it changes nothing — the state
(including all logs) is returned untouched. -/
theorem schedule_running_guard (s : SchedulerState) (requests : List ToolCallRequestInfo)
    (env : ToolEnv) (aborted : Bool) (now : Nat) :
    ((schedule s requests env aborted now).2 = true ↔
      ∃ c ∈ s.tool_calls, c.status = .executing ∨ c.status = .awaiting_approval) ∧
    ((schedule s requests env aborted now).2 = true →
      (schedule s requests env aborted now).1 = s) := by
  have hrun : isRunning s = true ↔
      ∃ c ∈ s.tool_calls, c.status = .executing ∨ c.status = .awaiting_approval := by
    simp [isRunning, List.any_eq_true, or_comm]
  by_cases h : isRunning s
  · constructor
    · simpa [schedule, h] using hrun
    · intro _
      simp [schedule, h]
  · constructor
    · constructor
      · intro hfalse
        rw [schedule] at hfalse
        simp [h] at hfalse
      · intro hex
        exact absurd (hrun.mpr hex) h
    · intro hfalse
      rw [schedule] at hfalse
      simp [h] at hfalse

theorem schedule_running_guard_witness :
    (schedule ⟨[{ doneCall with status := .executing }], [], [], []⟩ []
      ⟨fun _ => none, fun _ _ _ => .ok none, fun _ _ _ => .ok {}⟩ false 0).1 =
      ⟨[{ doneCall with status := .executing }], [], [], []⟩ :=
  (schedule_running_guard _ _ _ _ _).2
    (((schedule_running_guard _ _ _ _ _).1).mpr
      ⟨{ doneCall with status := .executing }, by simp, Or.inl rfl⟩)

/-! ## C9: the registry has no unregister operation -/

theorem find_map_replace (d : List (String × ToolInfo)) (k : String) (v : ToolInfo)
    (h : d.any (fun kv => kv.1 = k) = true) :
    ((d.map fun kv => if kv.1 = k then (k, v) else kv).find? fun kv => kv.1 = k) =
      some (k, v) := by
  induction d with
  | nil => simp at h
  | cons a d ih =>
    by_cases ha : a.1 = k
    · simp [ha, List.find?]
    · have h' : d.any (fun kv => kv.1 = k) = true := by
        simpa [List.any_cons, ha] using h
      simpa [List.find?, ha] using ih h'

theorem find_dictPutInfo (d : List (String × ToolInfo)) (k : String) (v : ToolInfo) :
    ((dictPutInfo d k v).find? fun kv => kv.1 = k) = some (k, v) := by
  unfold dictPutInfo
  by_cases h : d.any (fun kv => kv.1 = k) = true
  · simpa [h] using find_map_replace d k v h
  · simp only [h, if_false]
    induction d with
    | nil => simp [List.find?]
    | cons a d ih =>
      have ha : ¬a.1 = k := by
        intro hk
        exact h (by simp [List.any_cons, hk])
      have h' : ¬d.any (fun kv => kv.1 = k) = true := by
        intro hd
        exact h (by simp [List.any_cons, hd])
      simpa [List.find?, ha] using ih h'

theorem get_tool_register_tool (reg : ToolRegistry) (tool : RegTool)
    (capabilities tags : List String) (priority : Nat) (metadata : List (String × String)) :
    get_tool (register_tool reg tool capabilities tags priority metadata) tool.name =
      some tool := by
  unfold get_tool register_tool
  rw [find_dictPutInfo]
  rfl

theorem unregisterAllTools_foldl (names : List String) (reg : ToolRegistry)
    (l0 : List String) :
    names.foldl (fun p tool_name => (p.1, p.2.filter fun n => n ≠ tool_name)) (reg, l0) =
      (reg, l0.filter fun n => !names.contains n) := by
  induction names generalizing l0 with
  | nil => simp
  | cons m rest ih =>
    rw [List.foldl_cons, ih]
    refine congrArg (Prod.mk reg) ?_
    rw [List.filter_filter]
    apply List.filter_congr
    intro x _
    by_cases hx : x = m <;> simp [hx, List.contains_cons]

/-- C9 counterexample: register a tool, run the MCP unregistration path
(`MCPRegistry._unregister_all_tools`) for it — the registry is *not*
restored to its pre-registration state: the tool is still found. -/
theorem register_unregister_not_inverse :
    ((unregisterAllTools
        (register_tool {} ⟨"srv__echo", "", 0⟩ ["mcp"] ["mcp", "external"] 60 [])
        ["srv__echo"]).1 ≠ ({} : ToolRegistry)) ∧
    get_tool (unregisterAllTools
        (register_tool {} ⟨"srv__echo", "", 0⟩ ["mcp"] ["mcp", "external"] 60 [])
        ["srv__echo"]).1 "srv__echo" = some ⟨"srv__echo", "", 0⟩ ∧
    get_tool ({} : ToolRegistry) "srv__echo" = none := by
  decide

/-- C9 (amended): `ToolRegistry` provides no unregister operation; the
MCP removal path tests `hasattr(tool_registry, 'unregister_tool')`,
which fails, so it leaves every index of the main registry untouched and
only empties the MCP registry's own tracking dict — in particular,
registering a tool and then running the unregistration path leaves the
tool registered. -/
theorem unregister_leaves_registry_untouched (reg : ToolRegistry) (names : List String) :
    (unregisterAllTools reg names).1 = reg ∧ (unregisterAllTools reg names).2 = [] ∧
    ∀ (tool : RegTool) (capabilities tags : List String) (priority : Nat)
      (metadata : List (String × String)),
      get_tool (unregisterAllTools
          (register_tool reg tool capabilities tags priority metadata)
          [tool.name]).1 tool.name = some tool := by
  refine ⟨?_, ?_, ?_⟩
  · rw [unregisterAllTools, unregisterAllTools_foldl]
  · rw [unregisterAllTools, unregisterAllTools_foldl]
    simp [List.filter_eq_nil_iff]
  · intro tool capabilities tags priority metadata
    rw [unregisterAllTools, unregisterAllTools_foldl]
    exact get_tool_register_tool _ _ _ _ _ _

/-! ## Structural lemmas about `_set_status` and the execution loop -/

@[simp] theorem notifyToolCallsUpdate_tool_calls (s : SchedulerState) :
    (notifyToolCallsUpdate s).tool_calls = s.tool_calls := rfl

@[simp] theorem notifyToolCallsUpdate_transitions (s : SchedulerState) :
    (notifyToolCallsUpdate s).transitions = s.transitions := rfl

@[simp] theorem notifyToolCallsUpdate_execLog (s : SchedulerState) :
    (notifyToolCallsUpdate s).execLog = s.execLog := rfl

@[simp] theorem checkAndNotifyCompletion_transitions (s : SchedulerState) :
    (checkAndNotifyCompletion s).transitions = s.transitions := by
  by_cases h : sweepCond s.tool_calls
  · rw [checkAndNotifyCompletion_of_cond h]
  · rw [checkAndNotifyCompletion_of_not_cond h]

@[simp] theorem checkAndNotifyCompletion_execLog (s : SchedulerState) :
    (checkAndNotifyCompletion s).execLog = s.execLog := by
  by_cases h : sweepCond s.tool_calls
  · rw [checkAndNotifyCompletion_of_cond h]
  · rw [checkAndNotifyCompletion_of_not_cond h]

@[simp] theorem setStatus_transitions (s : SchedulerState) (cid : String) (st : TStatus)
    (details : Option Details) (now : Nat) :
    (setStatus s cid st details now).transitions =
      s.transitions ++ (setStatusCore s.tool_calls cid st details now).2 := by
  simp [setStatus]

@[simp] theorem setStatus_execLog (s : SchedulerState) (cid : String) (st : TStatus)
    (details : Option Details) (now : Nat) :
    (setStatus s cid st details now).execLog = s.execLog := by
  simp [setStatus]

@[simp] theorem setStatusTracked_state (frozen : Option (List ToolCall)) (s : SchedulerState)
    (cid : String) (st : TStatus) (details : Option Details) (now : Nat) :
    (setStatusTracked frozen s cid st details now).2 = setStatus s cid st details now := rfl

theorem mkStatusCall_status {tc : ToolCall} {st : TStatus} {details : Option Details}
    {now : Nat} {nc : ToolCall} (h : mkStatusCall tc st details now = some nc) :
    nc.status = st := by
  cases st <;> simp [mkStatusCall] at h <;> simp [← h]

theorem setStatusCore_trans {l : List ToolCall} {cid : String} {st : TStatus}
    {details : Option Details} {now : Nat} :
    ∀ t ∈ (setStatusCore l cid st details now).2,
      t.call_id = cid ∧ t.newCall.status = st ∧ t.before.isTerminal = false ∧
      ∃ tc ∈ l, tc.request.call_id = cid ∧ t.before = tc.status ∧
        mkStatusCall tc st details now = some t.newCall := by
  induction l with
  | nil => simp [setStatusCore]
  | cons a l ih =>
    intro t ht
    rw [setStatusCore] at ht
    by_cases hmatch : a.request.call_id = cid ∧ ¬a.status.isTerminal
    · rw [if_pos hmatch] at ht
      rcases hmk : mkStatusCall a st details now with - | nc
      · rw [hmk] at ht
        simp only at ht
        obtain ⟨hc, hnc, hbt, tc, htc, h1, h2, h3⟩ := ih t ht
        exact ⟨hc, hnc, hbt, tc, List.mem_cons_of_mem _ htc, h1, h2, h3⟩
      · rw [hmk] at ht
        simp only [List.mem_singleton] at ht
        subst ht
        refine ⟨rfl, mkStatusCall_status hmk, by simpa using hmatch.2,
          a, List.mem_cons_self _ _, hmatch.1, rfl, hmk⟩
    · rw [if_neg hmatch] at ht
      simp only at ht
      obtain ⟨hc, hnc, hbt, tc, htc, h1, h2, h3⟩ := ih t ht
      exact ⟨hc, hnc, hbt, tc, List.mem_cons_of_mem _ htc, h1, h2, h3⟩

/-- Generic preservation of a state predicate along the execution loop. -/
theorem foldl_execStep_pres {env : ToolEnv} {aborted : Bool} {now : Nat}
    {P : Option (List ToolCall) × SchedulerState → Prop}
    (hstep : ∀ p i, P p → P (execStep env aborted now p i)) :
    ∀ (idxs : List Nat) (p), P p → P (idxs.foldl (execStep env aborted now) p) := by
  intro idxs
  induction idxs with
  | nil => intro p hp; exact hp
  | cons i idxs ih => intro p hp; exact ih _ (hstep p i hp)
/-- Transitions appended by one execution-loop step: each is a move of
some non-terminal call into `executing`, `success` or `error`. -/
theorem execStep_transitions_sub (env : ToolEnv) (aborted : Bool) (now : Nat)
    (p : Option (List ToolCall) × SchedulerState) (i : Nat) :
    ∀ u ∈ (execStep env aborted now p i).2.transitions,
      u ∈ p.2.transitions ∨
      ((u.newCall.status = .executing ∨ u.newCall.status = .success ∨
        u.newCall.status = .error) ∧ u.before.isTerminal = false) := by
  rcases hobj : (p.1.getD p.2.tool_calls)[i]? with - | tc
  · intro u hu
    simp only [execStep, List.get?_eq_getElem?, hobj] at hu
    exact Or.inl hu
  · by_cases hsc : tc.status = .scheduled
    · unfold execStep
      simp only [List.get?_eq_getElem?]
      rw [hobj]
      simp only []
      rw [if_pos hsc]
      rcases htool : tc.tool with - | t <;> simp only [htool]
      · intro u hu
        simp only [setStatusTracked_state, setStatus_transitions, List.append_assoc,
          List.mem_append] at hu
        rcases hu with hu | hu | hu
        · exact Or.inl hu
        · obtain ⟨-, h2, h3, -⟩ := setStatusCore_trans u hu
          exact Or.inr ⟨Or.inl h2, h3⟩
        · obtain ⟨-, h2, h3, -⟩ := setStatusCore_trans u hu
          exact Or.inr ⟨Or.inr (by simp [h2]), h3⟩
      · rcases hres : env.exec t tc.request.args aborted with e | result <;>
          simp only [hres]
        · intro u hu
          simp only [setStatusTracked_state, setStatus_transitions, List.append_assoc,
            List.mem_append] at hu
          rcases hu with hu | hu | hu
          · exact Or.inl hu
          · obtain ⟨-, h2, h3, -⟩ := setStatusCore_trans u hu
            exact Or.inr ⟨Or.inl h2, h3⟩
          · obtain ⟨-, h2, h3, -⟩ := setStatusCore_trans u hu
            exact Or.inr ⟨Or.inr (by simp [h2]), h3⟩
        · rcases herr : result.error with - | err <;> simp only [herr]
          all_goals
            intro u hu
            simp only [setStatusTracked_state, setStatus_transitions, List.append_assoc,
              List.mem_append] at hu
            rcases hu with hu | hu | hu
            · exact Or.inl hu
            · obtain ⟨-, h2, h3, -⟩ := setStatusCore_trans u hu
              exact Or.inr ⟨Or.inl h2, h3⟩
            · obtain ⟨-, h2, h3, -⟩ := setStatusCore_trans u hu
              exact Or.inr ⟨Or.inr (by simp [h2]), h3⟩
    · intro u hu
      simp only [execStep, List.get?_eq_getElem?, hobj, hsc, if_false] at hu
      exact Or.inl hu

/-- The execution log written by one execution-loop step: nothing, or one
adjacent `start`/`finish` pair — the awaited `execute` of one call
returns before anything else happens. -/
theorem execStep_execLog (env : ToolEnv) (aborted : Bool) (now : Nat)
    (p : Option (List ToolCall) × SchedulerState) (i : Nat) :
    (execStep env aborted now p i).2.execLog = p.2.execLog ∨
    ∃ cid, (execStep env aborted now p i).2.execLog =
      p.2.execLog ++ [.start cid, .finish cid] := by
  rcases hobj : (p.1.getD p.2.tool_calls)[i]? with - | tc
  · left
    simp [execStep, hobj]
  · by_cases hsc : tc.status = .scheduled
    · right
      refine ⟨tc.request.call_id, ?_⟩
      unfold execStep
      simp only [List.get?_eq_getElem?]
      rw [hobj]
      simp only []
      rw [if_pos hsc]
      rcases htool : tc.tool with - | t <;> simp only [htool]
      · simp [setStatusTracked_state, setStatus_execLog]
      · rcases hres : env.exec t tc.request.args aborted with e | result <;>
          simp only [hres]
        · simp [setStatusTracked_state, setStatus_execLog]
        · rcases herr : result.error with - | err <;> simp only [herr] <;>
            simp [setStatusTracked_state, setStatus_execLog]
    · left
      simp [execStep, hobj, hsc]

/-! ## C7: abort during execution never yields `cancelled` -/

/-- The lists passed to `on_all_tools_complete`, in order. -/
def completedLists (s : SchedulerState) : List (List ToolCall) :=
  s.events.filterMap fun e => match e with | .allComplete l => some l | _ => none

/-- A registry/tool environment whose single tool honours cancellation:
when the signal is aborted, `execute` returns promptly with a
cancellation error in the `ToolResult`. -/
def envAbortW : ToolEnv :=
  { getTool := fun n => some n
    shouldConfirm := fun _ _ _ => .ok none
    exec := fun _ _ aborted =>
      if aborted then .ok { llm_content := "", error := some "Operation cancelled by user" }
      else .ok { llm_content := "done" } }

/-- C7 counterexample: one scheduled call whose tool honours the aborted
signal (returns promptly with a cancellation error).  The scheduler
transitions it into `error`, not `cancelled`: the batch completes with
exactly one call whose terminal status is `error`. -/
theorem abort_during_execution_not_cancelled :
    ((completedLists
        ((schedule initState [⟨"c9", "alpha", [], false, ""⟩] envAbortW true 5).1)).flatten.map
      fun c => c.status) = [.error] := by
  decide

/-- C7 (amended): the execution path classifies every call it completes
as `success` or `error` only; no transition it performs ever enters
`cancelled` (that state is reached solely through
`handle_confirmation_response`), whatever the signal state. -/
theorem attemptExecution_no_cancelled_transition (s : SchedulerState) (env : ToolEnv)
    (aborted : Bool) (now : Nat) :
    ∀ u ∈ (attemptExecution s env aborted now).transitions,
      u ∈ s.transitions ∨
      ((u.newCall.status = .executing ∨ u.newCall.status = .success ∨
        u.newCall.status = .error) ∧ u.newCall.status ≠ .cancelled) := by
  have key := @foldl_execStep_pres env aborted now
    (fun p => ∀ u ∈ p.2.transitions, u ∈ s.transitions ∨
      ((u.newCall.status = .executing ∨ u.newCall.status = .success ∨
        u.newCall.status = .error) ∧ u.newCall.status ≠ .cancelled))
    (fun p i hp u hu => by
      rcases execStep_transitions_sub env aborted now p i u hu with h | ⟨h2, -⟩
      · exact hp u h
      · refine Or.inr ⟨h2, ?_⟩
        rcases h2 with h2 | h2 | h2 <;> simp [h2])
    (List.range s.tool_calls.length) (none, s)
    (fun u hu => Or.inl hu)
  exact key

/-- A concrete scheduled call used by execution-path witnesses. -/
def schedCallW : ToolCall :=
  { request := ⟨"c9", "alpha", [], false, ""⟩, tool := some "alpha", status := .scheduled,
    start_time := some 1 }

theorem attemptExecution_no_cancelled_transition_witness :
    (⟨"c9", .scheduled,
        { request := ⟨"c9", "alpha", [], false, ""⟩, tool := some "alpha",
          status := .executing, start_time := some 1 }⟩ : Trans) ∈
      (⟨[schedCallW], [], [], []⟩ : SchedulerState).transitions ∨
    ((({ request := ⟨"c9", "alpha", [], false, ""⟩, tool := some "alpha",
          status := .executing, start_time := some 1 } : ToolCall).status = .executing ∨
      ({ request := ⟨"c9", "alpha", [], false, ""⟩, tool := some "alpha",
          status := .executing, start_time := some 1 } : ToolCall).status = .success ∨
      ({ request := ⟨"c9", "alpha", [], false, ""⟩, tool := some "alpha",
          status := .executing, start_time := some 1 } : ToolCall).status = .error) ∧
      ({ request := ⟨"c9", "alpha", [], false, ""⟩, tool := some "alpha",
          status := .executing, start_time := some 1 } : ToolCall).status ≠ .cancelled) :=
  attemptExecution_no_cancelled_transition ⟨[schedCallW], [], [], []⟩ envAbortW true 5
    _ (by decide)

/-! ## C8: execution within a batch is sequential, not concurrent -/

/-- The execution log of a strictly sequential run: for each executed
call, its `start` immediately followed by its `finish`. -/
def seqTrace (cids : List String) : List ExecEv :=
  cids.flatMap fun c => [.start c, .finish c]

/-- A registry/tool environment with every tool present, no confirmation,
and a plain successful `execute`. -/
def envSeqW : ToolEnv :=
  { getTool := fun n => some n
    shouldConfirm := fun _ _ _ => .ok none
    exec := fun t _ _ => .ok { llm_content := t } }

/-- C8 counterexample: a batch of two tool calls.  The execution log of
the `schedule` call shows the first call's `execute` returning before
the second call's `execute` starts — the executions are strictly
ordered, not concurrent. -/
theorem executes_are_ordered :
    ((schedule initState
        [⟨"c1", "alpha", [], false, ""⟩, ⟨"c2", "beta", [], false, ""⟩]
        envSeqW false 0).1).execLog =
      [.start "c1", .finish "c1", .start "c2", .finish "c2"] := by
  decide

theorem validateLoop_execLog (env : ToolEnv) (aborted : Bool) (now : Nat) :
    ∀ (l : List ToolCall) (s : SchedulerState),
      (validateLoop env aborted now l s).execLog = s.execLog := by
  intro l
  induction l with
  | nil => intro s; rfl
  | cons tc rest ih =>
    intro s
    rw [validateLoop]
    by_cases h : tc.status = .validating
    · rw [if_pos h]
      rcases htool : tc.tool with - | t <;> simp only [htool]
      · rw [ih, setStatus_execLog]
      · rcases hc : env.shouldConfirm t tc.request.args aborted with e | c
        · simp only [hc]
          rw [ih, setStatus_execLog]
        · rcases c with - | cd <;> simp only [hc] <;> rw [ih, setStatus_execLog]
    · rw [if_neg h, ih]

/-- C8 (amended): within a single `schedule` call the tools run strictly
sequentially — the log it appends is a sequence of adjacent
`start`/`finish` pairs: each launched `execute` returns before the next
one starts. -/
theorem schedule_executes_sequentially (s : SchedulerState)
    (requests : List ToolCallRequestInfo) (env : ToolEnv) (aborted : Bool) (now : Nat) :
    ∃ cids, ((schedule s requests env aborted now).1).execLog =
      s.execLog ++ seqTrace cids := by
  by_cases h : isRunning s
  · refine ⟨[], ?_⟩
    simp [schedule, h, seqTrace]
  · rw [schedule, if_neg h]
    have base :
        (validateLoop env aborted now (makeNewCalls env now requests)
          (notifyToolCallsUpdate
            { s with tool_calls := s.tool_calls ++ makeNewCalls env now requests })).execLog =
        s.execLog := by
      rw [validateLoop_execLog]
      rfl
    have key := @foldl_execStep_pres env aborted now
      (fun p => ∃ cids, p.2.execLog = s.execLog ++ seqTrace cids)
      (fun p i hp => by
        obtain ⟨cids, hc⟩ := hp
        rcases execStep_execLog env aborted now p i with hlog | ⟨cid, hlog⟩
        · exact ⟨cids, by rw [hlog, hc]⟩
        · exact ⟨cids ++ [cid], by
            rw [hlog, hc, seqTrace, seqTrace]
            simp⟩)
      (List.range (validateLoop env aborted now (makeNewCalls env now requests)
        (notifyToolCallsUpdate
          { s with tool_calls := s.tool_calls ++ makeNewCalls env now requests
            })).tool_calls.length)
      (none, _)
      ⟨[], by simpa [seqTrace] using base⟩
    exact key

/-! ## Positional behaviour of the `_set_status` scan -/

/-- The call ids of a list of calls. -/
def idsOf (l : List ToolCall) : List String := l.map fun c => c.request.call_id

theorem mkStatusCall_request {tc : ToolCall} {st : TStatus} {details : Option Details}
    {now : Nat} {nc : ToolCall} (h : mkStatusCall tc st details now = some nc) :
    nc.request = tc.request := by
  cases st <;> simp [mkStatusCall] at h <;> simp [← h]

/-- The scan replaces nothing when no call both matches the id and is
non-terminal. -/
theorem setStatusCore_no_match {l : List ToolCall} {cid : String} {st : TStatus}
    {details : Option Details} {now : Nat}
    (h : ∀ u ∈ l, u.request.call_id = cid → u.status.isTerminal) :
    setStatusCore l cid st details now = (l, []) := by
  induction l with
  | nil => rfl
  | cons a l ih =>
    rw [setStatusCore]
    have hcond : ¬(a.request.call_id = cid ∧ ¬a.status.isTerminal) := by
      rintro ⟨h1, h2⟩
      exact h2 (h a (List.mem_cons_self a l) h1)
    rw [if_neg hcond, ih (fun u hu => h u (List.mem_cons_of_mem a hu))]

/-- The scan never builds a replacement for target status `validating`. -/
theorem setStatusCore_validating {l : List ToolCall} {cid : String}
    {details : Option Details} {now : Nat} :
    setStatusCore l cid .validating details now = (l, []) := by
  induction l with
  | nil => rfl
  | cons a l ih =>
    rw [setStatusCore]
    by_cases hc : a.request.call_id = cid ∧ ¬a.status.isTerminal
    · rw [if_pos hc]
      simp [mkStatusCall, ih]
    · rw [if_neg hc, ih]

/-- When the matching non-terminal call sits at position `i`, every
earlier call fails to match, and the target status has a constructor,
the scan replaces exactly position `i`. -/
theorem setStatusCore_replace_at {l : List ToolCall} {cid : String} {st : TStatus}
    {details : Option Details} {now : Nat} {i : Nat} {tc nc : ToolCall}
    (hbefore : ∀ j u, j < i → l[j]? = some u → u.request.call_id = cid → u.status.isTerminal)
    (hi : l[i]? = some tc) (hcid : tc.request.call_id = cid)
    (hnt : ¬tc.status.isTerminal = true)
    (hmk : mkStatusCall tc st details now = some nc) :
    setStatusCore l cid st details now = (l.set i nc, [⟨cid, tc.status, nc⟩]) := by
  induction l generalizing i with
  | nil => simp at hi
  | cons a l ih =>
    cases i with
    | zero =>
      simp only [List.getElem?_cons_zero, Option.some.injEq] at hi
      subst hi
      rw [setStatusCore, if_pos ⟨hcid, hnt⟩, hmk]
      rfl
    | succ i =>
      simp only [List.getElem?_cons_succ] at hi
      have ha : ¬(a.request.call_id = cid ∧ ¬a.status.isTerminal) := by
        rintro ⟨h1, h2⟩
        exact h2 (hbefore 0 a (Nat.succ_pos i) (by simp) h1)
      rw [setStatusCore, if_neg ha,
        ih (fun j u hj hju => hbefore (j + 1) u (Nat.succ_lt_succ hj) (by simpa using hju)) hi]
      rfl

/-- If the list's ids are distinct, the element at `i` is the unique
match, so the scan rewrites exactly it. -/
theorem setStatusCore_replace_of_nodup {l : List ToolCall} {cid : String} {st : TStatus}
    {details : Option Details} {now : Nat} {i : Nat} {tc nc : ToolCall}
    (hnodup : (idsOf l).Nodup) (hi : l[i]? = some tc) (hcid : tc.request.call_id = cid)
    (hnt : ¬tc.status.isTerminal = true)
    (hmk : mkStatusCall tc st details now = some nc) :
    setStatusCore l cid st details now = (l.set i nc, [⟨cid, tc.status, nc⟩]) := by
  refine setStatusCore_replace_at ?_ hi hcid hnt hmk
  intro j u hj hju hcidu
  exfalso
  have hilen : i < l.length := (List.getElem?_eq_some_iff.mp hi).1
  have hjlen : j < l.length := (List.getElem?_eq_some_iff.mp hju).1
  have hne : j ≠ i := Nat.ne_of_lt hj
  have := @List.Nodup.getElem_inj_iff _ (idsOf l) (by simpa [idsOf] using hnodup)
    j (by simpa [idsOf] using hjlen) i (by simpa [idsOf] using hilen)
  apply hne
  apply this.mp
  simp only [idsOf, List.getElem_map]
  have hju' : l[j] = u := by
    have := List.getElem?_eq_some_iff.mp hju
    exact this.2
  have hi' : l[i] = tc := (List.getElem?_eq_some_iff.mp hi).2
  rw [hju', hi', hcidu, hcid]

/-- The scan preserves the id sequence. -/
theorem setStatusCore_ids {l : List ToolCall} (cid : String) (st : TStatus)
    (details : Option Details) (now : Nat) :
    idsOf (setStatusCore l cid st details now).1 = idsOf l := by
  induction l with
  | nil => rfl
  | cons a l ih =>
    rw [setStatusCore]
    by_cases hc : a.request.call_id = cid ∧ ¬a.status.isTerminal
    · rw [if_pos hc]
      rcases hmk : mkStatusCall a st details now with - | nc
      · simpa [idsOf] using ih
      · simp [idsOf, mkStatusCall_request hmk]
    · rw [if_neg hc]
      simpa [idsOf] using ih

/-- A terminal call is never changed by the scan: the element at its
position is preserved verbatim. -/
theorem setStatusCore_preserves_terminal {l : List ToolCall} {cid : String} {st : TStatus}
    {details : Option Details} {now : Nat} {i : Nat} {tc : ToolCall}
    (hi : l[i]? = some tc) (hterm : tc.status.isTerminal = true) :
    ((setStatusCore l cid st details now).1)[i]? = some tc := by
  induction l generalizing i with
  | nil => simp at hi
  | cons a l ih =>
    rw [setStatusCore]
    by_cases hc : a.request.call_id = cid ∧ ¬a.status.isTerminal
    · rw [if_pos hc]
      rcases hmk : mkStatusCall a st details now with - | nc
      · cases i with
        | zero =>
          simp only [List.getElem?_cons_zero, Option.some.injEq] at hi
          subst hi
          simp
        | succ i =>
          simp only [List.getElem?_cons_succ] at hi
          simpa using ih hi
      · cases i with
        | zero =>
          simp only [List.getElem?_cons_zero, Option.some.injEq] at hi
          subst hi
          exact absurd hterm (by simpa using hc.2)
        | succ i =>
          simp only [List.getElem?_cons_succ] at hi
          simpa using hi
    · rw [if_neg hc]
      cases i with
      | zero =>
        simpa using hi
      | succ i =>
        simp only [List.getElem?_cons_succ] at hi
        simpa using ih hi

/-! ## The reachability invariant -/

/-- The state invariant maintained by every contract-respecting operation
sequence: distinct call ids, every recorded transition leaves a
non-terminal status along a defined edge, every terminal call in the
list has the terminal response shape, and every list ever handed to
`on_all_tools_complete` consists of terminal calls of that shape. -/
structure SInv (s : SchedulerState) : Prop where
  nodup : (idsOf s.tool_calls).Nodup
  validTrans : ∀ t ∈ s.transitions,
    t.before.isTerminal = false ∧ validEdge t.before t.newCall.status = true
  termShape : ∀ c ∈ s.tool_calls, TermShape c
  eventsShape : ∀ l, SchedEvent.allComplete l ∈ s.events →
    ∀ c ∈ l, TermShape c ∧ c.status.isTerminal = true

/-- Invariant preservation through a list/transition update followed by
the notify + completion sweep that `_set_status` performs. -/
theorem SInv_update {s : SchedulerState} (h : SInv s) {l' : List ToolCall} {ts : List Trans}
    {el : List ExecEv}
    (hl : (idsOf l').Nodup) (hshape : ∀ c ∈ l', TermShape c)
    (hts : ∀ t ∈ ts, t.before.isTerminal = false ∧ validEdge t.before t.newCall.status = true) :
    SInv (checkAndNotifyCompletion (notifyToolCallsUpdate
      { s with tool_calls := l', transitions := s.transitions ++ ts, execLog := el })) := by
  set s1 : SchedulerState := notifyToolCallsUpdate
    { s with tool_calls := l', transitions := s.transitions ++ ts, execLog := el } with hs1
  have hs1fields : s1.tool_calls = l' ∧ s1.transitions = s.transitions ++ ts ∧
      s1.events = s.events ++ [.callsUpdate l'] := by
    refine ⟨rfl, rfl, rfl⟩
  have hvt : ∀ t ∈ s1.transitions,
      t.before.isTerminal = false ∧ validEdge t.before t.newCall.status = true := by
    rw [hs1fields.2.1]
    intro t ht
    rcases List.mem_append.mp ht with ht | ht
    · exact h.validTrans t ht
    · exact hts t ht
  have hev1 : ∀ l, SchedEvent.allComplete l ∈ s1.events →
      ∀ c ∈ l, TermShape c ∧ c.status.isTerminal = true := by
    rw [hs1fields.2.2]
    intro l hl' c hc
    rcases List.mem_append.mp hl' with hmem | hmem
    · exact h.eventsShape l hmem c hc
    · simp at hmem
  by_cases hc : sweepCond s1.tool_calls
  · rw [checkAndNotifyCompletion_of_cond hc]
    refine ⟨by simp [idsOf], hvt, by simp, ?_⟩
    intro lev hmem c hcl
    simp only [List.mem_append, List.mem_cons, List.mem_singleton] at hmem
    rcases hmem with hmem | hmem | hmem
    · exact hev1 lev hmem c hcl
    · have hleq : lev = s1.tool_calls := by
        injection hmem
      rw [hleq] at hcl
      exact ⟨hshape c (by rwa [hs1fields.1] at hcl), hc.2.1 c hcl⟩
    · simp at hmem
  · rw [checkAndNotifyCompletion_of_not_cond hc]
    exact ⟨by rwa [hs1fields.1], hvt, by rw [hs1fields.1]; exact hshape, hev1⟩

/-- A non-terminal call trivially has the terminal response shape. -/
theorem TermShape_of_nonterminal {c : ToolCall} (h : c.status.isTerminal = false) :
    TermShape c := by
  constructor
  · rintro (hst | hst) <;> rw [hst] at h <;> simp [TStatus.isTerminal] at h
  · intro hst
    rw [hst] at h
    simp [TStatus.isTerminal] at h

/-- `convert_to_function_response` always yields a `functionResponse`
part carrying exactly the id and name it is given. -/
theorem convert_shape (name call_id : String) (result : ToolResult) :
    ∃ pl, convert_to_function_response name call_id result =
      .functionResponse call_id name pl := by
  unfold convert_to_function_response
  rcases result.error with - | e <;> simp

/-- The invariant ignores the execution log. -/
theorem SInv_execLog {s : SchedulerState} (h : SInv s) (el : List ExecEv) :
    SInv { s with execLog := el } :=
  ⟨h.nodup, h.validTrans, h.termShape, h.eventsShape⟩

/-- The list `_set_status` leaves behind: cleared by the sweep, or the
scanned list. -/
theorem setStatus_tool_calls (s : SchedulerState) (cid : String) (st : TStatus)
    (details : Option Details) (now : Nat) :
    ((setStatus s cid st details now).tool_calls = [] ∧
      ((setStatusCore s.tool_calls cid st details now).1 = [] ∨
        sweepCond (setStatusCore s.tool_calls cid st details now).1)) ∨
    (setStatus s cid st details now).tool_calls =
      (setStatusCore s.tool_calls cid st details now).1 := by
  rw [setStatus]
  by_cases hc : sweepCond (setStatusCore s.tool_calls cid st details now).1
  · left
    rw [checkAndNotifyCompletion_of_cond (by simpa using hc)]
    exact ⟨rfl, Or.inr hc⟩
  · right
    rw [checkAndNotifyCompletion_of_not_cond (by simpa using hc)]
    rfl

/-- When the scanned list does not satisfy the clearing condition,
`_set_status` leaves exactly the scanned list. -/
theorem setStatus_tool_calls_of_not_cond {s : SchedulerState} {cid : String} {st : TStatus}
    {details : Option Details} {now : Nat}
    (hc : ¬sweepCond (setStatusCore s.tool_calls cid st details now).1) :
    (setStatus s cid st details now).tool_calls =
      (setStatusCore s.tool_calls cid st details now).1 := by
  rw [setStatus, checkAndNotifyCompletion_of_not_cond (by simpa using hc)]
  rfl

/-- Invariant preservation through `_set_status` when the unique matching
call is at position `i` and the move is along a defined edge into a call
of the right shape. -/
theorem SInv_setStatus_of_replace {s : SchedulerState} {cid : String} {st : TStatus}
    {details : Option Details} {now : Nat} {i : Nat} {tc nc : ToolCall}
    (h : SInv s) (hi : s.tool_calls[i]? = some tc) (hcid : tc.request.call_id = cid)
    (hnt : ¬tc.status.isTerminal = true) (hmk : mkStatusCall tc st details now = some nc)
    (hedge : validEdge tc.status st = true) (hshape : TermShape nc) :
    SInv (setStatus s cid st details now) := by
  have hcore := setStatusCore_replace_of_nodup h.nodup hi hcid hnt hmk
  have hids : idsOf (s.tool_calls.set i nc) = idsOf s.tool_calls := by
    have := setStatusCore_ids (l := s.tool_calls) cid st details now
    rwa [hcore] at this
  rw [setStatus, hcore]
  refine SInv_update h (by rw [hids]; exact h.nodup) ?_ ?_
  · intro c hc
    rcases List.mem_or_eq_of_mem_set hc with hc | hc
    · exact h.termShape c hc
    · rw [hc]
      exact hshape
  · intro t ht
    simp only [List.mem_singleton] at ht
    rw [ht]
    refine ⟨by simpa using hnt, ?_⟩
    rw [mkStatusCall_status hmk]
    exact hedge

/-- Invariant preservation through `_set_status` when no call matches. -/
theorem SInv_setStatus_no_match {s : SchedulerState} {cid : String} {st : TStatus}
    {details : Option Details} {now : Nat}
    (h : SInv s)
    (hno : ∀ u ∈ s.tool_calls, u.request.call_id = cid → u.status.isTerminal = true) :
    SInv (setStatus s cid st details now) := by
  have hcore := @setStatusCore_no_match s.tool_calls cid st details now
    (fun u hu hcid => hno u hu hcid)
  rw [setStatus, hcore]
  exact SInv_update h h.nodup h.termShape (by simp)

/-- Invariant preservation through `_set_status` for target status
`validating` (no constructor branch: nothing is replaced). -/
theorem SInv_setStatus_validating {s : SchedulerState} {cid : String}
    {details : Option Details} {now : Nat} (h : SInv s) :
    SInv (setStatus s cid .validating details now) := by
  rw [setStatus, setStatusCore_validating]
  exact SInv_update h h.nodup h.termShape (by simp)

/-- Invariant of the execution loop: the state invariant, and — if the
iterated list object has been frozen by a mid-loop clear — the current
list is empty and the frozen contents are all terminal. -/
def EInvP (p : Option (List ToolCall) × SchedulerState) : Prop :=
  SInv p.2 ∧ ∀ f, p.1 = some f → p.2.tool_calls = [] ∧ ∀ c ∈ f, c.status.isTerminal = true

/-- The `ExecutingToolCall` record `_set_status` builds. -/
def executingCall (tc : ToolCall) : ToolCall :=
  { request := tc.request, tool := tc.tool, status := .executing, start_time := tc.start_time }

/-- The `ScheduledToolCall` record `_set_status` builds. -/
def scheduledCall (tc : ToolCall) : ToolCall :=
  { request := tc.request, tool := tc.tool, status := .scheduled, start_time := tc.start_time }

/-- The `WaitingToolCall` record `_set_status` builds. -/
def awaitingCall (tc : ToolCall) (details : Option Details) : ToolCall :=
  { request := tc.request, tool := tc.tool, confirmation_details := Details.asConfirm details,
    status := .awaiting_approval, start_time := tc.start_time }

/-- The `SuccessfulToolCall` record `_set_status` builds. -/
def successCall (tc : ToolCall) (details : Option Details) (now : Nat) : ToolCall :=
  { request := tc.request, tool := tc.tool, response := Details.asResp details,
    status := .success, duration_ms := some (durationMs tc.start_time now) }

/-- The `ErroredToolCall` record `_set_status` builds (it carries no tool
reference). -/
def errorCall (tc : ToolCall) (details : Option Details) (now : Nat) : ToolCall :=
  { request := tc.request, response := Details.asResp details, status := .error,
    duration_ms := some (durationMs tc.start_time now) }

/-- The `CancelledToolCall` record `_set_status` builds. -/
def cancelledCall (tc : ToolCall) (details : Option Details) (now : Nat) : ToolCall :=
  { request := tc.request, tool := tc.tool, response := Details.asResp details,
    status := .cancelled, duration_ms := some (durationMs tc.start_time now) }

theorem mkStatusCall_executing (tc : ToolCall) (details : Option Details) (now : Nat) :
    mkStatusCall tc .executing details now = some (executingCall tc) := rfl

theorem mkStatusCall_scheduled (tc : ToolCall) (details : Option Details) (now : Nat) :
    mkStatusCall tc .scheduled details now = some (scheduledCall tc) := rfl

theorem mkStatusCall_awaiting (tc : ToolCall) (details : Option Details) (now : Nat) :
    mkStatusCall tc .awaiting_approval details now = some (awaitingCall tc details) := rfl

theorem mkStatusCall_success (tc : ToolCall) (details : Option Details) (now : Nat) :
    mkStatusCall tc .success details now = some (successCall tc details now) := rfl

theorem mkStatusCall_error (tc : ToolCall) (details : Option Details) (now : Nat) :
    mkStatusCall tc .error details now = some (errorCall tc details now) := rfl

theorem mkStatusCall_cancelled (tc : ToolCall) (details : Option Details) (now : Nat) :
    mkStatusCall tc .cancelled details now = some (cancelledCall tc details now) := rfl

/-- Setting a scheduled call `executing` never clears the list, keeps the
aliasing, and leaves the moved record at the same position. -/
theorem first_tracked_set {now : Nat} {p2 : SchedulerState} {i : Nat} {tc : ToolCall}
    (hInv : SInv p2) (hi : p2.tool_calls[i]? = some tc) (hsc : tc.status = .scheduled) :
    (setStatusTracked none p2 tc.request.call_id .executing none now).1 = none ∧
    (setStatusTracked none p2 tc.request.call_id .executing none now).2.tool_calls =
      p2.tool_calls.set i (executingCall tc) ∧
    SInv (setStatusTracked none p2 tc.request.call_id .executing none now).2 := by
  have hnt : ¬tc.status.isTerminal = true := by
    rw [hsc]
    simp [TStatus.isTerminal]
  have hcore := setStatusCore_replace_of_nodup hInv.nodup hi rfl hnt
    (mkStatusCall_executing tc none now)
  have hilen : i < p2.tool_calls.length := (List.getElem?_eq_some_iff.mp hi).1
  have hnotcond : ¬sweepCond (setStatusCore p2.tool_calls tc.request.call_id
      .executing none now).1 := by
    rw [hcore]
    rintro ⟨-, hterm, -, -⟩
    have hmem : executingCall tc ∈ p2.tool_calls.set i (executingCall tc) :=
      List.getElem?_mem (List.getElem?_set_self (by simpa using hilen))
    simpa [executingCall, TStatus.isTerminal] using hterm _ hmem
  have htc : (setStatusTracked none p2 tc.request.call_id .executing none now).2.tool_calls =
      p2.tool_calls.set i (executingCall tc) := by
    rw [setStatusTracked_state, setStatus_tool_calls_of_not_cond hnotcond, hcore]
  refine ⟨?_, htc, ?_⟩
  · show (if none = (none : Option (List ToolCall)) ∧
        (setStatusCore p2.tool_calls tc.request.call_id .executing none now).1 ≠ [] ∧
        (setStatus p2 tc.request.call_id .executing none now).tool_calls = []
      then some (setStatusCore p2.tool_calls tc.request.call_id .executing none now).1
      else none) = none
    rw [if_neg]
    rintro ⟨-, -, hempty⟩
    rw [setStatus_tool_calls_of_not_cond hnotcond, hcore] at hempty
    have hempty2 : p2.tool_calls.set i (executingCall tc) = [] := by simpa using hempty
    have hlen : i < (p2.tool_calls.set i (executingCall tc)).length := by simpa using hilen
    rw [hempty2] at hlen
    simp at hlen
  · rw [setStatusTracked_state]
    exact SInv_setStatus_of_replace hInv hi rfl hnt (mkStatusCall_executing tc none now)
      (by rw [hsc]; rfl) (TermShape_of_nonterminal rfl)

/-- The terminal `_set_status` of one executed call preserves the
execution-loop invariant, whatever the sweep decides. -/
theorem second_tracked_EInv {now : Nat} {s2 : SchedulerState} {i : Nat} {ec : ToolCall}
    {stF : TStatus} {R : ToolCallResponseInfo}
    (hInv : SInv s2) (hi : s2.tool_calls[i]? = some ec) (hex : ec.status = .executing)
    (hstF : stF = .success ∨ stF = .error)
    (hRid : R.call_id = ec.request.call_id)
    (hRparts : ∃ pl, R.response_parts =
      .functionResponse ec.request.call_id ec.request.name pl) :
    EInvP (setStatusTracked none s2 ec.request.call_id stF (some (.resp R)) now) := by
  have hnt : ¬ec.status.isTerminal = true := by
    rw [hex]
    simp [TStatus.isTerminal]
  have hedge : validEdge ec.status stF = true := by
    rw [hex]
    rcases hstF with h | h <;> rw [h] <;> rfl
  have hshape : ∀ nc, mkStatusCall ec stF (some (.resp R)) now = some nc → TermShape nc := by
    intro nc hmk
    rcases hstF with h | h <;> rw [h] at hmk
    · rw [mkStatusCall_success] at hmk
      cases hmk
      constructor
      · intro _
        obtain ⟨pl, hpl⟩ := hRparts
        exact ⟨R, pl, rfl, hRid, hpl⟩
      · intro hcontra
        simp [successCall] at hcontra
    · rw [mkStatusCall_error] at hmk
      cases hmk
      constructor
      · intro _
        obtain ⟨pl, hpl⟩ := hRparts
        exact ⟨R, pl, rfl, hRid, hpl⟩
      · intro hcontra
        simp [errorCall] at hcontra
  have hmk : ∃ nc, mkStatusCall ec stF (some (.resp R)) now = some nc := by
    rcases hstF with h | h <;> rw [h] <;> exact ⟨_, rfl⟩
  obtain ⟨nc, hmknc⟩ := hmk
  have hSInv : SInv (setStatus s2 ec.request.call_id stF (some (.resp R)) now) :=
    SInv_setStatus_of_replace hInv hi rfl hnt hmknc hedge (hshape nc hmknc)
  refine ⟨hSInv, ?_⟩
  intro f hf
  replace hf : (if none = (none : Option (List ToolCall)) ∧
      (setStatusCore s2.tool_calls ec.request.call_id stF (some (.resp R)) now).1 ≠ [] ∧
      (setStatus s2 ec.request.call_id stF (some (.resp R)) now).tool_calls = []
    then some (setStatusCore s2.tool_calls ec.request.call_id stF (some (.resp R)) now).1
    else none) = some f := hf
  rw [setStatusTracked_state]
  by_cases hcond : none = (none : Option (List ToolCall)) ∧
      (setStatusCore s2.tool_calls ec.request.call_id stF (some (.resp R)) now).1 ≠ [] ∧
      (setStatus s2 ec.request.call_id stF (some (.resp R)) now).tool_calls = []
  · rw [if_pos hcond] at hf
    obtain ⟨-, hne, hcleared⟩ := hcond
    refine ⟨hcleared, ?_⟩
    have hfval : f = (setStatusCore s2.tool_calls ec.request.call_id stF
        (some (.resp R)) now).1 := by
      injection hf with h
      exact h.symm
    rcases setStatus_tool_calls s2 ec.request.call_id stF (some (.resp R)) now with
      ⟨-, hcase⟩ | hkeep
    · rcases hcase with hcase | hcase
      · exact absurd hcase hne
      · intro c hc
        rw [hfval] at hc
        exact hcase.2.1 c hc
    · rw [hkeep] at hcleared
      exact absurd hcleared hne
  · rw [if_neg hcond] at hf
    cases hf

/-- One execution-loop step preserves the loop invariant. -/
theorem execStep_EInv (env : ToolEnv) (aborted : Bool) (now : Nat)
    (p : Option (List ToolCall) × SchedulerState) (i : Nat) (h : EInvP p) :
    EInvP (execStep env aborted now p i) := by
  obtain ⟨hInv, hfr⟩ := h
  rcases hobj : (p.1.getD p.2.tool_calls)[i]? with - | tc
  · have heq : execStep env aborted now p i = p := by simp [execStep, hobj]
    rw [heq]
    exact ⟨hInv, hfr⟩
  · by_cases hsc : tc.status = .scheduled
    · rcases hp1 : p.1 with - | f
      · rw [hp1, Option.getD_none] at hobj
        obtain ⟨hf1, hlist, hS1⟩ := @first_tracked_set now _ _ _ hInv hobj hsc
        have hilen : i < p.2.tool_calls.length := (List.getElem?_eq_some_iff.mp hobj).1
        unfold execStep
        rw [hp1]
        simp only [List.get?_eq_getElem?, Option.getD_none]
        rw [hobj]
        simp only []
        rw [if_pos hsc, hf1]
        have hi2 : ∀ el,
            ({ (setStatusTracked none p.2 tc.request.call_id .executing none now).2 with
              execLog := el } : SchedulerState).tool_calls[i]? = some (executingCall tc) := by
          intro el
          show (setStatusTracked none p.2 tc.request.call_id
            .executing none now).2.tool_calls[i]? = some (executingCall tc)
          rw [hlist]
          exact List.getElem?_set_self (by simpa using hilen)
        rcases htool : tc.tool with - | t <;> simp only [htool]
        · exact @second_tracked_EInv _ _ i (executingCall tc) _ _
            (SInv_execLog (SInv_execLog hS1 _) _) (hi2 _) rfl (Or.inr rfl) rfl
            ⟨.error "AttributeError: NoneType object has no attribute execute", rfl⟩
        · rcases hres : env.exec t tc.request.args aborted with e | result <;>
            simp only [hres]
          · exact @second_tracked_EInv _ _ i (executingCall tc) _ _
              (SInv_execLog (SInv_execLog hS1 _) _) (hi2 _) rfl (Or.inr rfl) rfl
              ⟨.error e, rfl⟩
          · rcases herr : result.error with - | err <;> simp only [herr]
            · exact @second_tracked_EInv _ _ i (executingCall tc) _ _
                (SInv_execLog (SInv_execLog hS1 _) _) (hi2 _) rfl (Or.inl rfl) rfl
                (convert_shape tc.request.name tc.request.call_id result)
            · exact @second_tracked_EInv _ _ i (executingCall tc) _ _
                (SInv_execLog (SInv_execLog hS1 _) _) (hi2 _) rfl (Or.inr rfl) rfl
                (convert_shape tc.request.name tc.request.call_id result)
      · rw [hp1] at hobj
        obtain ⟨-, hterm⟩ := hfr f hp1
        have hmem := List.getElem?_mem hobj
        have hcontra := hterm tc hmem
        rw [hsc] at hcontra
        simp [TStatus.isTerminal] at hcontra
    · have heq : execStep env aborted now p i = p := by simp [execStep, hobj, hsc]
      rw [heq]
      exact ⟨hInv, hfr⟩

/-- `_attempt_execution_of_scheduled_calls` preserves the state
invariant. -/
theorem attemptExecution_SInv {s : SchedulerState} (h : SInv s) (env : ToolEnv)
    (aborted : Bool) (now : Nat) : SInv (attemptExecution s env aborted now) := by
  have key := @foldl_execStep_pres env aborted now
    EInvP (fun p i hp => execStep_EInv env aborted now p i hp)
    (List.range s.tool_calls.length) (none, s) ⟨h, by simp⟩
  exact key.1

/-- The ids of a freshly created batch are the requests' call ids. -/
theorem makeNewCalls_ids (env : ToolEnv) (now : Nat)
    (requests : List ToolCallRequestInfo) :
    idsOf (makeNewCalls env now requests) = requests.map fun r => r.call_id := by
  rw [makeNewCalls, idsOf, List.map_map]
  apply List.map_congr_left
  intro r _
  rcases hg : env.getTool r.name with - | t <;>
    simp [hg, errorNotFoundCall, validatingCall]

/-- Each freshly created call is terminal-shaped (the not-found error
call) or non-terminal (a validating call). -/
theorem makeNewCalls_shape (env : ToolEnv) (now : Nat)
    (requests : List ToolCallRequestInfo) :
    ∀ c ∈ makeNewCalls env now requests, TermShape c := by
  intro c hc
  rw [makeNewCalls] at hc
  obtain ⟨r, -, hr⟩ := List.mem_map.mp hc
  rcases hget : env.getTool r.name with - | t <;> rw [hget] at hr
  · rw [← hr]
    constructor
    · intro _
      exact ⟨_, _, rfl, rfl, rfl⟩
    · intro hcontra
      simp [errorNotFoundCall] at hcontra
  · rw [← hr]
    exact TermShape_of_nonterminal rfl

/-- The validation loop preserves the invariant, provided the pending
snapshot calls have distinct ids and the validating ones are still in
the list. -/
theorem validateLoop_SInv (env : ToolEnv) (aborted : Bool) (now : Nat) :
    ∀ (pending : List ToolCall) (s : SchedulerState),
      SInv s → (idsOf pending).Nodup →
      (∀ u ∈ pending, u.status = .validating → u ∈ s.tool_calls) →
      SInv (validateLoop env aborted now pending s) := by
  intro pending
  induction pending with
  | nil =>
    intro s hInv _ _
    exact hInv
  | cons tc rest ih =>
    intro s hInv hnodup hps
    rw [validateLoop]
    by_cases hv : tc.status = .validating
    · rw [if_pos hv]
      have hmem : tc ∈ s.tool_calls := hps tc (List.mem_cons_self tc rest) hv
      obtain ⟨i, hilen, hival⟩ := List.getElem_of_mem hmem
      have hi : s.tool_calls[i]? = some tc := by
        rw [List.getElem?_eq_some_iff]
        exact ⟨hilen, hival⟩
      have hnt : ¬tc.status.isTerminal = true := by
        rw [hv]
        simp [TStatus.isTerminal]
      have hedge : ∀ st, validEdge .validating st = true → validEdge tc.status st = true := by
        intro st hst
        rwa [hv]
      have h2 : (∀ x ∈ rest, ¬x.request.call_id = tc.request.call_id) ∧
          (rest.map fun c => c.request.call_id).Nodup := by
        simpa [idsOf] using hnodup
      have hrest_nodup : (idsOf rest).Nodup := by
        simpa [idsOf] using h2.2
      have hid_ne : ∀ u ∈ rest, u.request.call_id ≠ tc.request.call_id :=
        fun u hu => h2.1 u hu
      -- after one `_set_status` along an edge from `validating`, the
      -- remaining validating snapshot calls are still present
      have hafter : ∀ {st : TStatus} {details : Option Details} {nc : ToolCall},
          mkStatusCall tc st details now = some nc →
          ∀ u ∈ rest, u.status = .validating →
            u ∈ (setStatus s tc.request.call_id st details now).tool_calls := by
        intro st details nc hmk u hu huv
        have hcore := setStatusCore_replace_of_nodup hInv.nodup hi rfl hnt hmk
        have humem : u ∈ s.tool_calls := hps u (List.mem_cons_of_mem tc hu) huv
        obtain ⟨j, hjlen, hjval⟩ := List.getElem_of_mem humem
        have hjq : s.tool_calls[j]? = some u := List.getElem?_eq_some_iff.mpr ⟨hjlen, hjval⟩
        have hji : j ≠ i := by
          intro hj
          rw [hj, hi] at hjq
          have hut : u = tc := by
            injection hjq with hinj
            exact hinj.symm
          exact hid_ne u hu (by rw [hut])
        have humem' : u ∈ (setStatusCore s.tool_calls tc.request.call_id st details now).1 := by
          rw [hcore]
          refine List.getElem?_mem (?_ : (s.tool_calls.set i nc)[j]? = some u)
          rw [List.getElem?_set_ne (Ne.symm hji)]
          exact hjq
        rcases setStatus_tool_calls s tc.request.call_id st details now with
          ⟨hcl, hcase⟩ | hkeep
        · exfalso
          rcases hcase with hcase | hcase
          · rw [hcase] at humem'
            simp at humem'
          · have := hcase.2.1 u humem'
            rw [huv] at this
            simp [TStatus.isTerminal] at this
        · rw [hkeep]
          exact humem'
      rcases htool : tc.tool with - | t <;> simp only [htool]
      · exact ih _ (SInv_setStatus_of_replace hInv hi rfl hnt (mkStatusCall_error tc _ now)
            (hedge _ rfl) (by
              constructor
              · intro _
                exact ⟨_, _, rfl, rfl, rfl⟩
              · intro hcontra
                simp [errorCall] at hcontra))
          hrest_nodup (hafter (mkStatusCall_error tc _ now))
      · rcases hconf : env.shouldConfirm t tc.request.args aborted with e | c
        · exact ih _ (SInv_setStatus_of_replace hInv hi rfl hnt (mkStatusCall_error tc _ now)
              (hedge _ rfl) (by
                constructor
                · intro _
                  exact ⟨_, _, rfl, rfl, rfl⟩
                · intro hcontra
                  simp [errorCall] at hcontra))
            hrest_nodup (hafter (mkStatusCall_error tc _ now))
        · rcases c with - | cd
          · exact ih _ (SInv_setStatus_of_replace hInv hi rfl hnt
                (mkStatusCall_scheduled tc none now) (hedge _ rfl)
                (TermShape_of_nonterminal rfl))
              hrest_nodup (hafter (mkStatusCall_scheduled tc none now))
          · exact ih _ (SInv_setStatus_of_replace hInv hi rfl hnt
                (mkStatusCall_awaiting tc _ now) (hedge _ rfl)
                (TermShape_of_nonterminal rfl))
              hrest_nodup (hafter (mkStatusCall_awaiting tc _ now))
    · rw [if_neg hv]
      refine ih s hInv ?_ ?_
      · simpa [idsOf] using List.Nodup.of_cons (by simpa [idsOf] using hnodup)
      · intro u hu huv
        exact hps u (List.mem_cons_of_mem tc hu) huv

/-- `schedule` preserves the invariant for well-formed batches. -/
theorem schedule_SInv {s : SchedulerState} (hInv : SInv s)
    {requests : List ToolCallRequestInfo} (hfresh : freshBatch s requests)
    (env : ToolEnv) (aborted : Bool) (now : Nat) :
    SInv (schedule s requests env aborted now).1 := by
  by_cases h : isRunning s
  · simpa [schedule, h] using hInv
  · rw [schedule, if_neg h]
    refine attemptExecution_SInv (validateLoop_SInv env aborted now _ _ ?_ ?_ ?_) env
      aborted now
    · constructor
      · show (idsOf (s.tool_calls ++ makeNewCalls env now requests)).Nodup
        rw [idsOf, List.map_append, List.nodup_append]
        refine ⟨hInv.nodup, by
          rw [← idsOf, makeNewCalls_ids]
          exact hfresh.1, ?_⟩
        intro x hx hxy
        obtain ⟨c, hc, hcx⟩ := List.mem_map.mp hx
        have hy' : x ∈ requests.map fun r => r.call_id := by
          have := makeNewCalls_ids env now requests
          rw [idsOf] at this
          rwa [← this]
        obtain ⟨r, hr, hry⟩ := List.mem_map.mp hy'
        exact hfresh.2 r hr c hc (by rw [hry, ← hcx])
      · intro t ht
        exact hInv.validTrans t ht
      · intro c hc
        rcases List.mem_append.mp (by simpa using hc) with hc | hc
        · exact hInv.termShape c hc
        · exact makeNewCalls_shape env now requests c hc
      · intro lev hmem c hc
        have hmem' : SchedEvent.allComplete lev ∈ s.events ++
            [SchedEvent.callsUpdate (s.tool_calls ++ makeNewCalls env now requests)] := hmem
        rcases List.mem_append.mp hmem' with hmem2 | hmem2
        · exact hInv.eventsShape lev hmem2 c hc
        · simp at hmem2
    · rw [makeNewCalls_ids]
      exact hfresh.1
    · intro u hu _
      show u ∈ s.tool_calls ++ makeNewCalls env now requests
      exact List.mem_append_right _ hu

/-- What a successful `findAwaiting` lookup yields. -/
theorem findAwaiting_spec {l : List ToolCall} {cid : String} {tc : ToolCall}
    (h : findAwaiting l cid = some tc) :
    tc ∈ l ∧ tc.request.call_id = cid ∧ tc.status = .awaiting_approval := by
  have hmem := List.mem_of_find?_eq_some h
  have hpred := List.find?_some h
  simp only [decide_eq_true_eq] at hpred
  exact ⟨hmem, hpred.1, hpred.2⟩

/-- Updating the args of the first matching awaiting call keeps the id
sequence. -/
theorem updateArgs_ids (l : List ToolCall) (cid : String) (payload : Args) :
    idsOf (updateArgsFirstAwaiting l cid payload) = idsOf l := by
  induction l with
  | nil => rfl
  | cons a l ih =>
    rw [updateArgsFirstAwaiting]
    by_cases hc : a.request.call_id = cid ∧ a.status = .awaiting_approval
    · rw [if_pos hc]
      simp [idsOf]
    · rw [if_neg hc]
      simpa [idsOf] using ih

/-- Updating the args preserves the terminal response shape of every
call (the touched call is awaiting approval, hence non-terminal). -/
theorem updateArgs_shape {l : List ToolCall} (hl : ∀ c ∈ l, TermShape c)
    (cid : String) (payload : Args) :
    ∀ c ∈ updateArgsFirstAwaiting l cid payload, TermShape c := by
  induction l with
  | nil => intro c hc; simp [updateArgsFirstAwaiting] at hc
  | cons a l ih =>
    intro c hc
    rw [updateArgsFirstAwaiting] at hc
    by_cases hcnd : a.request.call_id = cid ∧ a.status = .awaiting_approval
    · rw [if_pos hcnd] at hc
      rcases List.mem_cons.mp hc with hc | hc
      · rw [hc]
        refine TermShape_of_nonterminal ?_
        show a.status.isTerminal = false
        rw [hcnd.2]
        rfl
      · exact hl c (List.mem_cons_of_mem a hc)
    · rw [if_neg hcnd] at hc
      rcases List.mem_cons.mp hc with hc | hc
      · rw [hc]
        exact hl a (List.mem_cons_self a l)
      · exact ih (fun u hu => hl u (List.mem_cons_of_mem a hu)) c hc

/-- After the update, the first matching awaiting call is still present,
awaiting, with the same id (and merged args). -/
theorem updateArgs_found {l : List ToolCall} {cid : String} {tc : ToolCall}
    (h : findAwaiting l cid = some tc) (payload : Args) :
    ∃ (i : Nat) (u : ToolCall), (updateArgsFirstAwaiting l cid payload)[i]? = some u ∧
      u.request.call_id = cid ∧ u.status = .awaiting_approval := by
  induction l with
  | nil => simp [findAwaiting] at h
  | cons a l ih =>
    rw [updateArgsFirstAwaiting]
    by_cases hcnd : a.request.call_id = cid ∧ a.status = .awaiting_approval
    · rw [if_pos hcnd]
      exact ⟨0, _, List.getElem?_cons_zero, hcnd.1, hcnd.2⟩
    · rw [if_neg hcnd]
      have h' : findAwaiting l cid = some tc := by
        rw [findAwaiting, List.find?] at h
        rcases hd : decide (a.request.call_id = cid ∧ a.status = .awaiting_approval) with - | -
        · rw [hd] at h
          exact h
        · exact absurd (by simpa using hd) hcnd
      obtain ⟨i, u, hiu, hu1, hu2⟩ := ih h'
      exact ⟨i + 1, u, by rw [List.getElem?_cons_succ]; exact hiu, hu1, hu2⟩

/-- `handle_confirmation_response` preserves the invariant. -/
theorem handleConfirmation_SInv {s : SchedulerState} (hInv : SInv s) (cid outcome : String)
    (env : ToolEnv) (aborted : Bool) (payload : Option Args) (now : Nat) :
    SInv (handleConfirmationResponse s cid outcome env aborted payload now) := by
  rw [handleConfirmationResponse]
  rcases hfind : findAwaiting s.tool_calls cid with - | tc
  · exact hInv
  · obtain ⟨hmem, hcid, hawait⟩ := findAwaiting_spec hfind
    obtain ⟨i, hilen, hival⟩ := List.getElem_of_mem hmem
    have hi : s.tool_calls[i]? = some tc := List.getElem?_eq_some_iff.mpr ⟨hilen, hival⟩
    have hnt : ¬tc.status.isTerminal = true := by
      rw [hawait]
      simp [TStatus.isTerminal]
    by_cases hcase1 : outcome = "cancel" || aborted
    · rw [if_pos hcase1]
      refine attemptExecution_SInv (SInv_setStatus_of_replace hInv hi hcid hnt
        (mkStatusCall_cancelled tc _ now) (by rw [hawait]; rfl) ?_) env aborted now
      constructor
      · intro hcontra
        rcases hcontra with hcontra | hcontra <;> simp [cancelledCall] at hcontra
      · intro _
        exact ⟨_, rfl, hcid.symm, rfl⟩
    · rw [if_neg hcase1]
      by_cases hcase2 : outcome = "modify_with_editor" && payloadTruthy payload
      · rw [if_pos hcase2]
        set s' : SchedulerState := { s with
          tool_calls := updateArgsFirstAwaiting s.tool_calls cid (payload.getD []) } with hs'
        have hInv' : SInv s' := by
          refine ⟨?_, hInv.validTrans, ?_, hInv.eventsShape⟩
          · show (idsOf (updateArgsFirstAwaiting s.tool_calls cid (payload.getD []))).Nodup
            rw [updateArgs_ids]
            exact hInv.nodup
          · exact updateArgs_shape hInv.termShape cid (payload.getD [])
        obtain ⟨j, u, hju, hu1, hu2⟩ := updateArgs_found hfind (payload.getD [])
        have hjq : s'.tool_calls[j]? = some u := hju
        refine attemptExecution_SInv (SInv_setStatus_of_replace hInv' hjq hu1 (by
            rw [hu2]
            simp [TStatus.isTerminal]) (mkStatusCall_scheduled u none now)
          (by rw [hu2]; rfl) (TermShape_of_nonterminal rfl)) env aborted now
      · rw [if_neg hcase2]
        by_cases hcase3 : (["proceed_once", "proceed_always", "proceed_always_server",
            "proceed_always_tool"].contains outcome) = true
        · rw [if_pos hcase3]
          exact attemptExecution_SInv (SInv_setStatus_of_replace hInv hi hcid hnt
            (mkStatusCall_scheduled tc none now) (by rw [hawait]; rfl)
            (TermShape_of_nonterminal rfl)) env aborted now
        · rw [if_neg hcase3]
          exact attemptExecution_SInv hInv env aborted now

/-- Every contract-respecting operation preserves the invariant. -/
theorem applyOp_SInv {s : SchedulerState} (hInv : SInv s) {op : SchedOp}
    (hop : goodOp s op) : SInv (applyOp s op) := by
  rcases op with ⟨requests, env, aborted, now⟩ | ⟨cid, outcome, env, aborted, payload, now⟩
  · exact schedule_SInv hInv hop env aborted now
  · exact handleConfirmation_SInv hInv cid outcome env aborted payload now

/-- Every reachable scheduler state satisfies the invariant. -/
theorem Reach_SInv {s : SchedulerState} (h : Reach s) : SInv s := by
  induction h with
  | init =>
    refine ⟨?_, ?_, ?_, ?_⟩ <;> simp [initState, idsOf]
  | step op _ hgood ih => exact applyOp_SInv ih hgood

/-! ## C1: all transitions follow defined edges; terminal calls are
frozen -/

/-- C1: along every sequence of scheduler operations (with well-formed
batches), every status transition performed by `_set_status` starts from
a non-terminal status and follows a defined edge of the state machine;
and once a call is terminal, `_set_status` never changes it in any way —
the call record at its position is preserved verbatim (the list may only
disappear wholesale through the completion sweep). -/
theorem status_transitions_valid :
    (∀ s, Reach s → ∀ t ∈ s.transitions,
      t.before.isTerminal = false ∧ validEdge t.before t.newCall.status = true) ∧
    (∀ (s : SchedulerState) (cid : String) (st : TStatus) (details : Option Details)
        (now i : Nat) (tc : ToolCall),
      s.tool_calls[i]? = some tc → tc.status.isTerminal = true →
      (setStatus s cid st details now).tool_calls = [] ∨
      (setStatus s cid st details now).tool_calls[i]? = some tc) := by
  constructor
  · intro s hs t ht
    exact (Reach_SInv hs).validTrans t ht
  · intro s cid st details now i tc hi hterm
    rcases setStatus_tool_calls s cid st details now with ⟨hcl, -⟩ | hkeep
    · exact Or.inl hcl
    · right
      rw [hkeep]
      exact setStatusCore_preserves_terminal hi hterm

instance (s : SchedulerState) (requests : List ToolCallRequestInfo) :
    Decidable (freshBatch s requests) := by
  unfold freshBatch
  infer_instance

instance (s : SchedulerState) (op : SchedOp) : Decidable (goodOp s op) := by
  rcases op with ⟨requests, env, aborted, now⟩ | ⟨cid, outcome, env, aborted, payload, now⟩
  · unfold goodOp
    infer_instance
  · unfold goodOp
    infer_instance

/-- A one-request batch against the always-successful environment. -/
def opW1 : SchedOp := .sched [⟨"c1", "alpha", [], false, ""⟩] envSeqW false 0

/-- The first transition of that batch: `validating → scheduled`. -/
def transW1 : Trans :=
  ⟨"c1", .validating,
    { request := ⟨"c1", "alpha", [], false, ""⟩, tool := some "alpha",
      status := .scheduled, start_time := some 0 }⟩

theorem status_transitions_valid_witness :
    (transW1.before.isTerminal = false ∧
      validEdge transW1.before transW1.newCall.status = true) ∧
    ((setStatus ⟨[doneCall], [], [], []⟩ "other" .success none 3).tool_calls = [] ∨
      (setStatus ⟨[doneCall], [], [], []⟩ "other" .success none 3).tool_calls[0]? =
        some doneCall) :=
  ⟨status_transitions_valid.1 (applyOp initState opW1)
      (Reach.step opW1 Reach.init (by decide)) transW1 (by decide),
    status_transitions_valid.2 ⟨[doneCall], [], [], []⟩ "other" .success none 3 0 doneCall
      (by decide) (by decide)⟩

/-! ## C3: response shape of terminal calls -/

/-- The always-confirming environment. -/
def envConfirmW : ToolEnv :=
  { getTool := fun n => some n
    shouldConfirm := fun _ _ _ => .ok (some "details")
    exec := fun t _ _ => .ok { llm_content := t } }

/-- A one-request batch that parks its call in `awaiting_approval`. -/
def opC1 : SchedOp := .sched [⟨"c1", "alpha", [], false, ""⟩] envConfirmW false 0

/-- The user's cancellation of that call. -/
def opC2 : SchedOp := .confirm "c1" "cancel" envConfirmW false none 2

/-- C3 counterexample: a call cancelled via
`handle_confirmation_response` reaches the terminal state `cancelled`
with a response whose single part is `{'text': 'User cancelled the
operation'}` — it carries no `functionResponse` part at all, so no part
whose `id` equals the request's `call_id`. -/
theorem cancelled_call_carries_text_not_functionResponse :
    (completedLists (applyOp (applyOp initState opC1) opC2)).flatten.map
        (fun c => (c.status, c.response.map fun r => r.response_parts)) =
      [(.cancelled, some (.text "User cancelled the operation"))] := by
  decide

/-- C3 (amended): for every reachable scheduler state and every call in
it or in a completed batch, a `success` or `error` call carries a
`functionResponse` part whose `id` equals the originating request's
`call_id` and whose `name` equals the request's `name` (and the
response's own `call_id` field matches); a `cancelled` call instead
carries the text part `"User cancelled the operation"` with the matching
response `call_id` and no `functionResponse`. -/
theorem terminal_response_shape (s : SchedulerState) (hs : Reach s) (c : ToolCall)
    (hc : c ∈ s.tool_calls ∨ ∃ l, SchedEvent.allComplete l ∈ s.events ∧ c ∈ l) :
    ((c.status = .success ∨ c.status = .error) →
      ∃ r pl, c.response = some r ∧ r.call_id = c.request.call_id ∧
        r.response_parts = .functionResponse c.request.call_id c.request.name pl) ∧
    (c.status = .cancelled →
      ∃ r, c.response = some r ∧ r.call_id = c.request.call_id ∧
        r.response_parts = .text "User cancelled the operation") := by
  have hInv := Reach_SInv hs
  rcases hc with hc | ⟨l, hl, hcl⟩
  · exact hInv.termShape c hc
  · exact (hInv.eventsShape l hl c hcl).1

/-- The cancelled record of the `opC1`/`opC2` run. -/
def cancelledW : ToolCall :=
  { request := ⟨"c1", "alpha", [], false, ""⟩, tool := some "alpha", status := .cancelled,
    response := some ⟨"c1", .text "User cancelled the operation", some "操作已被用户取消",
      none⟩,
    duration_ms := some 0 }

/-! ## Behavioural lemmas for the execution loop -/

theorem execStep_skip_none {env : ToolEnv} {aborted : Bool} {now : Nat}
    {p : Option (List ToolCall) × SchedulerState} {i : Nat}
    (hobj : (p.1.getD p.2.tool_calls)[i]? = none) :
    execStep env aborted now p i = p := by
  simp [execStep, hobj]

theorem execStep_skip_not_scheduled {env : ToolEnv} {aborted : Bool} {now : Nat}
    {p : Option (List ToolCall) × SchedulerState} {i : Nat} {tc : ToolCall}
    (hobj : (p.1.getD p.2.tool_calls)[i]? = some tc) (hsc : ¬tc.status = .scheduled) :
    execStep env aborted now p i = p := by
  simp [execStep, hobj, hsc]

/-- Every call in the scanned list is an old call or carries the target
status. -/
theorem setStatusCore_mem {l : List ToolCall} {cid : String} {st : TStatus}
    {details : Option Details} {now : Nat} :
    ∀ c ∈ (setStatusCore l cid st details now).1, c ∈ l ∨ c.status = st := by
  induction l with
  | nil => simp [setStatusCore]
  | cons a l ih =>
    intro c hc
    rw [setStatusCore] at hc
    by_cases hcnd : a.request.call_id = cid ∧ ¬a.status.isTerminal
    · rw [if_pos hcnd] at hc
      rcases hmk : mkStatusCall a st details now with - | nc <;> rw [hmk] at hc
      · simp only at hc
        rcases List.mem_cons.mp hc with hc | hc
        · exact Or.inl (by rw [hc]; exact List.mem_cons_self a l)
        · rcases ih c hc with h | h
          · exact Or.inl (List.mem_cons_of_mem a h)
          · exact Or.inr h
      · simp only at hc
        rcases List.mem_cons.mp hc with hc | hc
        · exact Or.inr (by rw [hc]; exact mkStatusCall_status hmk)
        · exact Or.inl (List.mem_cons_of_mem a hc)
    · rw [if_neg hcnd] at hc
      simp only at hc
      rcases List.mem_cons.mp hc with hc | hc
      · exact Or.inl (by rw [hc]; exact List.mem_cons_self a l)
      · rcases ih c hc with h | h
        · exact Or.inl (List.mem_cons_of_mem a h)
        · exact Or.inr h

/-- `_set_status` never leaves behind a list satisfying the clearing
condition. -/
theorem not_sweepCond_setStatus (s : SchedulerState) (cid : String) (st : TStatus)
    (details : Option Details) (now : Nat) :
    ¬sweepCond (setStatus s cid st details now).tool_calls := by
  rw [setStatus]
  exact not_sweepCond_checkAndNotifyCompletion _

/-- Symbolic execution of the terminal `_set_status` of one executed
call: the transition is logged, and the list either keeps its positions
with the terminal record written at `i`, or is cleared with the iterated
object frozen on all-terminal contents. -/
theorem second_tracked_run {now : Nat} {s2 : SchedulerState} {i : Nat} {ec fc : ToolCall}
    {stF : TStatus} {d : Option Details} {T : List Trans}
    (hInv : SInv s2) (hi : s2.tool_calls[i]? = some ec) (hex : ec.status = .executing)
    (hmk : mkStatusCall ec stF d now = some fc) (htr : s2.transitions = T) :
    (setStatusTracked none s2 ec.request.call_id stF d now).2.transitions =
      T ++ [⟨ec.request.call_id, .executing, fc⟩] ∧
    (((setStatusTracked none s2 ec.request.call_id stF d now).1 = none ∧
      (setStatusTracked none s2 ec.request.call_id stF d now).2.tool_calls =
        s2.tool_calls.set i fc) ∨
     ((setStatusTracked none s2 ec.request.call_id stF d now).2.tool_calls = [] ∧
      ∃ f, (setStatusTracked none s2 ec.request.call_id stF d now).1 = some f ∧
        f = s2.tool_calls.set i fc ∧ ∀ c ∈ f, c.status.isTerminal = true)) := by
  have hnt : ¬ec.status.isTerminal = true := by
    rw [hex]
    simp [TStatus.isTerminal]
  have hcore := setStatusCore_replace_of_nodup hInv.nodup hi rfl hnt hmk
  rw [hex] at hcore
  have hilen : i < s2.tool_calls.length := (List.getElem?_eq_some_iff.mp hi).1
  have hne : s2.tool_calls.set i fc ≠ [] := by
    intro hemp
    have hlen : i < (s2.tool_calls.set i fc).length := by simpa using hilen
    rw [hemp] at hlen
    simp at hlen
  refine ⟨?_, ?_⟩
  · rw [setStatusTracked_state, setStatus_transitions, hcore, htr]
  · by_cases hsw : sweepCond (setStatusCore s2.tool_calls ec.request.call_id stF d now).1
    · right
      have hclear : (setStatus s2 ec.request.call_id stF d now).tool_calls = [] := by
        rw [setStatus, checkAndNotifyCompletion_of_cond (by simpa using hsw)]
      refine ⟨by rw [setStatusTracked_state]; exact hclear, ?_⟩
      have hfz : (setStatusTracked none s2 ec.request.call_id stF d now).1 =
          some (setStatusCore s2.tool_calls ec.request.call_id stF d now).1 := by
        show (if none = (none : Option (List ToolCall)) ∧
            (setStatusCore s2.tool_calls ec.request.call_id stF d now).1 ≠ [] ∧
            (setStatus s2 ec.request.call_id stF d now).tool_calls = []
          then some (setStatusCore s2.tool_calls ec.request.call_id stF d now).1
          else none) = some (setStatusCore s2.tool_calls ec.request.call_id stF d now).1
        rw [if_pos ⟨rfl, by rw [hcore]; exact hne, hclear⟩]
      refine ⟨_, hfz, ?_, ?_⟩
      · rw [hcore]
      · exact fun c hc => hsw.2.1 c hc
    · left
      have hkeep := setStatus_tool_calls_of_not_cond hsw
      refine ⟨?_, by rw [setStatusTracked_state, hkeep, hcore]⟩
      show (if none = (none : Option (List ToolCall)) ∧
          (setStatusCore s2.tool_calls ec.request.call_id stF d now).1 ≠ [] ∧
          (setStatus s2 ec.request.call_id stF d now).tool_calls = []
        then some (setStatusCore s2.tool_calls ec.request.call_id stF d now).1
        else none) = none
      rw [if_neg]
      rintro ⟨-, -, hemp⟩
      rw [hkeep, hcore] at hemp
      exact hne hemp

/-- Symbolic execution of one loop step on a scheduled call (aliased
case): the call moves `scheduled → executing → success|error`; the list
either keeps its positions with the terminal record written at `i`, or
is cleared (freezing the iterated object on all-terminal contents). -/
theorem execStep_run {env : ToolEnv} {aborted : Bool} {now : Nat}
    {p : Option (List ToolCall) × SchedulerState} {i : Nat} {tc : ToolCall}
    (hInv : SInv p.2) (hfz : p.1 = none)
    (hi : p.2.tool_calls[i]? = some tc) (hsc : tc.status = .scheduled) :
    ∃ fc : ToolCall, (fc.status = .success ∨ fc.status = .error) ∧ fc.request = tc.request ∧
      (execStep env aborted now p i).2.transitions =
        p.2.transitions ++ [⟨tc.request.call_id, .scheduled, executingCall tc⟩,
          ⟨tc.request.call_id, .executing, fc⟩] ∧
      (((execStep env aborted now p i).1 = none ∧
        (execStep env aborted now p i).2.tool_calls = p.2.tool_calls.set i fc) ∨
       ((execStep env aborted now p i).2.tool_calls = [] ∧
        ∃ f, (execStep env aborted now p i).1 = some f ∧
          f = p.2.tool_calls.set i fc ∧ ∀ c ∈ f, c.status.isTerminal = true)) := by
  have hnt : ¬tc.status.isTerminal = true := by
    rw [hsc]
    simp [TStatus.isTerminal]
  obtain ⟨hf1, hlist, hS1⟩ := @first_tracked_set now _ _ _ hInv hi hsc
  have hilen : i < p.2.tool_calls.length := (List.getElem?_eq_some_iff.mp hi).1
  have htr1 : (setStatusTracked none p.2 tc.request.call_id .executing none now).2.transitions
      = p.2.transitions ++ [⟨tc.request.call_id, .scheduled, executingCall tc⟩] := by
    rw [setStatusTracked_state, setStatus_transitions,
      setStatusCore_replace_of_nodup hInv.nodup hi rfl hnt (mkStatusCall_executing tc none now),
      hsc]
  have hi2 : ∀ el,
      ({ (setStatusTracked none p.2 tc.request.call_id .executing none now).2 with
        execLog := el } : SchedulerState).tool_calls[i]? = some (executingCall tc) := by
    intro el
    show (setStatusTracked none p.2 tc.request.call_id
      .executing none now).2.tool_calls[i]? = some (executingCall tc)
    rw [hlist]
    exact List.getElem?_set_self (by simpa using hilen)
  unfold execStep
  rw [hfz]
  simp only [List.get?_eq_getElem?, Option.getD_none]
  rw [hi]
  simp only []
  rw [if_pos hsc, hf1]
  have hfin : ∀ (stF : TStatus) (d : Option Details) (fc : ToolCall) (el : List ExecEv),
      mkStatusCall (executingCall tc) stF d now = some fc →
      (fc.status = .success ∨ fc.status = .error) → fc.request = tc.request →
      (∃ fc2 : ToolCall, (fc2.status = .success ∨ fc2.status = .error) ∧
        fc2.request = tc.request ∧
        (setStatusTracked none
          ({ (setStatusTracked none p.2 tc.request.call_id .executing none now).2 with
            execLog := el } : SchedulerState) tc.request.call_id stF d now).2.transitions =
          p.2.transitions ++ [⟨tc.request.call_id, .scheduled, executingCall tc⟩,
            ⟨tc.request.call_id, .executing, fc2⟩] ∧
        (((setStatusTracked none
            ({ (setStatusTracked none p.2 tc.request.call_id .executing none now).2 with
              execLog := el } : SchedulerState) tc.request.call_id stF d now).1 = none ∧
          (setStatusTracked none
            ({ (setStatusTracked none p.2 tc.request.call_id .executing none now).2 with
              execLog := el } : SchedulerState) tc.request.call_id stF d now).2.tool_calls =
            p.2.tool_calls.set i fc2) ∨
         ((setStatusTracked none
            ({ (setStatusTracked none p.2 tc.request.call_id .executing none now).2 with
              execLog := el } : SchedulerState) tc.request.call_id stF d now).2.tool_calls
            = [] ∧
          ∃ f, (setStatusTracked none
            ({ (setStatusTracked none p.2 tc.request.call_id .executing none now).2 with
              execLog := el } : SchedulerState) tc.request.call_id stF d now).1 = some f ∧
            f = p.2.tool_calls.set i fc2 ∧ ∀ c ∈ f, c.status.isTerminal = true))) := by
    intro stF d fc el hmk hst hreq
    have hset := second_tracked_run (i := i)
      (SInv_execLog hS1 el) (hi2 el) rfl hmk
      (show ({ (setStatusTracked none p.2 tc.request.call_id .executing none now).2 with
          execLog := el } : SchedulerState).transitions =
        p.2.transitions ++ [⟨tc.request.call_id, .scheduled, executingCall tc⟩] from htr1)
    have hS2l : ({ (setStatusTracked none p.2 tc.request.call_id .executing none now).2 with
        execLog := el } : SchedulerState).tool_calls =
        p.2.tool_calls.set i (executingCall tc) := hlist
    have hbc : ({ (setStatusTracked none p.2 tc.request.call_id .executing none now).2 with
        execLog := el } : SchedulerState).tool_calls.set i fc =
        p.2.tool_calls.set i fc := by
      rw [hS2l, List.set_set]
    refine ⟨fc, hst, hreq, ?_, ?_⟩
    · exact hset.1.trans (by rw [List.append_assoc]; exact rfl)
    · rcases hset.2 with ⟨ha, hb⟩ | ⟨ha, f, hb, hc, hd⟩
      · exact Or.inl ⟨ha, hb.trans hbc⟩
      · exact Or.inr ⟨ha, f, hb, hc.trans hbc, hd⟩
  rcases htool : tc.tool with - | t <;> simp only [htool]
  · exact hfin .error _ _ _ (mkStatusCall_error (executingCall tc) _ now) (Or.inr rfl) rfl
  · rcases hres : env.exec t tc.request.args aborted with e | result <;> simp only [hres]
    · exact hfin .error _ _ _ (mkStatusCall_error (executingCall tc) _ now) (Or.inr rfl) rfl
    · rcases herr : result.error with - | err <;> simp only [herr]
      · exact hfin .success _ _ _ (mkStatusCall_success (executingCall tc) _ now)
          (Or.inl rfl) rfl
      · exact hfin .error _ _ _ (mkStatusCall_error (executingCall tc) _ now) (Or.inr rfl) rfl

/-- `_set_status` with a target status other than `bad` introduces no
call with status `bad`. -/
theorem setStatus_no_status {s : SchedulerState} {cid : String} {st : TStatus}
    {d : Option Details} {now : Nat} {bad : TStatus} (hst : st ≠ bad)
    (h : ∀ c ∈ s.tool_calls, c.status ≠ bad) :
    ∀ c ∈ (setStatus s cid st d now).tool_calls, c.status ≠ bad := by
  intro c hc
  rcases setStatus_tool_calls s cid st d now with ⟨hemp, -⟩ | hkeep
  · rw [hemp] at hc
    simp at hc
  · rw [hkeep] at hc
    rcases setStatusCore_mem c hc with h1 | h1
    · exact h c h1
    · rw [h1]
      exact hst

/-- The validation loop only sets `awaiting_approval`, `scheduled` or
`error`: it introduces no `executing` call. -/
theorem validateLoop_no_executing (env : ToolEnv) (aborted : Bool) (now : Nat) :
    ∀ (pending : List ToolCall) (s : SchedulerState),
      (∀ c ∈ s.tool_calls, c.status ≠ .executing) →
      ∀ c ∈ (validateLoop env aborted now pending s).tool_calls, c.status ≠ .executing := by
  intro pending
  induction pending with
  | nil =>
    intro s h
    exact h
  | cons tc rest ih =>
    intro s h
    rw [validateLoop]
    by_cases hv : tc.status = .validating
    · rw [if_pos hv]
      rcases htool : tc.tool with - | t <;> simp only [htool]
      · exact ih _ (setStatus_no_status (by decide) h)
      · rcases hconf : env.shouldConfirm t tc.request.args aborted with e | c
        · exact ih _ (setStatus_no_status (by decide) h)
        · rcases c with - | cd
          · exact ih _ (setStatus_no_status (by decide) h)
          · exact ih _ (setStatus_no_status (by decide) h)
    · rw [if_neg hv]
      exact ih s h

/-- One validation step on a `validating` snapshot call: the invariant is
kept, the remaining `validating` snapshot calls stay present, and every
`validating` entry of the new list is still covered by the remaining
snapshot. -/
theorem validateLoop_step_aux {now : Nat} {s : SchedulerState} {tc : ToolCall}
    {rest : List ToolCall} {st : TStatus} {details : Option Details} {nc : ToolCall} {i : Nat}
    (hInv : SInv s) (hi : s.tool_calls[i]? = some tc) (hv : tc.status = .validating)
    (hmk : mkStatusCall tc st details now = some nc)
    (hstne : st ≠ .validating)
    (hedge : validEdge .validating st = true)
    (hshape : TermShape nc)
    (hid_ne : ∀ u ∈ rest, u.request.call_id ≠ tc.request.call_id)
    (hps : ∀ u ∈ tc :: rest, u.status = .validating → u ∈ s.tool_calls)
    (hcover : ∀ c ∈ s.tool_calls, c.status = .validating →
      ∃ u ∈ tc :: rest, u.status = .validating ∧ u.request.call_id = c.request.call_id) :
    SInv (setStatus s tc.request.call_id st details now) ∧
    (∀ u ∈ rest, u.status = .validating →
      u ∈ (setStatus s tc.request.call_id st details now).tool_calls) ∧
    (∀ c ∈ (setStatus s tc.request.call_id st details now).tool_calls, c.status = .validating →
      ∃ u ∈ rest, u.status = .validating ∧ u.request.call_id = c.request.call_id) := by
  have hnt : ¬tc.status.isTerminal = true := by
    rw [hv]
    simp [TStatus.isTerminal]
  have hilen : i < s.tool_calls.length := (List.getElem?_eq_some_iff.mp hi).1
  have hival : s.tool_calls[i] = tc := (List.getElem?_eq_some_iff.mp hi).2
  have hcore := setStatusCore_replace_of_nodup hInv.nodup hi rfl hnt hmk
  refine ⟨SInv_setStatus_of_replace hInv hi rfl hnt hmk (by rwa [hv]) hshape, ?_, ?_⟩
  · intro u hu huv
    have humem : u ∈ s.tool_calls := hps u (List.mem_cons_of_mem tc hu) huv
    obtain ⟨j, hjlen, hjval⟩ := List.getElem_of_mem humem
    have hjq : s.tool_calls[j]? = some u := List.getElem?_eq_some_iff.mpr ⟨hjlen, hjval⟩
    have hji : j ≠ i := by
      intro hj
      rw [hj, hi] at hjq
      have hut : u = tc := by
        injection hjq with hinj
        exact hinj.symm
      exact hid_ne u hu (by rw [hut])
    have humem' : u ∈ (setStatusCore s.tool_calls tc.request.call_id st details now).1 := by
      rw [hcore]
      refine List.getElem?_mem (?_ : (s.tool_calls.set i nc)[j]? = some u)
      rw [List.getElem?_set_ne (Ne.symm hji)]
      exact hjq
    rcases setStatus_tool_calls s tc.request.call_id st details now with
      ⟨hcl, hcase⟩ | hkeep
    · exfalso
      rcases hcase with hcase | hcase
      · rw [hcase] at humem'
        simp at humem'
      · have := hcase.2.1 u humem'
        rw [huv] at this
        simp [TStatus.isTerminal] at this
    · rw [hkeep]
      exact humem'
  · intro c hc hcv
    rcases setStatus_tool_calls s tc.request.call_id st details now with ⟨hemp, -⟩ | hkeep
    · rw [hemp] at hc
      simp at hc
    · rw [hkeep] at hc
      have hc2 : c ∈ s.tool_calls.set i nc := by simpa [hcore] using hc
      obtain ⟨j, hjlen, hjval⟩ := List.getElem_of_mem hc2
      have hjq : (s.tool_calls.set i nc)[j]? = some c :=
        List.getElem?_eq_some_iff.mpr ⟨hjlen, hjval⟩
      by_cases hji : j = i
      · exfalso
        subst hji
        rw [List.getElem?_set_self (by simpa using hilen)] at hjq
        have hnceq : nc = c := by injection hjq
        rw [← hnceq, mkStatusCall_status hmk] at hcv
        exact hstne hcv
      · rw [List.getElem?_set_ne (Ne.symm hji)] at hjq
        have hcmem : c ∈ s.tool_calls := List.getElem?_mem hjq
        obtain ⟨u, hu, huv, huid⟩ := hcover c hcmem hcv
        rcases List.mem_cons.mp hu with hu | hu
        · exfalso
          have hjlen2 : j < s.tool_calls.length := (List.getElem?_eq_some_iff.mp hjq).1
          have hinj := @List.Nodup.getElem_inj_iff _ (idsOf s.tool_calls)
            (by simpa [idsOf] using hInv.nodup)
            j (by simpa [idsOf] using hjlen2)
            i (by simpa [idsOf] using hilen)
          apply hji
          apply hinj.mp
          simp only [idsOf, List.getElem_map]
          have hcj : s.tool_calls[j] = c := (List.getElem?_eq_some_iff.mp hjq).2
          rw [hcj, hival, ← huid, hu]
        · exact ⟨u, hu, huv, huid⟩

/-- After the validation loop has processed a snapshot covering every
`validating` entry, no entry of the list is still `validating`. -/
theorem validateLoop_no_validating (env : ToolEnv) (aborted : Bool) (now : Nat) :
    ∀ (pending : List ToolCall) (s : SchedulerState),
      SInv s → (idsOf pending).Nodup →
      (∀ u ∈ pending, u.status = .validating → u ∈ s.tool_calls) →
      (∀ c ∈ s.tool_calls, c.status = .validating →
        ∃ u ∈ pending, u.status = .validating ∧ u.request.call_id = c.request.call_id) →
      ∀ c ∈ (validateLoop env aborted now pending s).tool_calls, c.status ≠ .validating := by
  intro pending
  induction pending with
  | nil =>
    intro s _ _ _ hcover c hc hcv
    obtain ⟨u, hu, -⟩ := hcover c hc hcv
    simp at hu
  | cons tc rest ih =>
    intro s hInv hnodup hps hcover
    rw [validateLoop]
    by_cases hv : tc.status = .validating
    · rw [if_pos hv]
      have hmem : tc ∈ s.tool_calls := hps tc (List.mem_cons_self tc rest) hv
      obtain ⟨i, hilen, hival⟩ := List.getElem_of_mem hmem
      have hi : s.tool_calls[i]? = some tc := List.getElem?_eq_some_iff.mpr ⟨hilen, hival⟩
      have h2 : (∀ x ∈ rest, ¬x.request.call_id = tc.request.call_id) ∧
          (rest.map fun c => c.request.call_id).Nodup := by
        simpa [idsOf] using hnodup
      have hrest_nodup : (idsOf rest).Nodup := by
        simpa [idsOf] using h2.2
      have hid_ne : ∀ u ∈ rest, u.request.call_id ≠ tc.request.call_id :=
        fun u hu => h2.1 u hu
      rcases htool : tc.tool with - | t <;> simp only [htool]
      · obtain ⟨hS, hpres, hcov⟩ := validateLoop_step_aux hInv hi hv
          (mkStatusCall_error tc (some (.resp ⟨tc.request.call_id,
            .functionResponse tc.request.call_id tc.request.name
              (.error ("Validation failed: " ++
                "AttributeError: NoneType object has no attribute should_confirm_execute")),
            none,
            some "AttributeError: NoneType object has no attribute should_confirm_execute"⟩))
            now)
          (by decide) rfl (by
            constructor
            · intro _
              exact ⟨_, _, rfl, rfl, rfl⟩
            · intro hcontra
              simp [errorCall] at hcontra) hid_ne hps hcover
        exact ih _ hS hrest_nodup hpres hcov
      · rcases hconf : env.shouldConfirm t tc.request.args aborted with e | c
        · obtain ⟨hS, hpres, hcov⟩ := validateLoop_step_aux hInv hi hv
            (mkStatusCall_error tc (some (.resp ⟨tc.request.call_id,
              .functionResponse tc.request.call_id tc.request.name
                (.error ("Validation failed: " ++ e)), none, some e⟩)) now)
            (by decide) rfl (by
              constructor
              · intro _
                exact ⟨_, _, rfl, rfl, rfl⟩
              · intro hcontra
                simp [errorCall] at hcontra) hid_ne hps hcover
          exact ih _ hS hrest_nodup hpres hcov
        · rcases c with - | cd
          · obtain ⟨hS, hpres, hcov⟩ := validateLoop_step_aux hInv hi hv
              (mkStatusCall_scheduled tc none now) (by decide) rfl
              (TermShape_of_nonterminal rfl) hid_ne hps hcover
            exact ih _ hS hrest_nodup hpres hcov
          · obtain ⟨hS, hpres, hcov⟩ := validateLoop_step_aux hInv hi hv
              (mkStatusCall_awaiting tc _ now) (by decide) rfl
              (TermShape_of_nonterminal rfl) hid_ne hps hcover
            exact ih _ hS hrest_nodup hpres hcov
    · rw [if_neg hv]
      refine ih s hInv ?_ ?_ ?_
      · simpa [idsOf] using List.Nodup.of_cons (by simpa [idsOf] using hnodup)
      · intro u hu huv
        exact hps u (List.mem_cons_of_mem tc hu) huv
      · intro c hc hcv
        obtain ⟨u, hu, huv, huid⟩ := hcover c hc hcv
        rcases List.mem_cons.mp hu with hu | hu
        · exfalso
          rw [hu] at huv
          exact hv huv
        · exact ⟨u, hu, huv, huid⟩

/-- The validation loop never leaves a state satisfying the clearing
condition: each step ends in `_set_status`, whose sweep would have fired.
-/
theorem validateLoop_not_sweepCond (env : ToolEnv) (aborted : Bool) (now : Nat) :
    ∀ (pending : List ToolCall) (s : SchedulerState),
      ¬sweepCond s.tool_calls →
      ¬sweepCond (validateLoop env aborted now pending s).tool_calls := by
  intro pending
  induction pending with
  | nil =>
    intro s h
    exact h
  | cons tc rest ih =>
    intro s h
    rw [validateLoop]
    by_cases hv : tc.status = .validating
    · rw [if_pos hv]
      rcases htool : tc.tool with - | t <;> simp only [htool]
      · exact ih _ (not_sweepCond_setStatus _ _ _ _ _)
      · rcases hconf : env.shouldConfirm t tc.request.args aborted with e | c
        · exact ih _ (not_sweepCond_setStatus _ _ _ _ _)
        · rcases c with - | cd
          · exact ih _ (not_sweepCond_setStatus _ _ _ _ _)
          · exact ih _ (not_sweepCond_setStatus _ _ _ _ _)
    · rw [if_neg hv]
      exact ih s h

/-- One execution-loop step never leaves a state satisfying the clearing
condition (a non-skipping step ends in `_set_status`). -/
theorem execStep_not_sweepCond {env : ToolEnv} {aborted : Bool} {now : Nat}
    {p : Option (List ToolCall) × SchedulerState} {i : Nat}
    (h : ¬sweepCond p.2.tool_calls) :
    ¬sweepCond (execStep env aborted now p i).2.tool_calls := by
  rcases hobj : (p.1.getD p.2.tool_calls)[i]? with - | tc
  · rw [execStep_skip_none hobj]
    exact h
  · by_cases hsc : tc.status = .scheduled
    · unfold execStep
      simp only [List.get?_eq_getElem?]
      rw [hobj]
      simp only []
      rw [if_pos hsc]
      rcases htool : tc.tool with - | t <;> simp only [htool]
      · rw [setStatusTracked_state]
        exact not_sweepCond_setStatus _ _ _ _ _
      · rcases hres : env.exec t tc.request.args aborted with e | result <;> simp only [hres]
        · rw [setStatusTracked_state]
          exact not_sweepCond_setStatus _ _ _ _ _
        · rcases herr : result.error with - | err <;> simp only [herr]
          · rw [setStatusTracked_state]
            exact not_sweepCond_setStatus _ _ _ _ _
          · rw [setStatusTracked_state]
            exact not_sweepCond_setStatus _ _ _ _ _
    · rw [execStep_skip_not_scheduled hobj hsc]
      exact h

/-- The execution loop never leaves a state satisfying the clearing
condition. -/
theorem attemptExecution_not_sweepCond {s : SchedulerState} {env : ToolEnv} {aborted : Bool}
    {now : Nat} (h : ¬sweepCond s.tool_calls) :
    ¬sweepCond (attemptExecution s env aborted now).tool_calls :=
  foldl_execStep_pres (P := fun p => ¬sweepCond p.2.tool_calls)
    (fun _ _ hp => execStep_not_sweepCond hp)
    (List.range s.tool_calls.length) (none, s) h

/-- One execution-loop step introduces no call whose status is `bad`, for
`bad` other than the terminal outcomes it writes. -/
theorem execStep_no_status {env : ToolEnv} {aborted : Bool} {now : Nat}
    {p : Option (List ToolCall) × SchedulerState} {i : Nat} {bad : TStatus}
    (hbad1 : bad ≠ .success) (hbad2 : bad ≠ .error)
    (hE : EInvP p) (h : ∀ c ∈ p.2.tool_calls, c.status ≠ bad) :
    ∀ c ∈ (execStep env aborted now p i).2.tool_calls, c.status ≠ bad := by
  rcases hobj : (p.1.getD p.2.tool_calls)[i]? with - | tc
  · rw [execStep_skip_none hobj]
    exact h
  · by_cases hsc : tc.status = .scheduled
    · rcases hp1 : p.1 with - | f
      · rw [hp1, Option.getD_none] at hobj
        obtain ⟨fc, hfst, -, -, hcase⟩ := execStep_run hE.1 hp1 hobj hsc
        rcases hcase with ⟨-, hlst⟩ | ⟨hlst, -⟩
        · rw [hlst]
          intro c hc
          rcases List.mem_or_eq_of_mem_set hc with hc | hc
          · exact h c hc
          · rw [hc]
            rcases hfst with h1 | h1 <;> rw [h1]
            · exact fun he => hbad1 he.symm
            · exact fun he => hbad2 he.symm
        · rw [hlst]
          intro c hc
          simp at hc
      · rw [hp1] at hobj
        rw [Option.getD_some] at hobj
        obtain ⟨-, hterm⟩ := hE.2 f hp1
        have hcontra := hterm tc (List.getElem?_mem hobj)
        rw [hsc] at hcontra
        simp [TStatus.isTerminal] at hcontra
    · rw [execStep_skip_not_scheduled hobj hsc]
      exact h

/-- The execution loop introduces no call whose status is `bad`, for
`bad` other than the terminal outcomes it writes. -/
theorem attemptExecution_no_status {s : SchedulerState} {env : ToolEnv} {aborted : Bool}
    {now : Nat} {bad : TStatus} (hbad1 : bad ≠ .success) (hbad2 : bad ≠ .error)
    (hInv : SInv s) (h : ∀ c ∈ s.tool_calls, c.status ≠ bad) :
    ∀ c ∈ (attemptExecution s env aborted now).tool_calls, c.status ≠ bad :=
  (foldl_execStep_pres
    (P := fun p => EInvP p ∧ ∀ c ∈ p.2.tool_calls, c.status ≠ bad)
    (fun p i hp => ⟨execStep_EInv env aborted now p i hp.1,
      execStep_no_status hbad1 hbad2 hp.1 hp.2⟩)
    (List.range s.tool_calls.length) (none, s) ⟨⟨hInv, by simp⟩, h⟩).2

/-- Iterating the execution loop over all remaining positions leaves no
`scheduled` call: each visited position is either skipped (not scheduled)
or driven to a terminal status. -/
theorem execLoop_clears_scheduled (env : ToolEnv) (aborted : Bool) (now : Nat) :
    ∀ (k b : Nat) (p : Option (List ToolCall) × SchedulerState),
      EInvP p →
      (p.1 = none → p.2.tool_calls.length = b + k ∧
        ∀ j u, j < b → p.2.tool_calls[j]? = some u → u.status ≠ .scheduled) →
      ∀ c ∈ ((List.range' b k).foldl (execStep env aborted now) p).2.tool_calls,
        c.status ≠ .scheduled := by
  intro k
  induction k with
  | zero =>
    intro b p hE hpre c hc
    simp only [List.range', List.foldl_nil] at hc
    rcases hp1 : p.1 with - | f
    · obtain ⟨hlen, hpre2⟩ := hpre hp1
      obtain ⟨j, hjlen, hjval⟩ := List.getElem_of_mem hc
      refine hpre2 j c ?_ (List.getElem?_eq_some_iff.mpr ⟨hjlen, hjval⟩)
      omega
    · obtain ⟨hemp, -⟩ := hE.2 f hp1
      rw [hemp] at hc
      simp at hc
  | succ k ih =>
    intro b p hE hpre
    have hrange : List.range' b (k + 1) = b :: List.range' (b + 1) k := List.range'_succ b k 1
    rw [hrange]
    simp only [List.foldl_cons]
    refine ih (b + 1) (execStep env aborted now p b)
      (execStep_EInv env aborted now p b hE) ?_
    intro hfz2
    rcases hp1 : p.1 with - | f
    · obtain ⟨hlen, hpre2⟩ := hpre hp1
      have hblen : b < p.2.tool_calls.length := by omega
      obtain ⟨tc, htc⟩ : ∃ tc, p.2.tool_calls[b]? = some tc :=
        ⟨_, List.getElem?_eq_getElem hblen⟩
      have hobj : (p.1.getD p.2.tool_calls)[b]? = some tc := by
        rw [hp1, Option.getD_none]
        exact htc
      by_cases hsc : tc.status = .scheduled
      · obtain ⟨fc, hfst, -, -, hcase⟩ := execStep_run hE.1 hp1 htc hsc
        rcases hcase with ⟨-, hlst⟩ | ⟨-, f2, hf2, -⟩
        · refine ⟨by rw [hlst, List.length_set]; omega, ?_⟩
          intro j u hj hju
          rw [hlst] at hju
          by_cases hjb : j = b
          · subst hjb
            rw [List.getElem?_set_self hblen] at hju
            have hufc : fc = u := by
              injection hju
            rw [← hufc]
            rcases hfst with h1 | h1 <;> rw [h1] <;> exact (by decide)
          · rw [List.getElem?_set_ne (Ne.symm hjb)] at hju
            exact hpre2 j u (by omega) hju
        · exfalso
          rw [hfz2] at hf2
          exact Option.noConfusion hf2
      · rw [execStep_skip_not_scheduled hobj hsc]
        refine ⟨by omega, ?_⟩
        intro j u hj hju
        by_cases hjb : j = b
        · subst hjb
          rw [htc] at hju
          have hutc : tc = u := by
            injection hju
          rw [← hutc]
          exact hsc
        · exact hpre2 j u (by omega) hju
    · exfalso
      obtain ⟨hemp, hterm⟩ := hE.2 f hp1
      have heq : execStep env aborted now p b = p := by
        rcases hobj : (p.1.getD p.2.tool_calls)[b]? with - | tc
        · exact execStep_skip_none hobj
        · refine execStep_skip_not_scheduled hobj ?_
          rw [hp1, Option.getD_some] at hobj
          have hcontra := hterm tc (List.getElem?_mem hobj)
          intro hx
          rw [hx] at hcontra
          simp [TStatus.isTerminal] at hcontra
      rw [heq, hp1] at hfz2
      exact Option.noConfusion hfz2

/-- After `_attempt_execution_of_scheduled_calls`, no call is left
`scheduled`. -/
theorem attemptExecution_no_scheduled {s : SchedulerState} (hInv : SInv s) (env : ToolEnv)
    (aborted : Bool) (now : Nat) :
    ∀ c ∈ (attemptExecution s env aborted now).tool_calls, c.status ≠ .scheduled := by
  unfold attemptExecution
  rw [List.range_eq_range']
  exact execLoop_clears_scheduled env aborted now s.tool_calls.length 0 (none, s)
    ⟨hInv, by simp⟩ (fun _ => ⟨by simp, fun j u hj _ => absurd hj (Nat.not_lt_zero j)⟩)

theorem Progress_trans {s0 s1 s2 : SchedulerState} (h01 : Progress s0 s1)
    (h12 : Progress s1 s2) : Progress s0 s2 := by
  obtain ⟨e1, he1, hc1⟩ := h01
  obtain ⟨e2, he2, hc2⟩ := h12
  refine ⟨e1 ++ e2, by rw [he2, he1, List.append_assoc], ?_⟩
  intro h2
  rcases hc2 h2 with h1 | ⟨l, hl⟩
  · rcases hc1 h1 with h0 | ⟨l, hl⟩
    · exact Or.inl h0
    · exact Or.inr ⟨l, List.mem_append_left _ hl⟩
  · exact Or.inr ⟨l, List.mem_append_right _ hl⟩

/-- The scan preserves the list length. -/
theorem setStatusCore_length {l : List ToolCall} (cid : String) (st : TStatus)
    (details : Option Details) (now : Nat) :
    (setStatusCore l cid st details now).1.length = l.length := by
  have h := congrArg List.length (setStatusCore_ids (l := l) cid st details now)
  simpa [idsOf] using h

theorem setStatus_progress (s : SchedulerState) (cid : String) (st : TStatus)
    (d : Option Details) (now : Nat) : Progress s (setStatus s cid st d now) := by
  rw [setStatus]
  by_cases hc : sweepCond (setStatusCore s.tool_calls cid st d now).1
  · rw [checkAndNotifyCompletion_of_cond (by simpa using hc)]
    exact ⟨[.callsUpdate (setStatusCore s.tool_calls cid st d now).1,
      .allComplete (setStatusCore s.tool_calls cid st d now).1, .callsUpdate []],
      by simp [notifyToolCallsUpdate],
      fun _ => Or.inr ⟨(setStatusCore s.tool_calls cid st d now).1, by simp⟩⟩
  · rw [checkAndNotifyCompletion_of_not_cond (by simpa using hc)]
    refine ⟨[.callsUpdate (setStatusCore s.tool_calls cid st d now).1], rfl, ?_⟩
    intro hemp
    left
    have hemp2 : (setStatusCore s.tool_calls cid st d now).1 = [] := hemp
    have hlen := setStatusCore_length (l := s.tool_calls) cid st d now
    rw [hemp2] at hlen
    exact List.eq_nil_of_length_eq_zero (by simpa using hlen.symm)

theorem validateLoop_progress (env : ToolEnv) (aborted : Bool) (now : Nat) :
    ∀ (pending : List ToolCall) (s : SchedulerState),
      Progress s (validateLoop env aborted now pending s) := by
  intro pending
  induction pending with
  | nil =>
    intro s
    exact ⟨[], (List.append_nil s.events).symm, Or.inl⟩
  | cons tc rest ih =>
    intro s
    rw [validateLoop]
    by_cases hv : tc.status = .validating
    · rw [if_pos hv]
      rcases htool : tc.tool with - | t <;> simp only [htool]
      · exact Progress_trans (setStatus_progress _ _ _ _ _) (ih _)
      · rcases hconf : env.shouldConfirm t tc.request.args aborted with e | c
        · exact Progress_trans (setStatus_progress _ _ _ _ _) (ih _)
        · rcases c with - | cd
          · exact Progress_trans (setStatus_progress _ _ _ _ _) (ih _)
          · exact Progress_trans (setStatus_progress _ _ _ _ _) (ih _)
    · rw [if_neg hv]
      exact ih s

theorem execStep_progress (env : ToolEnv) (aborted : Bool) (now : Nat)
    (p : Option (List ToolCall) × SchedulerState) (i : Nat) :
    Progress p.2 (execStep env aborted now p i).2 := by
  rcases hobj : (p.1.getD p.2.tool_calls)[i]? with - | tc
  · rw [execStep_skip_none hobj]
    exact ⟨[], by simp, Or.inl⟩
  · by_cases hsc : tc.status = .scheduled
    · unfold execStep
      simp only [List.get?_eq_getElem?]
      rw [hobj]
      simp only []
      rw [if_pos hsc]
      rcases htool : tc.tool with - | t <;> simp only [htool]
      · obtain ⟨e, he, hev⟩ := setStatus_progress p.2 tc.request.call_id .executing none now
        rw [setStatusTracked_state]
        exact Progress_trans ⟨e, he, hev⟩ (setStatus_progress _ _ _ _ _)
      · rcases hres : env.exec t tc.request.args aborted with er | result <;> simp only [hres]
        · obtain ⟨e, he, hev⟩ := setStatus_progress p.2 tc.request.call_id .executing none now
          rw [setStatusTracked_state]
          exact Progress_trans ⟨e, he, hev⟩ (setStatus_progress _ _ _ _ _)
        · rcases herr : result.error with - | err <;> simp only [herr]
          · obtain ⟨e, he, hev⟩ := setStatus_progress p.2 tc.request.call_id .executing none now
            rw [setStatusTracked_state]
            exact Progress_trans ⟨e, he, hev⟩ (setStatus_progress _ _ _ _ _)
          · obtain ⟨e, he, hev⟩ := setStatus_progress p.2 tc.request.call_id .executing none now
            rw [setStatusTracked_state]
            exact Progress_trans ⟨e, he, hev⟩ (setStatus_progress _ _ _ _ _)
    · rw [execStep_skip_not_scheduled hobj hsc]
      exact ⟨[], by simp, Or.inl⟩

theorem attemptExecution_progress (s : SchedulerState) (env : ToolEnv) (aborted : Bool)
    (now : Nat) : Progress s (attemptExecution s env aborted now) :=
  foldl_execStep_pres (P := fun p => Progress s p.2)
    (fun p i hp => Progress_trans hp (execStep_progress env aborted now p i))
    (List.range s.tool_calls.length) (none, s) ⟨[], by simp, Or.inl⟩

/-- The validation loop skips every call not created `validating`. -/
theorem validateLoop_id (env : ToolEnv) (aborted : Bool) (now : Nat) :
    ∀ (pending : List ToolCall) (s : SchedulerState),
      (∀ u ∈ pending, u.status ≠ .validating) →
      validateLoop env aborted now pending s = s := by
  intro pending
  induction pending with
  | nil =>
    intro s _
    rfl
  | cons tc rest ih =>
    intro s h
    rw [validateLoop, if_neg (h tc (List.mem_cons_self tc rest))]
    exact ih s (fun u hu => h u (List.mem_cons_of_mem tc hu))

/-- The execution loop skips every call when none is `scheduled`. -/
theorem attemptExecution_id {s : SchedulerState} {env : ToolEnv} {aborted : Bool}
    {now : Nat} (h : ∀ c ∈ s.tool_calls, c.status ≠ .scheduled) :
    attemptExecution s env aborted now = s := by
  have key := @foldl_execStep_pres env aborted now
    (fun p => p = ((none : Option (List ToolCall)), s))
    (fun p i hp => by
      rw [hp]
      rcases hobj : s.tool_calls[i]? with - | tc
      · exact execStep_skip_none hobj
      · exact execStep_skip_not_scheduled hobj (h tc (List.getElem?_mem hobj)))
    (List.range s.tool_calls.length) (none, s) rfl
  unfold attemptExecution
  rw [key]

/-- The calls `schedule` creates are `error` (tool not found) or
`validating`. -/
theorem makeNewCalls_status (env : ToolEnv) (now : Nat)
    (requests : List ToolCallRequestInfo) :
    ∀ c ∈ makeNewCalls env now requests, c.status = .error ∨ c.status = .validating := by
  intro c hc
  obtain ⟨r, hr, hrc⟩ := List.mem_map.mp hc
  rcases hg : env.getTool r.name with - | t <;> rw [hg] at hrc
  · exact Or.inl (by rw [← hrc]; rfl)
  · exact Or.inr (by rw [← hrc]; rfl)

/-- A terminal status is none of the four in-flight statuses. -/
theorem terminal_not_active {st : TStatus} (h : st.isTerminal = true) :
    st ≠ .validating ∧ st ≠ .scheduled ∧ st ≠ .executing ∧ st ≠ .awaiting_approval := by
  revert h
  cases st <;> decide

/-- Appending a fresh batch and notifying keeps the state invariant. -/
theorem SInv_batch {s : SchedulerState} (hInv : SInv s)
    {requests : List ToolCallRequestInfo} (hfresh : freshBatch s requests)
    (env : ToolEnv) (now : Nat) :
    SInv (notifyToolCallsUpdate
      { s with tool_calls := s.tool_calls ++ makeNewCalls env now requests }) := by
  constructor
  · show (idsOf (s.tool_calls ++ makeNewCalls env now requests)).Nodup
    rw [idsOf, List.map_append, List.nodup_append]
    refine ⟨hInv.nodup, by
      rw [← idsOf, makeNewCalls_ids]
      exact hfresh.1, ?_⟩
    intro x hx hxy
    obtain ⟨c, hc, hcx⟩ := List.mem_map.mp hx
    have hy' : x ∈ requests.map fun r => r.call_id := by
      have := makeNewCalls_ids env now requests
      rw [idsOf] at this
      rwa [← this]
    obtain ⟨r, hr, hry⟩ := List.mem_map.mp hy'
    exact hfresh.2 r hr c hc (by rw [hry, ← hcx])
  · intro t ht
    exact hInv.validTrans t ht
  · intro c hc
    rcases List.mem_append.mp (by simpa using hc) with hc | hc
    · exact hInv.termShape c hc
    · exact makeNewCalls_shape env now requests c hc
  · intro lev hmem c hc
    have hmem' : SchedEvent.allComplete lev ∈ s.events ++
        [SchedEvent.callsUpdate (s.tool_calls ++ makeNewCalls env now requests)] := hmem
    rcases List.mem_append.mp hmem' with hmem2 | hmem2
    · exact hInv.eventsShape lev hmem2 c hc
    · simp at hmem2

/-- C5: for every request of a batch whose tool name is not in the
registry, `schedule` creates (in order) the immediately terminal
`error` call with `duration_ms` 0 and the not-found `functionResponse`
under the request's `call_id`; the remaining requests are still
processed (no call is left `validating`, `scheduled` or `executing`);
and the batch reaches completion — empty list and an
`on_all_tools_complete` callback — provided at least one request
resolves to a registered tool and no call ends awaiting approval.  A
batch consisting solely of unregistered tools is never swept: every
call is created terminal without any `_set_status` transition, so the
state is exactly the appended error calls with a single listener
notification. -/
theorem notFound_requests_spec (s : SchedulerState) (requests : List ToolCallRequestInfo)
    (env : ToolEnv) (aborted : Bool) (now : Nat)
    (hInv : SInv s) (hfresh : freshBatch s requests)
    (hidle : isRunning s = false)
    (hterm : ∀ c ∈ s.tool_calls, c.status.isTerminal = true) :
    (∀ (i : Nat) (r : ToolCallRequestInfo), requests[i]? = some r →
      env.getTool r.name = none →
      (makeNewCalls env now requests)[i]? = some (errorNotFoundCall r) ∧
      (errorNotFoundCall r).status = .error ∧
      (errorNotFoundCall r).duration_ms = some 0 ∧
      (errorNotFoundCall r).response = some ⟨r.call_id,
        .functionResponse r.call_id r.name (.error (notFoundMsg r.name)),
        none, some (notFoundMsg r.name)⟩) ∧
    (∀ c ∈ (schedule s requests env aborted now).1.tool_calls,
      c.status.isTerminal = true ∨ c.status = .awaiting_approval) ∧
    ((∃ r ∈ requests, (env.getTool r.name).isSome = true) →
      (∀ c ∈ (schedule s requests env aborted now).1.tool_calls,
        c.status ≠ .awaiting_approval) →
      (schedule s requests env aborted now).1.tool_calls = [] ∧
      ∃ e l, (schedule s requests env aborted now).1.events = s.events ++ e ∧
        SchedEvent.allComplete l ∈ e) ∧
    ((∀ r ∈ requests, env.getTool r.name = none) →
      (schedule s requests env aborted now).1 = notifyToolCallsUpdate
        { s with tool_calls := s.tool_calls ++ requests.map errorNotFoundCall }) := by
  have hnotrun : ¬isRunning s = true := by
    simp [hidle]
  have hF : (schedule s requests env aborted now).1 =
      attemptExecution (validateLoop env aborted now (makeNewCalls env now requests)
        (notifyToolCallsUpdate
          { s with tool_calls := s.tool_calls ++ makeNewCalls env now requests }))
        env aborted now := by
    rw [schedule, if_neg hnotrun]
  rw [hF]
  set NC := makeNewCalls env now requests with hNC
  set s1 : SchedulerState := notifyToolCallsUpdate
    { s with tool_calls := s.tool_calls ++ NC } with hs1
  set s2 : SchedulerState := validateLoop env aborted now NC s1 with hs2
  set F : SchedulerState := attemptExecution s2 env aborted now with hsF
  have hs1calls : s1.tool_calls = s.tool_calls ++ NC := by
    rw [hs1]
    rfl
  have hS1 : SInv s1 := by
    rw [hs1, hNC]
    exact SInv_batch hInv hfresh env now
  have hpnodup : (idsOf NC).Nodup := by
    rw [hNC, makeNewCalls_ids]
    exact hfresh.1
  have hpres : ∀ u ∈ NC, u.status = .validating → u ∈ s1.tool_calls := by
    intro u hu _
    rw [hs1calls]
    exact List.mem_append_right _ hu
  have hcover : ∀ c ∈ s1.tool_calls, c.status = .validating →
      ∃ u ∈ NC, u.status = .validating ∧ u.request.call_id = c.request.call_id := by
    intro c hc hcv
    rw [hs1calls] at hc
    rcases List.mem_append.mp hc with hc | hc
    · exfalso
      have h2 := hterm c hc
      rw [hcv] at h2
      simp [TStatus.isTerminal] at h2
    · exact ⟨c, hc, hcv, rfl⟩
  have hS2 : SInv s2 := by
    rw [hs2]
    exact validateLoop_SInv env aborted now NC s1 hS1 hpnodup hpres
  have hnoval : ∀ c ∈ F.tool_calls, c.status ≠ .validating := by
    rw [hsF]
    refine attemptExecution_no_status (by decide) (by decide) hS2 ?_
    rw [hs2]
    exact validateLoop_no_validating env aborted now NC s1 hS1 hpnodup hpres hcover
  have hnosch : ∀ c ∈ F.tool_calls, c.status ≠ .scheduled := by
    rw [hsF]
    exact attemptExecution_no_scheduled hS2 env aborted now
  have hnoexec_s1 : ∀ c ∈ s1.tool_calls, c.status ≠ .executing := by
    intro c hc
    rw [hs1calls] at hc
    rcases List.mem_append.mp hc with hc | hc
    · exact (terminal_not_active (hterm c hc)).2.2.1
    · rcases makeNewCalls_status env now requests c (hNC ▸ hc) with h1 | h1 <;>
        rw [h1] <;> decide
  have hnoexec : ∀ c ∈ F.tool_calls, c.status ≠ .executing := by
    rw [hsF]
    refine attemptExecution_no_status (by decide) (by decide) hS2 ?_
    rw [hs2]
    exact validateLoop_no_executing env aborted now NC s1 hnoexec_s1
  have hkey : ∀ st : TStatus, st ≠ .validating → st ≠ .scheduled → st ≠ .executing →
      (st.isTerminal = true ∨ st = .awaiting_approval) := by
    intro st h1 h2 h3
    cases st <;> simp_all [TStatus.isTerminal]
  have hTA : ∀ c ∈ F.tool_calls, c.status.isTerminal = true ∨ c.status = .awaiting_approval :=
    fun c hc => hkey c.status (hnoval c hc) (hnosch c hc) (hnoexec c hc)
  refine ⟨?_, hTA, ?_, ?_⟩
  · intro i r hi hg
    refine ⟨?_, rfl, rfl, rfl⟩
    rw [hNC]
    simp [makeNewCalls, List.getElem?_map, hi, hg]
  · rintro ⟨r, hr, hrsome⟩ hnoaw
    obtain ⟨t, ht⟩ := Option.isSome_iff_exists.mp hrsome
    have hvmem : validatingCall r t now ∈ NC := by
      rw [hNC]
      refine List.mem_map.mpr ⟨r, hr, ?_⟩
      rw [ht]
    have hns1 : ¬sweepCond s1.tool_calls := by
      rintro ⟨-, hterm2, -, -⟩
      have h3 := hterm2 (validatingCall r t now)
        (by rw [hs1calls]; exact List.mem_append_right _ hvmem)
      simp [validatingCall, TStatus.isTerminal] at h3
    have hnsF : ¬sweepCond F.tool_calls := by
      rw [hsF]
      refine attemptExecution_not_sweepCond ?_
      rw [hs2]
      exact validateLoop_not_sweepCond env aborted now NC s1 hns1
    have hemp : F.tool_calls = [] := by
      by_contra hne2
      refine hnsF ⟨hne2, ?_, hnoaw, hnoexec⟩
      intro c hc
      rcases hTA c hc with h3 | h3
      · exact h3
      · exact absurd h3 (hnoaw c hc)
    refine ⟨hemp, ?_⟩
    have hprog : Progress s1 F := by
      rw [hsF]
      refine Progress_trans ?_ (attemptExecution_progress s2 env aborted now)
      rw [hs2]
      exact validateLoop_progress env aborted now NC s1
    obtain ⟨e, he, hev⟩ := hprog
    rcases hev hemp with h1 | ⟨l, hl⟩
    · exfalso
      have h4 : validatingCall r t now ∈ s1.tool_calls := by
        rw [hs1calls]
        exact List.mem_append_right _ hvmem
      rw [h1] at h4
      simp at h4
    · refine ⟨SchedEvent.callsUpdate (s.tool_calls ++ NC) :: e, l, ?_,
        List.mem_cons_of_mem _ hl⟩
      have hs1ev : s1.events = s.events ++
          [SchedEvent.callsUpdate (s.tool_calls ++ NC)] := by
        rw [hs1]
        rfl
      rw [he, hs1ev, List.append_assoc]
      rfl
  · intro hall
    have hnew : makeNewCalls env now requests = requests.map errorNotFoundCall := by
      unfold makeNewCalls
      refine List.map_congr_left ?_
      intro r hr
      rw [hall r hr]
    have hstat : ∀ u ∈ NC, u.status ≠ .validating := by
      intro u hu
      rw [hNC, hnew] at hu
      obtain ⟨r2, hr2, hrc⟩ := List.mem_map.mp hu
      rw [← hrc]
      simp [errorNotFoundCall]
    have hvl : validateLoop env aborted now NC s1 = s1 :=
      validateLoop_id env aborted now NC s1 hstat
    have hnosched_s1 : ∀ c ∈ s1.tool_calls, c.status ≠ .scheduled := by
      intro c hc
      rw [hs1calls] at hc
      rcases List.mem_append.mp hc with hc | hc
      · exact (terminal_not_active (hterm c hc)).2.1
      · rcases makeNewCalls_status env now requests c (hNC ▸ hc) with h1 | h1 <;>
          rw [h1] <;> decide
    have hae : attemptExecution s1 env aborted now = s1 := attemptExecution_id hnosched_s1
    rw [hsF, hs2, hvl, hae, hs1, hNC, hnew]

/-- A registry/tool environment with an empty registry: every lookup
fails. -/
def envNoTools : ToolEnv :=
  { getTool := fun _ => none
    shouldConfirm := fun _ _ _ => .ok none
    exec := fun t _ _ => .ok { llm_content := t } }

/-- A registry/tool environment where exactly the name `nosuch` is
unregistered; every other tool exists, needs no confirmation and
executes successfully. -/
def envC5W : ToolEnv :=
  { getTool := fun n => if n = "nosuch" then none else some n
    shouldConfirm := fun _ _ _ => .ok none
    exec := fun t _ _ => .ok { llm_content := t } }

/-- C5 counterexample: a batch consisting solely of a request for an
unregistered tool.  `schedule` leaves the scheduler holding the single
immediately-terminal error call and fires no `on_all_tools_complete`
callback: the completion sweep runs only inside `_set_status`, and a
not-found call is created terminal without any transition, so the batch
never "reaches completion". -/
theorem notfound_only_batch_never_completes :
    (schedule initState [⟨"c5", "nosuch", [], false, ""⟩] envNoTools false 7).1.tool_calls =
      [errorNotFoundCall ⟨"c5", "nosuch", [], false, ""⟩] ∧
    [errorNotFoundCall ⟨"c5", "nosuch", [], false, ""⟩] ≠ [] ∧
    completedLists
      (schedule initState [⟨"c5", "nosuch", [], false, ""⟩] envNoTools false 7).1 = [] :=
  ⟨rfl, by decide, rfl⟩

theorem notFound_requests_spec_witness :
    ((makeNewCalls envC5W 7 [⟨"c5a", "nosuch", [], false, ""⟩,
        ⟨"c5b", "alpha", [], false, ""⟩])[0]? =
      some (errorNotFoundCall ⟨"c5a", "nosuch", [], false, ""⟩) ∧
      (errorNotFoundCall ⟨"c5a", "nosuch", [], false, ""⟩).status = .error ∧
      (errorNotFoundCall ⟨"c5a", "nosuch", [], false, ""⟩).duration_ms = some 0 ∧
      (errorNotFoundCall ⟨"c5a", "nosuch", [], false, ""⟩).response = some ⟨"c5a",
        .functionResponse "c5a" "nosuch" (.error (notFoundMsg "nosuch")),
        none, some (notFoundMsg "nosuch")⟩) ∧
    ((schedule initState [⟨"c5a", "nosuch", [], false, ""⟩, ⟨"c5b", "alpha", [], false, ""⟩]
        envC5W false 7).1.tool_calls = [] ∧
      ∃ e l, (schedule initState [⟨"c5a", "nosuch", [], false, ""⟩,
          ⟨"c5b", "alpha", [], false, ""⟩] envC5W false 7).1.events =
        initState.events ++ e ∧ SchedEvent.allComplete l ∈ e) := by
  have h := notFound_requests_spec initState [⟨"c5a", "nosuch", [], false, ""⟩,
    ⟨"c5b", "alpha", [], false, ""⟩] envC5W false 7 (Reach_SInv Reach.init) (by decide) rfl
    (by intro c hc; simp [initState] at hc)
  exact ⟨h.1 0 ⟨"c5a", "nosuch", [], false, ""⟩ rfl rfl,
    h.2.2.1 ⟨⟨"c5b", "alpha", [], false, ""⟩, by decide, by decide⟩ (by decide)⟩

/-- The args update of `handle_confirmation_response` rewrites exactly
the first awaiting call with the matching id — the call the lookup loop
found — merging the payload into its request's args. -/
theorem updateArgs_first {l : List ToolCall} {cid : String} {tc : ToolCall}
    (h : findAwaiting l cid = some tc) (payload : Args) :
    ∃ i, l[i]? = some tc ∧ updateArgsFirstAwaiting l cid payload =
      l.set i { tc with request := { tc.request with
        args := dictUpdate tc.request.args payload } } := by
  induction l with
  | nil => simp [findAwaiting] at h
  | cons a rest ih =>
    by_cases hcnd : a.request.call_id = cid ∧ a.status = .awaiting_approval
    · have hta : tc = a := by
        rw [findAwaiting, List.find?_cons_of_pos _ (by simpa using hcnd)] at h
        injection h with h2
        exact h2.symm
      subst hta
      refine ⟨0, List.getElem?_cons_zero, ?_⟩
      rw [updateArgsFirstAwaiting, if_pos hcnd]
      rfl
    · have h' : findAwaiting rest cid = some tc := by
        rw [findAwaiting, List.find?_cons_of_neg _ (by simpa using hcnd)] at h
        exact h
      obtain ⟨i, hi, heq⟩ := ih h'
      refine ⟨i + 1, by simpa using hi, ?_⟩
      rw [updateArgsFirstAwaiting, if_neg hcnd, heq]
      rfl

/-- The execution loop only appends transitions, each leaving
`scheduled` or `executing`. -/
theorem attemptExecution_transitions_ext {s : SchedulerState} (hInv : SInv s)
    (env : ToolEnv) (aborted : Bool) (now : Nat) :
    ∃ T, (attemptExecution s env aborted now).transitions = s.transitions ++ T ∧
      ∀ t ∈ T, t.before = .scheduled ∨ t.before = .executing := by
  have hstep : ∀ p i, (EInvP p ∧ ∃ T, p.2.transitions = s.transitions ++ T ∧
      ∀ t ∈ T, t.before = .scheduled ∨ t.before = .executing) →
      (EInvP (execStep env aborted now p i) ∧
        ∃ T, (execStep env aborted now p i).2.transitions = s.transitions ++ T ∧
          ∀ t ∈ T, t.before = .scheduled ∨ t.before = .executing) := by
    intro p i hp
    obtain ⟨hE, T0, hT0, hT0mem⟩ := hp
    refine ⟨execStep_EInv env aborted now p i hE, ?_⟩
    rcases hobj : (p.1.getD p.2.tool_calls)[i]? with - | tc
    · rw [execStep_skip_none hobj]
      exact ⟨T0, hT0, hT0mem⟩
    · by_cases hsc : tc.status = .scheduled
      · rcases hp1 : p.1 with - | f
        · rw [hp1, Option.getD_none] at hobj
          obtain ⟨fc, -, -, htr, -⟩ := execStep_run hE.1 hp1 hobj hsc
          refine ⟨T0 ++ [⟨tc.request.call_id, .scheduled, executingCall tc⟩,
            ⟨tc.request.call_id, .executing, fc⟩], ?_, ?_⟩
          · rw [htr, hT0, List.append_assoc]
          · intro t ht
            rcases List.mem_append.mp ht with ht | ht
            · exact hT0mem t ht
            · simp only [List.mem_cons, List.mem_singleton] at ht
              rcases ht with ht | ht | ht
              · exact Or.inl (by rw [ht])
              · exact Or.inr (by rw [ht])
              · simp at ht
        · rw [hp1, Option.getD_some] at hobj
          obtain ⟨-, hterm⟩ := hE.2 f hp1
          have hcontra := hterm tc (List.getElem?_mem hobj)
          rw [hsc] at hcontra
          simp [TStatus.isTerminal] at hcontra
      · rw [execStep_skip_not_scheduled hobj hsc]
        exact ⟨T0, hT0, hT0mem⟩
  have key := @foldl_execStep_pres env aborted now
    (fun p => EInvP p ∧ ∃ T, p.2.transitions = s.transitions ++ T ∧
      ∀ t ∈ T, t.before = .scheduled ∨ t.before = .executing)
    hstep (List.range s.tool_calls.length) (none, s)
    ⟨⟨hInv, by simp⟩, [], by simp, by simp⟩
  exact key.2

/-- C6: for the awaiting-approval call `handle_confirmation_response`
finds under `call_id`: outcome `cancel` (or an aborted signal) logs the
transition `awaiting_approval → cancelled` with the user-cancelled
response; outcome `modify_with_editor` with a non-empty payload merges
the payload into the request's args and logs
`awaiting_approval → scheduled` for the merged call; a proceed variant
logs `awaiting_approval → scheduled`; in the scheduled cases execution
of all scheduled calls is then attempted (afterwards no call is left
`scheduled`, and every further transition leaves `scheduled` or
`executing`). -/
theorem handleConfirmation_spec (s : SchedulerState) (cid outcome : String)
    (env : ToolEnv) (aborted : Bool) (payload : Option Args) (now : Nat)
    (hInv : SInv s) {tc : ToolCall}
    (hfind : findAwaiting s.tool_calls cid = some tc) :
    ((outcome = "cancel" ∨ aborted = true) →
      ∃ T, (handleConfirmationResponse s cid outcome env aborted payload now).transitions =
        s.transitions ++ ⟨cid, .awaiting_approval,
          cancelledCall tc (some (.resp ⟨cid, .text "User cancelled the operation",
            some "操作已被用户取消", none⟩)) now⟩ :: T ∧
      (cancelledCall tc (some (.resp ⟨cid, .text "User cancelled the operation",
          some "操作已被用户取消", none⟩)) now).status = .cancelled ∧
      (cancelledCall tc (some (.resp ⟨cid, .text "User cancelled the operation",
          some "操作已被用户取消", none⟩)) now).response = some ⟨cid,
        .text "User cancelled the operation", some "操作已被用户取消", none⟩ ∧
      ∀ t ∈ T, t.before = .scheduled ∨ t.before = .executing) ∧
    (aborted = false → outcome = "modify_with_editor" → payloadTruthy payload = true →
      ∃ T, (handleConfirmationResponse s cid outcome env aborted payload now).transitions =
        s.transitions ++ ⟨cid, .awaiting_approval, scheduledCall { tc with
          request := { tc.request with
            args := dictUpdate tc.request.args (payload.getD []) } }⟩ :: T ∧
      (scheduledCall { tc with request := { tc.request with
        args := dictUpdate tc.request.args (payload.getD []) } }).status = .scheduled ∧
      (scheduledCall { tc with request := { tc.request with
        args := dictUpdate tc.request.args (payload.getD []) } }).request.args =
        dictUpdate tc.request.args (payload.getD []) ∧
      (∀ t ∈ T, t.before = .scheduled ∨ t.before = .executing) ∧
      ∀ c ∈ (handleConfirmationResponse s cid outcome env aborted payload now).tool_calls,
        c.status ≠ .scheduled) ∧
    (aborted = false →
      outcome ∈ ["proceed_once", "proceed_always", "proceed_always_server",
        "proceed_always_tool"] →
      ∃ T, (handleConfirmationResponse s cid outcome env aborted payload now).transitions =
        s.transitions ++ ⟨cid, .awaiting_approval, scheduledCall tc⟩ :: T ∧
      (scheduledCall tc).status = .scheduled ∧
      (∀ t ∈ T, t.before = .scheduled ∨ t.before = .executing) ∧
      ∀ c ∈ (handleConfirmationResponse s cid outcome env aborted payload now).tool_calls,
        c.status ≠ .scheduled) := by
  obtain ⟨hmem, hcid, hawait⟩ := findAwaiting_spec hfind
  obtain ⟨i, hilen, hival⟩ := List.getElem_of_mem hmem
  have hi : s.tool_calls[i]? = some tc := List.getElem?_eq_some_iff.mpr ⟨hilen, hival⟩
  have hnt : ¬tc.status.isTerminal = true := by
    rw [hawait]
    simp [TStatus.isTerminal]
  refine ⟨?_, ?_, ?_⟩
  · intro hca
    have hcond : (outcome = "cancel" || aborted) = true := by
      rcases hca with h | h
      · rw [h, show decide ("cancel" = "cancel") = true from by decide, Bool.true_or]
      · rw [h, Bool.or_true]
    have hHC : handleConfirmationResponse s cid outcome env aborted payload now =
        attemptExecution (setStatus s cid .cancelled (some (.resp ⟨cid,
          .text "User cancelled the operation", some "操作已被用户取消", none⟩)) now)
          env aborted now := by
      rw [handleConfirmationResponse, hfind]
      simp only []
      rw [if_pos hcond]
    have hmk := mkStatusCall_cancelled tc (some (.resp ⟨cid,
      .text "User cancelled the operation", some "操作已被用户取消", none⟩)) now
    have hcore := setStatusCore_replace_of_nodup hInv.nodup hi hcid hnt hmk
    have hSmid : SInv (setStatus s cid .cancelled (some (.resp ⟨cid,
        .text "User cancelled the operation", some "操作已被用户取消", none⟩)) now) :=
      SInv_setStatus_of_replace hInv hi hcid hnt hmk (by rw [hawait]; rfl) (by
        constructor
        · intro hcontra
          rcases hcontra with hcontra | hcontra <;> simp [cancelledCall] at hcontra
        · intro _
          exact ⟨_, rfl, hcid.symm, rfl⟩)
    obtain ⟨T, hT, hTmem⟩ := attemptExecution_transitions_ext hSmid env aborted now
    refine ⟨T, ?_, rfl, rfl, hTmem⟩
    rw [hHC, hT, setStatus_transitions, hcore, hawait, List.append_assoc]
    rfl
  · intro hab hout hpt
    have hcond1 : ¬((outcome = "cancel" || aborted) = true) := by
      rw [hout, hab, Bool.or_false]
      intro hx
      exact absurd (of_decide_eq_true hx) (by decide)
    have hcond2 : (outcome = "modify_with_editor" && payloadTruthy payload) = true := by
      rw [hout, hpt]
      decide
    have hHC : handleConfirmationResponse s cid outcome env aborted payload now =
        attemptExecution (setStatus
          { s with tool_calls := updateArgsFirstAwaiting s.tool_calls cid (payload.getD []) }
          cid .scheduled none now) env aborted now := by
      rw [handleConfirmationResponse, hfind]
      simp only []
      rw [if_neg hcond1, if_pos hcond2]
    obtain ⟨j, hjtc, hset⟩ := updateArgs_first hfind (payload.getD [])
    set u : ToolCall := { tc with request := { tc.request with
      args := dictUpdate tc.request.args (payload.getD []) } } with hu
    have hInv' : SInv { s with
        tool_calls := updateArgsFirstAwaiting s.tool_calls cid (payload.getD []) } := by
      refine ⟨?_, hInv.validTrans, ?_, hInv.eventsShape⟩
      · show (idsOf (updateArgsFirstAwaiting s.tool_calls cid (payload.getD []))).Nodup
        rw [updateArgs_ids]
        exact hInv.nodup
      · exact updateArgs_shape hInv.termShape cid (payload.getD [])
    rw [hset] at hInv' hHC
    have hjlen : j < s.tool_calls.length := (List.getElem?_eq_some_iff.mp hjtc).1
    have hu_at : ({ s with tool_calls := s.tool_calls.set j u } :
        SchedulerState).tool_calls[j]? = some u := by
      show (s.tool_calls.set j u)[j]? = some u
      exact List.getElem?_set_self (by simpa using hjlen)
    have hucid : u.request.call_id = cid := hcid
    have hust : u.status = .awaiting_approval := hawait
    have hunt : ¬u.status.isTerminal = true := by
      rw [hust]
      simp [TStatus.isTerminal]
    have hmk2 := mkStatusCall_scheduled u none now
    have hcore2 := setStatusCore_replace_of_nodup hInv'.nodup hu_at hucid hunt hmk2
    have hSmid : SInv (setStatus { s with tool_calls := s.tool_calls.set j u }
        cid .scheduled none now) :=
      SInv_setStatus_of_replace hInv' hu_at hucid hunt hmk2 (by rw [hust]; rfl)
        (TermShape_of_nonterminal rfl)
    obtain ⟨T, hT, hTmem⟩ := attemptExecution_transitions_ext hSmid env aborted now
    refine ⟨T, ?_, rfl, rfl, hTmem, ?_⟩
    · rw [hHC, hT, setStatus_transitions, hcore2, hust, List.append_assoc]
      rfl
    · rw [hHC]
      exact attemptExecution_no_scheduled hSmid env aborted now
  · intro hab hout
    have hcond1 : ¬((outcome = "cancel" || aborted) = true) := by
      rw [hab, Bool.or_false]
      intro hx
      have h2 := of_decide_eq_true hx
      rw [h2] at hout
      exact absurd hout (by decide)
    have hcond2 : ¬((outcome = "modify_with_editor" && payloadTruthy payload) = true) := by
      intro hx
      have h2 := (Bool.and_eq_true _ _).mp hx
      have h3 := of_decide_eq_true h2.1
      rw [h3] at hout
      exact absurd hout (by decide)
    have hcond3 : (["proceed_once", "proceed_always", "proceed_always_server",
        "proceed_always_tool"].contains outcome) = true := by
      simp only [List.mem_cons, List.not_mem_nil, or_false] at hout
      rcases hout with h | h | h | h <;> rw [h] <;> decide
    have hHC : handleConfirmationResponse s cid outcome env aborted payload now =
        attemptExecution (setStatus s cid .scheduled none now) env aborted now := by
      rw [handleConfirmationResponse, hfind]
      simp only []
      rw [if_neg hcond1, if_neg hcond2, if_pos hcond3]
    have hmk3 := mkStatusCall_scheduled tc none now
    have hcore3 := setStatusCore_replace_of_nodup hInv.nodup hi hcid hnt hmk3
    have hSmid : SInv (setStatus s cid .scheduled none now) :=
      SInv_setStatus_of_replace hInv hi hcid hnt hmk3 (by rw [hawait]; rfl)
        (TermShape_of_nonterminal rfl)
    obtain ⟨T, hT, hTmem⟩ := attemptExecution_transitions_ext hSmid env aborted now
    refine ⟨T, ?_, rfl, hTmem, ?_⟩
    · rw [hHC, hT, setStatus_transitions, hcore3, hawait, List.append_assoc]
      rfl
    · rw [hHC]
      exact attemptExecution_no_scheduled hSmid env aborted now

/-- C6 counterexample: outcome `modify_with_editor` with a payload that
is given but empty.  Python truthiness (`elif outcome ==
'modify_with_editor' and payload:`) treats the empty dict as falsy: no
merge happens and the call does not transition to `scheduled` — it
stays `awaiting_approval` and no transition is logged. -/
theorem modify_with_empty_payload_not_scheduled :
    payloadTruthy (some []) = false ∧
    (handleConfirmationResponse (applyOp initState opC1) "c1" "modify_with_editor"
        envConfirmW false (some []) 5).tool_calls.map (fun c => c.status) =
      [.awaiting_approval] ∧
    (handleConfirmationResponse (applyOp initState opC1) "c1" "modify_with_editor"
        envConfirmW false (some []) 5).transitions =
      (applyOp initState opC1).transitions :=
  ⟨rfl, rfl, rfl⟩

/-- The awaiting-approval call that `opC1` parks in the scheduler. -/
def awaitingC6W : ToolCall :=
  { request := ⟨"c1", "alpha", [], false, ""⟩, tool := some "alpha",
    status := .awaiting_approval, start_time := some 0,
    confirmation_details := some "details" }

theorem handleConfirmation_spec_witness :
    ∃ T, (handleConfirmationResponse (applyOp initState opC1) "c1" "proceed_once"
        envConfirmW false none 5).transitions =
      (applyOp initState opC1).transitions ++
        ⟨"c1", .awaiting_approval, scheduledCall awaitingC6W⟩ :: T ∧
      (scheduledCall awaitingC6W).status = .scheduled ∧
      (∀ t ∈ T, t.before = .scheduled ∨ t.before = .executing) ∧
      ∀ c ∈ (handleConfirmationResponse (applyOp initState opC1) "c1" "proceed_once"
          envConfirmW false none 5).tool_calls, c.status ≠ .scheduled :=
  (handleConfirmation_spec (applyOp initState opC1) "c1" "proceed_once" envConfirmW
    false none 5 (Reach_SInv (Reach.step opC1 Reach.init (by decide)))
    (rfl : findAwaiting (applyOp initState opC1).tool_calls "c1" =
      some awaitingC6W)).2.2 rfl (by decide)

/-! ## Lemmas about the sanitizer heap model -/

theorem heapGet_cons_self (h : Heap) (i : Nat) (o : JObj) :
    heapGet ((i, o) :: h) i = some o := by
  rw [heapGet, List.find?_cons_of_pos _ (by simp)]
  rfl

theorem heapGet_cons_ne (h : Heap) {i j : Nat} (hne : j ≠ i) (o : JObj) :
    heapGet ((i, o) :: h) j = heapGet h j := by
  rw [heapGet, List.find?_cons_of_neg _ (by simpa using Ne.symm hne), heapGet]

theorem heapGet_heapSet_self {h : Heap} {i : Nat} {u : JObj} (hu : heapGet h i = some u)
    (o : JObj) : heapGet (heapSet h i o) i = some o := by
  induction h with
  | nil => simp [heapGet] at hu
  | cons p rest ih =>
    obtain ⟨a, b⟩ := p
    show heapGet ((if a = i then (i, o) else (a, b)) :: heapSet rest i o) i = some o
    by_cases hp : a = i
    · rw [if_pos hp]
      exact heapGet_cons_self _ _ _
    · rw [if_neg hp]
      rw [heapGet, List.find?_cons_of_neg _ (by simpa using hp)]
      have hu2 : heapGet rest i = some u := by
        rw [heapGet, List.find?_cons_of_neg _ (by simpa using hp)] at hu
        exact hu
      exact ih hu2

theorem heapGet_heapSet_ne {h : Heap} {i j : Nat} (hne : j ≠ i) (o : JObj) :
    heapGet (heapSet h i o) j = heapGet h j := by
  induction h with
  | nil => rfl
  | cons p rest ih =>
    obtain ⟨a, b⟩ := p
    show heapGet ((if a = i then (i, o) else (a, b)) :: heapSet rest i o) j =
      heapGet ((a, b) :: rest) j
    by_cases hp : a = i
    · rw [if_pos hp, heapGet_cons_ne _ hne,
        heapGet_cons_ne _ (fun hja => hne (hja.trans hp))]
      exact ih
    · rw [if_neg hp]
      by_cases haj : a = j
      · rw [heapGet, List.find?_cons_of_pos _ (by simpa using haj), heapGet,
          List.find?_cons_of_pos _ (by simpa using haj)]
      · rw [heapGet_cons_ne _ (fun hja => haj hja.symm),
          heapGet_cons_ne _ (fun hja => haj hja.symm)]
        exact ih

theorem heapSet_ids (h : Heap) (i : Nat) (o : JObj) :
    (heapSet h i o).map Prod.fst = h.map Prod.fst := by
  induction h with
  | nil => rfl
  | cons p rest ih =>
    obtain ⟨a, b⟩ := p
    show ((if a = i then (i, o) else (a, b)) :: heapSet rest i o).map Prod.fst =
      a :: rest.map Prod.fst
    by_cases hp : a = i
    · rw [if_pos hp]
      show i :: (heapSet rest i o).map Prod.fst = a :: rest.map Prod.fst
      rw [ih, hp]
    · rw [if_neg hp]
      show a :: (heapSet rest i o).map Prod.fst = a :: rest.map Prod.fst
      rw [ih]

theorem heapGet_none_iff {h : Heap} {i : Nat} :
    heapGet h i = none ↔ i ∉ h.map Prod.fst := by
  rw [heapGet, Option.map_eq_none', List.find?_eq_none]
  constructor
  · intro hf hmem
    obtain ⟨p, hp, hpi⟩ := List.mem_map.mp hmem
    exact absurd (by simpa using hpi) (by simpa using hf p hp)
  · intro hmem p hp
    simp only [decide_eq_true_eq]
    intro hpi
    exact hmem (List.mem_map.mpr ⟨p, hp, hpi⟩)

theorem heapGet_some_mem_ids {h : Heap} {i : Nat} {o : JObj}
    (hg : heapGet h i = some o) : i ∈ h.map Prod.fst := by
  by_contra hmem
  rw [← heapGet_none_iff] at hmem
  rw [hmem] at hg
  cases hg

/-! ### Lookup and deletion on dict objects -/

theorem find?_filter_ne {es : List (String × JVal)} {k k2 : String} (hne : k2 ≠ k) :
    (es.filter fun q => q.1 ≠ k).find? (fun p => p.1 = k2) =
      es.find? (fun p => p.1 = k2) := by
  induction es with
  | nil => rfl
  | cons p rest ih =>
    by_cases hpk : p.1 = k
    · rw [List.filter_cons_of_neg (by simpa using hpk),
        List.find?_cons_of_neg _ (by
          simp only [decide_eq_true_eq]
          intro hpk2
          exact hne (hpk2 ▸ hpk))]
      exact ih
    · rw [List.filter_cons_of_pos (by simpa using hpk)]
      by_cases hpk2 : p.1 = k2
      · rw [List.find?_cons_of_pos _ (by simpa using hpk2),
          List.find?_cons_of_pos _ (by simpa using hpk2)]
      · rw [List.find?_cons_of_neg _ (by simpa using hpk2),
          List.find?_cons_of_neg _ (by simpa using hpk2)]
        exact ih

theorem lookup_del_ne {o : JObj} {k k2 : String} (hne : k2 ≠ k) :
    (o.del k).lookup k2 = o.lookup k2 :=
  congrArg (Option.map Prod.snd) (find?_filter_ne hne)

theorem lookup_del_self (o : JObj) (k : String) : (o.del k).lookup k = none := by
  show ((o.entries.filter fun q => q.1 ≠ k).find? fun p => p.1 = k).map Prod.snd = none
  rw [show ((o.entries.filter fun q => q.1 ≠ k).find? fun p => p.1 = k) = none from
    List.find?_eq_none.mpr fun p hp => by simpa using List.of_mem_filter hp]
  rfl

theorem del_eq_self_of_lookup_none {o : JObj} {k : String} (h : o.lookup k = none) :
    o.del k = o := by
  have h2 : (o.entries.find? fun p => p.1 = k) = none := Option.map_eq_none'.mp h
  rw [List.find?_eq_none] at h2
  have h3 : o.entries.filter (fun q => q.1 ≠ k) = o.entries :=
    List.filter_eq_self.mpr fun p hp => by simpa using h2 p hp
  show JObj.mk (o.entries.filter fun q => q.1 ≠ k) = o
  rw [h3]

theorem foldl_del_lookup_ne {k : String} :
    ∀ (ks : List String) (o : JObj), k ∉ ks →
      (ks.foldl JObj.del o).lookup k = o.lookup k := by
  intro ks
  induction ks with
  | nil =>
    intro o _
    rfl
  | cons k1 ks ih =>
    intro o hk
    rw [List.foldl_cons, ih _ (fun hm => hk (List.mem_cons_of_mem _ hm))]
    exact lookup_del_ne (fun he => hk (by rw [he]; exact List.mem_cons_self _ _))

theorem foldl_del_lookup_none {k : String} :
    ∀ (ks : List String) (o : JObj), o.lookup k = none →
      (ks.foldl JObj.del o).lookup k = none := by
  intro ks
  induction ks with
  | nil =>
    intro o h
    exact h
  | cons k1 ks ih =>
    intro o h
    rw [List.foldl_cons]
    refine ih _ ?_
    by_cases he : k = k1
    · rw [he]
      exact lookup_del_self o k1
    · rw [lookup_del_ne he]
      exact h

theorem foldl_del_lookup_mem {k : String} :
    ∀ (ks : List String) (o : JObj), k ∈ ks →
      (ks.foldl JObj.del o).lookup k = none := by
  intro ks
  induction ks with
  | nil =>
    intro o h
    simp at h
  | cons k1 ks ih =>
    intro o hk
    rw [List.foldl_cons]
    by_cases he : k = k1
    · refine foldl_del_lookup_none ks _ ?_
      rw [he]
      exact lookup_del_self o k1
    · refine ih _ ?_
      rcases List.mem_cons.mp hk with h | h
      · exact absurd h he
      · exact h

theorem foldl_del_id : ∀ (ks : List String) (o : JObj),
    (∀ k ∈ ks, o.lookup k = none) → ks.foldl JObj.del o = o := by
  intro ks
  induction ks with
  | nil =>
    intro o _
    rfl
  | cons k1 ks ih =>
    intro o h
    rw [List.foldl_cons, del_eq_self_of_lookup_none (h k1 (List.mem_cons_self _ _))]
    exact ih o (fun k hk => h k (List.mem_cons_of_mem _ hk))

/-- The sanitizer either stops after the deletions or additionally drops
`format`. -/
theorem sanitizeObj_cases (o : JObj) :
    sanitizeObj o = unsupportedFields.foldl JObj.del o ∨
    sanitizeObj o = (unsupportedFields.foldl JObj.del o).del "format" := by
  unfold sanitizeObj
  simp only []
  split
  · split
    · split
      · exact Or.inl rfl
      · exact Or.inr rfl
    · exact Or.inr rfl
    · exact Or.inl rfl
  · exact Or.inl rfl

/-- Sanitizing only deletes entries. -/
theorem sanitizeObj_sublist (o : JObj) : (sanitizeObj o).entries.Sublist o.entries := by
  have hfold : ∀ (ks : List String) (u : JObj), (ks.foldl JObj.del u).entries.Sublist u.entries := by
    intro ks
    induction ks with
    | nil =>
      intro u
      exact List.Sublist.refl _
    | cons k1 ks ih =>
      intro u
      rw [List.foldl_cons]
      exact (ih _).trans (List.filter_sublist _)
  rcases sanitizeObj_cases o with h | h <;> rw [h]
  · exact hfold _ o
  · exact (List.filter_sublist _).trans (hfold _ o)

/-- Keys the sanitizer does not target keep their values. -/
theorem sanitizeObj_lookup_pres (k : String) {o : JObj} (h1 : k ∉ unsupportedFields)
    (h2 : k ≠ "format") : (sanitizeObj o).lookup k = o.lookup k := by
  rcases sanitizeObj_cases o with h | h <;> rw [h]
  · exact foldl_del_lookup_ne _ o h1
  · rw [lookup_del_ne h2]
    exact foldl_del_lookup_ne _ o h1

/-- Every unsupported field is gone after sanitizing. -/
theorem sanitizeObj_clean {o : JObj} {k : String} (hk : k ∈ unsupportedFields) :
    (sanitizeObj o).lookup k = none := by
  have hnf : k ≠ "format" := by
    intro hf
    rw [hf] at hk
    exact absurd hk (by decide)
  rcases sanitizeObj_cases o with h | h <;> rw [h]
  · exact foldl_del_lookup_mem _ o hk
  · rw [lookup_del_ne hnf]
    exact foldl_del_lookup_mem _ o hk

/-- After sanitizing, `format` is absent, kept legitimately, or `type`
is not string. -/
theorem sanitizeObj_formatOK (o : JObj) :
    (sanitizeObj o).lookup "format" = none ∨
    (∃ f, (sanitizeObj o).lookup "format" = some (JVal.prim f) ∧
      (f = "enum" ∨ f = "date-time")) ∨
    ¬(sanitizeObj o).lookup "type" = some (JVal.prim "string") := by
  unfold sanitizeObj
  simp only []
  split
  · rename_i htype
    split
    · rename_i f hfmt
      split
      · rename_i hgood
        exact Or.inr (Or.inl ⟨f, hfmt, hgood⟩)
      · exact Or.inl (lookup_del_self _ _)
    · exact Or.inl (lookup_del_self _ _)
    · rename_i hfmt
      exact Or.inl hfmt
  · rename_i htype
    exact Or.inr (Or.inr htype)

/-- Sanitizing is idempotent: a second pass deletes nothing further. -/
theorem sanitizeObj_idem (o : JObj) : sanitizeObj (sanitizeObj o) = sanitizeObj o := by
  have hclean : ∀ k ∈ unsupportedFields, (sanitizeObj o).lookup k = none :=
    fun _ hk => sanitizeObj_clean hk
  have hfok := sanitizeObj_formatOK o
  set r := sanitizeObj o with hr
  have hdel : unsupportedFields.foldl JObj.del r = r := foldl_del_id _ _ hclean
  unfold sanitizeObj
  simp only []
  rw [hdel]
  rcases hfok with hf | ⟨f, hf, hgood⟩ | ht
  · rw [hf]
    split <;> rfl
  · rw [hf]
    split
    · show (if f = "enum" ∨ f = "date-time" then r else r.del "format") = r
      rw [if_pos hgood]
    · rfl
  · rw [if_neg ht]

/-- The five traversal keys are untouched by sanitizing, so the child
sub-schemas of the sanitized object are exactly the input's. -/
theorem childIds_sanitizeObj (o : JObj) : childIds (sanitizeObj o) = childIds o := by
  unfold childIds
  rw [sanitizeObj_lookup_pres "properties" (by decide) (by decide),
    sanitizeObj_lookup_pres "items" (by decide) (by decide),
    sanitizeObj_lookup_pres "anyOf" (by decide) (by decide),
    sanitizeObj_lookup_pres "oneOf" (by decide) (by decide),
    sanitizeObj_lookup_pres "allOf" (by decide) (by decide)]

/-- `c` is a nested sub-schema of the dict at `root`: it is reached from
`root` through a non-empty chain of `properties` / `items` / `anyOf` /
`oneOf` / `allOf` references in heap `h` — the exact edges
`_sanitize_parameters_recursive` descends into, taken transitively. -/
inductive NestedIn (h : Heap) (root : Nat) : Nat → Prop where
  | child {o : JObj} {c : Nat} (ho : heapGet h root = some o)
      (hc : c ∈ childIds o) : NestedIn h root c
  | step {j : Nat} {o : JObj} {c : Nat} (hj : NestedIn h root j)
      (ho : heapGet h j = some o) (hc : c ∈ childIds o) : NestedIn h root c

/-- Nested-ness transfers from the original heap to the heap extended
with the shallow copy at a fresh id: the copy holds the same entries, so
it has the same children, and no chain passes through the fresh id. -/
theorem NestedIn_cons_fresh {h : Heap} {root fresh : Nat} {o : JObj}
    (hroot : heapGet h root = some o) (hfresh : heapGet h fresh = none)
    {c : Nat} (hc : NestedIn h root c) : NestedIn ((fresh, o) :: h) fresh c := by
  induction hc with
  | child ho hcm =>
    rw [hroot] at ho
    injection ho with ho
    subst ho
    exact NestedIn.child (heapGet_cons_self h fresh o) hcm
  | step hj ho hcm ihj =>
    rename_i j o2 c2
    have hjf : ¬j = fresh := by
      intro he
      rw [he, hfresh] at ho
      cases ho
    exact NestedIn.step ihj (by rw [heapGet_cons_ne h hjf o]; exact ho) hcm

/-- Frame property of one recursive sanitizer call: the visited set only
grows, already-visited objects are untouched, and every object is either
untouched or (if newly visited) replaced in place by its sanitized
version. -/
def SanSpec (h : Heap) (visited : List Nat) (h2 : Heap) (visited2 : List Nat) : Prop :=
  visited ⊆ visited2 ∧
  (∀ id ∈ visited, heapGet h2 id = heapGet h id) ∧
  (∀ id, heapGet h2 id = heapGet h id ∨
    (id ∉ visited ∧ id ∈ visited2 ∧ ∃ u, heapGet h id = some u ∧
      heapGet h2 id = some (sanitizeObj u)))

theorem SanSpec_refl (h : Heap) (visited : List Nat) : SanSpec h visited h visited :=
  ⟨List.Subset.refl _, fun _ _ => rfl, fun _ => Or.inl rfl⟩

theorem SanSpec_trans {h0 : Heap} {v0 : List Nat} {h1 : Heap} {v1 : List Nat}
    {h2 : Heap} {v2 : List Nat} (a : SanSpec h0 v0 h1 v1) (b : SanSpec h1 v1 h2 v2) :
    SanSpec h0 v0 h2 v2 := by
  obtain ⟨as, au, af⟩ := a
  obtain ⟨bs, bu, bf⟩ := b
  refine ⟨as.trans bs, ?_, ?_⟩
  · intro id hid
    rw [bu id (as hid), au id hid]
  · intro id
    rcases bf id with hb | ⟨hbn, hbv, u1, hbu, hbs⟩
    · rcases af id with ha | ⟨han, hav, u, hau, has⟩
      · exact Or.inl (hb.trans ha)
      · exact Or.inr ⟨han, bs hav, u, hau, hb.trans has⟩
    · have hno : id ∉ v0 := fun hv => hbn (as hv)
      rcases af id with ha | ⟨han, hav, u, hau, has⟩
      · rw [ha] at hbu
        exact Or.inr ⟨hno, hbv, u1, hbu, hbs⟩
      · exact absurd hav hbn

/-- The recursion never allocates or frees: heap ids are unchanged. -/
theorem sanRec_ids : ∀ (fuel : Nat) (h : Heap) (v : List Nat) (i : Nat),
    (sanRec fuel h v i).1.map Prod.fst = h.map Prod.fst := by
  intro fuel
  induction fuel with
  | zero =>
    intro h v i
    rfl
  | succ fuel ih =>
    intro h v i
    rw [sanRec]
    by_cases hv : i ∈ v
    · rw [if_pos hv]
    · rw [if_neg hv]
      rcases hg : heapGet h i with - | o
      · rfl
      · simp only []
        have hfold : ∀ (cs : List Nat) (p : Heap × List Nat),
            ((cs.foldl (fun p c => sanRec fuel p.1 p.2 c) p).1).map Prod.fst =
              p.1.map Prod.fst := by
          intro cs
          induction cs with
          | nil =>
            intro p
            rfl
          | cons c cs ihc =>
            intro p
            rw [List.foldl_cons, ihc]
            exact ih p.1 p.2 c
        rw [hfold]
        exact heapSet_ids h i (sanitizeObj o)

theorem sanRec_spec : ∀ (fuel : Nat) (h : Heap) (v : List Nat) (i : Nat),
    SanSpec h v (sanRec fuel h v i).1 (sanRec fuel h v i).2 := by
  intro fuel
  induction fuel with
  | zero =>
    intro h v i
    exact SanSpec_refl h v
  | succ fuel ih =>
    intro h v i
    rw [sanRec]
    by_cases hv : i ∈ v
    · rw [if_pos hv]
      exact SanSpec_refl h v
    · rw [if_neg hv]
      rcases hg : heapGet h i with - | o
      · exact ⟨List.subset_cons_self _ _, fun id _ => rfl, fun id => Or.inl rfl⟩
      · simp only []
        have hbase : SanSpec h v (heapSet h i (sanitizeObj o)) (i :: v) := by
          refine ⟨List.subset_cons_self _ _, ?_, ?_⟩
          · intro id hid
            exact heapGet_heapSet_ne (show id ≠ i from fun he => hv (he ▸ hid)) _
          · intro id
            by_cases hid : id = i
            · subst hid
              exact Or.inr ⟨hv, List.mem_cons_self _ _, o, hg, heapGet_heapSet_self hg _⟩
            · exact Or.inl (heapGet_heapSet_ne hid _)
        have hfold : ∀ (cs : List Nat) (p : Heap × List Nat),
            SanSpec p.1 p.2 ((cs.foldl (fun p c => sanRec fuel p.1 p.2 c) p)).1
              ((cs.foldl (fun p c => sanRec fuel p.1 p.2 c) p)).2 := by
          intro cs
          induction cs with
          | nil =>
            intro p
            exact SanSpec_refl _ _
          | cons c cs ihc =>
            intro p
            rw [List.foldl_cons]
            exact SanSpec_trans (ih p.1 p.2 c) (ihc _)
        exact SanSpec_trans hbase
          (hfold (childIds (sanitizeObj o)) (heapSet h i (sanitizeObj o), i :: v))

/-- The number of distinct heap ids not yet visited: the recursion
consumes one unit of this measure per productive call, so it bounds the
recursion depth. -/
def unvisitedCount (h : Heap) (v : List Nat) : Nat :=
  ((h.map Prod.fst).dedup.filter fun x => x ∉ v).length

theorem unvisitedCount_mono {h h2 : Heap} {v v2 : List Nat}
    (hids : h2.map Prod.fst = h.map Prod.fst) (hsub : v ⊆ v2) :
    unvisitedCount h2 v2 ≤ unvisitedCount h v := by
  unfold unvisitedCount
  rw [hids]
  refine List.Sublist.length_le (List.monotone_filter_right _ ?_)
  intro x hx
  simp only [decide_eq_true_eq] at hx ⊢
  exact fun hv => hx (hsub hv)

theorem unvisitedCount_lt {h : Heap} {v : List Nat} {i : Nat}
    (hin : i ∈ h.map Prod.fst) (hnv : i ∉ v) :
    unvisitedCount h (i :: v) < unvisitedCount h v := by
  unfold unvisitedCount
  have hsubl : List.Sublist ((h.map Prod.fst).dedup.filter fun x => x ∉ i :: v)
      ((h.map Prod.fst).dedup.filter fun x => x ∉ v) := by
    refine List.monotone_filter_right _ ?_
    intro x hx
    simp only [decide_eq_true_eq] at hx ⊢
    exact fun hv => hx (List.mem_cons_of_mem _ hv)
  refine Nat.lt_of_le_of_ne hsubl.length_le ?_
  intro heq
  have heql := hsubl.eq_of_length heq
  have hi2 : i ∈ (h.map Prod.fst).dedup.filter fun x => x ∉ v :=
    List.mem_filter.mpr ⟨List.mem_dedup.mpr hin, by simpa using hnv⟩
  rw [← heql] at hi2
  have h3 := (List.mem_filter.mp hi2).2
  simp at h3

theorem unvisitedCount_le_len (h : Heap) (v : List Nat) :
    unvisitedCount h v ≤ h.length := by
  unfold unvisitedCount
  calc ((h.map Prod.fst).dedup.filter fun x => x ∉ v).length
      ≤ (h.map Prod.fst).dedup.length := List.length_filter_le _ _
    _ ≤ (h.map Prod.fst).length := (List.dedup_sublist _).length_le
    _ = h.length := List.length_map _ _

/-- Full effect of one recursive sanitizer call, given enough fuel: the
frame property, and every newly visited id was either dangling or has
been replaced by its sanitized object with all its child sub-schemas
visited as well. -/
def SanFull (h : Heap) (visited : List Nat) (h2 : Heap) (visited2 : List Nat) : Prop :=
  SanSpec h visited h2 visited2 ∧
  ∀ id ∈ visited2, id ∉ visited →
    (heapGet h id = none ∧ heapGet h2 id = none) ∨
    (∃ u, heapGet h id = some u ∧ heapGet h2 id = some (sanitizeObj u) ∧
      childIds u ⊆ visited2)

theorem SanFull_refl (h : Heap) (v : List Nat) : SanFull h v h v :=
  ⟨SanSpec_refl h v, fun _ hid hn => absurd hid hn⟩

theorem SanFull_trans {h0 : Heap} {v0 : List Nat} {h1 : Heap} {v1 : List Nat}
    {h2 : Heap} {v2 : List Nat} (a : SanFull h0 v0 h1 v1) (b : SanFull h1 v1 h2 v2) :
    SanFull h0 v0 h2 v2 := by
  obtain ⟨aspec, afull⟩ := a
  obtain ⟨bspec, bfull⟩ := b
  refine ⟨SanSpec_trans aspec bspec, ?_⟩
  intro id hid2 hn0
  by_cases hid1 : id ∈ v1
  · rcases afull id hid1 hn0 with ⟨ha1, ha2⟩ | ⟨u, hu1, hu2, hc⟩
    · exact Or.inl ⟨ha1, by rw [bspec.2.1 id hid1]; exact ha2⟩
    · exact Or.inr ⟨u, hu1, by rw [bspec.2.1 id hid1]; exact hu2, hc.trans bspec.1⟩
  · have hkeep : heapGet h1 id = heapGet h0 id := by
      rcases aspec.2.2 id with h | ⟨-, hv1, -⟩
      · exact h
      · exact absurd hv1 hid1
    rcases bfull id hid2 hid1 with ⟨hb1, hb2⟩ | ⟨u, hu1, hu2, hc⟩
    · exact Or.inl ⟨by rw [← hkeep]; exact hb1, hb2⟩
    · exact Or.inr ⟨u, by rw [← hkeep]; exact hu1, hu2, hc⟩

theorem sanRec_full : ∀ (fuel : Nat) (h : Heap) (v : List Nat) (i : Nat),
    unvisitedCount h v < fuel →
    SanFull h v (sanRec fuel h v i).1 (sanRec fuel h v i).2 ∧
      i ∈ (sanRec fuel h v i).2 := by
  intro fuel
  induction fuel with
  | zero =>
    intro h v i hcount
    exact absurd hcount (Nat.not_lt_zero _)
  | succ fuel ih =>
    intro h v i hcount
    rw [sanRec]
    by_cases hv : i ∈ v
    · rw [if_pos hv]
      exact ⟨SanFull_refl h v, hv⟩
    · rw [if_neg hv]
      rcases hg : heapGet h i with - | o
      · refine ⟨⟨⟨List.subset_cons_self _ _, fun id _ => rfl, fun id => Or.inl rfl⟩, ?_⟩,
          List.mem_cons_self _ _⟩
        intro id hid hnid
        have hidi : id = i := by
          rcases List.mem_cons.mp hid with h2 | h2
          · exact h2
          · exact absurd h2 hnid
        subst hidi
        exact Or.inl ⟨hg, hg⟩
      · simp only []
        have hmemids : i ∈ h.map Prod.fst := heapGet_some_mem_ids hg
        have hcount1 : unvisitedCount (heapSet h i (sanitizeObj o)) (i :: v) < fuel := by
          have h1 : unvisitedCount (heapSet h i (sanitizeObj o)) (i :: v) =
              unvisitedCount h (i :: v) := by
            unfold unvisitedCount
            rw [heapSet_ids]
          have h2 := unvisitedCount_lt hmemids hv
          omega
        have hfold : ∀ (cs : List Nat) (p : Heap × List Nat),
            unvisitedCount p.1 p.2 < fuel →
            SanFull p.1 p.2 ((cs.foldl (fun p c => sanRec fuel p.1 p.2 c) p)).1
              ((cs.foldl (fun p c => sanRec fuel p.1 p.2 c) p)).2 ∧
            ∀ c ∈ cs, c ∈ ((cs.foldl (fun p c => sanRec fuel p.1 p.2 c) p)).2 := by
          intro cs
          induction cs with
          | nil =>
            intro p _
            exact ⟨SanFull_refl _ _, by simp⟩
          | cons c cs ihc =>
            intro p hcnt
            rw [List.foldl_cons]
            obtain ⟨hfull1, hc1⟩ := ih p.1 p.2 c hcnt
            have hcnt2 : unvisitedCount (sanRec fuel p.1 p.2 c).1
                (sanRec fuel p.1 p.2 c).2 < fuel := by
              have hle := unvisitedCount_mono (sanRec_ids fuel p.1 p.2 c) hfull1.1.1
              omega
            obtain ⟨hfull2, hcs⟩ := ihc (sanRec fuel p.1 p.2 c) hcnt2
            refine ⟨SanFull_trans hfull1 hfull2, ?_⟩
            intro c2 hc2
            rcases List.mem_cons.mp hc2 with h2 | h2
            · subst h2
              exact hfull2.1.1 hc1
            · exact hcs c2 h2
        obtain ⟨hfull, hcs⟩ := hfold (childIds (sanitizeObj o))
          (heapSet h i (sanitizeObj o), i :: v) hcount1
        have hbase : SanSpec h v (heapSet h i (sanitizeObj o)) (i :: v) := by
          refine ⟨List.subset_cons_self _ _, ?_, ?_⟩
          · intro id hid
            exact heapGet_heapSet_ne (show id ≠ i from fun he => hv (he ▸ hid)) _
          · intro id
            by_cases hid : id = i
            · subst hid
              exact Or.inr ⟨hv, List.mem_cons_self _ _, o, hg, heapGet_heapSet_self hg _⟩
            · exact Or.inl (heapGet_heapSet_ne hid _)
        refine ⟨⟨SanSpec_trans hbase hfull.1, ?_⟩, hfull.1.1 (List.mem_cons_self _ _)⟩
        intro id hid hnid
        by_cases hidi : id = i
        · subst hidi
          refine Or.inr ⟨o, hg, ?_, ?_⟩
          · rw [hfull.1.2.1 id (List.mem_cons_self _ _)]
            exact heapGet_heapSet_self hg _
          · intro c hcmem
            exact hcs c (by rw [childIds_sanitizeObj]; exact hcmem)
        · have hnid1 : id ∉ i :: v := by
            intro hmem
            rcases List.mem_cons.mp hmem with h2 | h2
            · exact hidi h2
            · exact hnid h2
          rcases hfull.2 id hid hnid1 with ⟨ha, hb⟩ | ⟨u, hu1, hu2, hc⟩
          · refine Or.inl ⟨?_, hb⟩
            rw [← heapGet_heapSet_ne hidi (sanitizeObj o)]
            exact ha
          · refine Or.inr ⟨u, ?_, hu2, hc⟩
            rw [← heapGet_heapSet_ne hidi (sanitizeObj o)]
            exact hu1

/-- Every id transitively nested under the entry point is visited by a
sufficiently fuelled recursive sanitizer run started on an empty visited
set. -/
theorem sanRec_reach_mem {h : Heap} {fuel i : Nat}
    (hcount : unvisitedCount h [] < fuel) :
    ∀ c, NestedIn h i c → c ∈ (sanRec fuel h [] i).2 := by
  obtain ⟨hfull, hi⟩ := sanRec_full fuel h [] i hcount
  intro c hc
  induction hc with
  | child ho hcm =>
    rcases hfull.2 i hi (List.not_mem_nil i) with ⟨ha, -⟩ | ⟨u, hu1, -, hsub⟩
    · rw [ho] at ha
      cases ha
    · rw [ho] at hu1
      injection hu1 with hu1
      subst hu1
      exact hsub hcm
  | step hj ho hcm ihj =>
    rename_i j o2 c2
    rcases hfull.2 j ihj (List.not_mem_nil j) with ⟨ha, -⟩ | ⟨u, hu1, -, hsub⟩
    · rw [ho] at ha
      cases ha
    · rw [ho] at hu1
      injection hu1 with hu1
      subst hu1
      exact hsub hcm

/-- A sufficiently fuelled recursive sanitizer run sanitizes, in place,
every object transitively nested under its entry point. -/
theorem sanRec_covers {h : Heap} {fuel i : Nat}
    (hcount : unvisitedCount h [] < fuel) :
    ∀ c, NestedIn h i c → ∀ u, heapGet h c = some u →
      heapGet (sanRec fuel h [] i).1 c = some (sanitizeObj u) := by
  obtain ⟨hfull, -⟩ := sanRec_full fuel h [] i hcount
  intro c hc u hu
  have hcv := sanRec_reach_mem hcount c hc
  rcases hfull.2 c hcv (List.not_mem_nil c) with ⟨ha, -⟩ | ⟨w, hw1, hw2, -⟩
  · rw [hu] at ha
    cases ha
  · rw [hu] at hw1
    injection hw1 with hw1
    subst hw1
    exact hw2

/-- Full effect of one `sanitize_parameters` call on a non-empty schema:
the result is the fresh shallow copy, sanitized; every other heap object
is untouched or sanitized in place; every child sub-schema of the
original is sanitized in place; and the heap gains exactly the fresh id.
-/
theorem sanitize_parameters_spec {h : Heap} {root fresh : Nat} {o : JObj}
    (hroot : heapGet h root = some o) (hne : ¬o.entries = [])
    (hfresh : heapGet h fresh = none) :
    (sanitize_parameters h root fresh).2 = fresh ∧
    heapGet (sanitize_parameters h root fresh).1 fresh = some (sanitizeObj o) ∧
    (∀ id, id ≠ fresh →
      heapGet (sanitize_parameters h root fresh).1 id = heapGet h id ∨
      ∃ u, heapGet h id = some u ∧
        heapGet (sanitize_parameters h root fresh).1 id = some (sanitizeObj u)) ∧
    (∀ c ∈ childIds o, ∀ u, heapGet h c = some u →
      heapGet (sanitize_parameters h root fresh).1 c = some (sanitizeObj u)) ∧
    (sanitize_parameters h root fresh).1.map Prod.fst = fresh :: h.map Prod.fst := by
  have hrf : ¬root = fresh := by
    intro he
    rw [he, hfresh] at hroot
    cases hroot
  have hHC : sanitize_parameters h root fresh =
      ((sanRec (((fresh, o) :: h).length + 1) ((fresh, o) :: h) [] fresh).1, fresh) := by
    rw [sanitize_parameters, hroot]
    simp only []
    rw [if_neg hne]
  rw [hHC]
  have hcount : unvisitedCount ((fresh, o) :: h) [] < ((fresh, o) :: h).length + 1 :=
    Nat.lt_succ_of_le (unvisitedCount_le_len _ _)
  obtain ⟨hfull, hifresh⟩ :=
    sanRec_full (((fresh, o) :: h).length + 1) ((fresh, o) :: h) [] fresh hcount
  have hg1fresh : heapGet ((fresh, o) :: h) fresh = some o := heapGet_cons_self h fresh o
  have hfreshcase := hfull.2 fresh hifresh (by simp)
  have hchild : childIds o ⊆
      (sanRec (((fresh, o) :: h).length + 1) ((fresh, o) :: h) [] fresh).2 := by
    rcases hfreshcase with ⟨ha, -⟩ | ⟨u, hu1, -, hc⟩
    · rw [hg1fresh] at ha
      cases ha
    · rw [hg1fresh] at hu1
      injection hu1 with hu1
      subst hu1
      exact hc
  refine ⟨rfl, ?_, ?_, ?_, ?_⟩
  · rcases hfreshcase with ⟨ha, -⟩ | ⟨u, hu1, hu2, -⟩
    · rw [hg1fresh] at ha
      cases ha
    · rw [hg1fresh] at hu1
      injection hu1 with hu1
      subst hu1
      exact hu2
  · intro id hne2
    rcases hfull.1.2.2 id with ha | ⟨-, -, u, hu1, hu2⟩
    · refine Or.inl ?_
      rw [ha]
      exact heapGet_cons_ne h hne2 o
    · refine Or.inr ⟨u, ?_, hu2⟩
      rw [← heapGet_cons_ne h hne2 o]
      exact hu1
  · intro c hc u hu
    have hcf : ¬c = fresh := by
      intro he
      rw [he, hfresh] at hu
      cases hu
    have hcv := hchild hc
    rcases hfull.2 c hcv (by simp) with ⟨ha, -⟩ | ⟨w, hw1, hw2, -⟩
    · rw [heapGet_cons_ne h hcf o, hu] at ha
      cases ha
    · rw [heapGet_cons_ne h hcf o, hu] at hw1
      injection hw1 with hw1
      rw [hw1]
      exact hw2
  · rw [sanRec_ids]
    rfl

/-- `sanitize_parameters` sanitizes, in place, every sub-schema of the
original transitively reached through `properties` / `items` / `anyOf` /
`oneOf` / `allOf` chains, at any depth. -/
theorem sanitize_parameters_reach {h : Heap} {root fresh : Nat} {o : JObj}
    (hroot : heapGet h root = some o) (hne : ¬o.entries = [])
    (hfresh : heapGet h fresh = none) :
    ∀ c, NestedIn h root c → ∀ u, heapGet h c = some u →
      heapGet (sanitize_parameters h root fresh).1 c = some (sanitizeObj u) := by
  have hHC : sanitize_parameters h root fresh =
      ((sanRec (((fresh, o) :: h).length + 1) ((fresh, o) :: h) [] fresh).1, fresh) := by
    rw [sanitize_parameters, hroot]
    simp only []
    rw [if_neg hne]
  rw [hHC]
  intro c hc u hu
  have hcf : ¬c = fresh := by
    intro he
    rw [he, hfresh] at hu
    cases hu
  have hc1 : NestedIn ((fresh, o) :: h) fresh c := NestedIn_cons_fresh hroot hfresh hc
  have hu1 : heapGet ((fresh, o) :: h) c = some u := by
    rw [heapGet_cons_ne h hcf o]
    exact hu
  exact sanRec_covers (Nat.lt_succ_of_le (unvisitedCount_le_len _ _)) c hc1 u hu1

/-- Accumulated frame of repeated sanitizer runs: every original object
is still there, possibly replaced (in place) by its sanitized version. -/
def FrameStar (h0 h2 : Heap) : Prop :=
  ∀ id u, heapGet h0 id = some u →
    heapGet h2 id = some u ∨ heapGet h2 id = some (sanitizeObj u)

/-- All sub-schemas transitively nested under the stored schema at
`root` (through `properties` / `items` / `anyOf` / `oneOf` / `allOf`
chains of any depth, followed in the original heap `h0`) have been
sanitized in place. -/
def Covered (h0 hcur : Heap) (root : Nat) : Prop :=
  ∀ o, heapGet h0 root = some o → ¬o.entries = [] →
    ∀ c, NestedIn h0 root c → ∀ u, heapGet h0 c = some u →
      heapGet hcur c = some (sanitizeObj u)

theorem FrameStar_refl (h : Heap) : FrameStar h h := fun _ _ hu => Or.inl hu

theorem FrameStar_trans {h0 h1 h2 : Heap} (a : FrameStar h0 h1) (b : FrameStar h1 h2) :
    FrameStar h0 h2 := by
  intro id u hu
  rcases a id u hu with h | h
  · exact b id u h
  · rcases b id _ h with h2 | h2
    · exact Or.inr h2
    · rw [sanitizeObj_idem] at h2
      exact Or.inr h2

/-- Unconditional effect of one `sanitize_parameters` call: frame over
the existing objects, and no object appears at ids other than the fresh
one. -/
theorem sanitize_parameters_total {h : Heap} (root f : Nat)
    (hfresh : heapGet h f = none) :
    FrameStar h (sanitize_parameters h root f).1 ∧
    (∀ n, heapGet h n = none → ¬n = f →
      heapGet (sanitize_parameters h root f).1 n = none) := by
  rcases hg : heapGet h root with - | o
  · have he : sanitize_parameters h root f = (h, root) := by
      rw [sanitize_parameters, hg]
    rw [he]
    exact ⟨FrameStar_refl h, fun n hn _ => hn⟩
  · by_cases hne : o.entries = []
    · have he : sanitize_parameters h root f = (h, root) := by
        rw [sanitize_parameters, hg]
        simp only []
        rw [if_pos hne]
      rw [he]
      exact ⟨FrameStar_refl h, fun n hn _ => hn⟩
    · obtain ⟨-, -, hframe, -, hids⟩ := sanitize_parameters_spec hg hne hfresh
      constructor
      · intro id u hu
        have hif : ¬id = f := by
          intro he2
          rw [he2, hfresh] at hu
          cases hu
        rcases hframe id hif with h1 | ⟨u2, hu2, hs2⟩
        · exact Or.inl (by rw [h1]; exact hu)
        · rw [hu] at hu2
          injection hu2 with hu2
          subst hu2
          exact Or.inr hs2
      · intro n hn hnf
        rw [heapGet_none_iff, hids]
        intro hmem
        rcases List.mem_cons.mp hmem with h2 | h2
        · exact hnf h2
        · exact (heapGet_none_iff.mp hn) h2

/-- Nested-ness transfers along the accumulated frame: sanitizing keeps
every `properties` / `items` / `anyOf` / `oneOf` / `allOf` reference, so
a chain followed in the original heap is still a chain afterwards. -/
theorem NestedIn_frame {h0 hcur : Heap} (hF : FrameStar h0 hcur) {r c : Nat}
    (hn : NestedIn h0 r c) : NestedIn hcur r c := by
  induction hn with
  | child ho hcm =>
    rcases hF _ _ ho with h1 | h1
    · exact NestedIn.child h1 hcm
    · exact NestedIn.child h1 (by rw [childIds_sanitizeObj]; exact hcm)
  | step hj ho hcm ihj =>
    rcases hF _ _ ho with h1 | h1
    · exact NestedIn.step ihj h1 hcm
    · exact NestedIn.step ihj h1 (by rw [childIds_sanitizeObj]; exact hcm)

/-- Being covered survives further sanitizer runs (sanitizing is
idempotent). -/
theorem Covered_mono {h0 hcur hnext : Heap} (hF : FrameStar hcur hnext) {r : Nat}
    (hc : Covered h0 hcur r) : Covered h0 hnext r := by
  intro o ho hne c hnest u hu
  have h1 := hc o ho hne c hnest u hu
  rcases hF c (sanitizeObj u) h1 with h2 | h2
  · exact h2
  · rw [sanitizeObj_idem] at h2
    exact h2

/-- One `sanitize_parameters` call on a stored schema covers it (at
every nesting depth), also when earlier runs already sanitized the
stored root or some nested dicts in place. -/
theorem Covered_establish {h0 hcur : Heap} {r f : Nat}
    (hF : FrameStar h0 hcur) (hfresh : heapGet hcur f = none)
    (hOK : ∀ u, heapGet h0 r = some u → ¬u.entries = [] →
      ¬(sanitizeObj u).entries = []) :
    Covered h0 (sanitize_parameters hcur r f).1 r := by
  intro o ho hne c hnest u hu
  have hnest2 : NestedIn hcur r c := NestedIn_frame hF hnest
  have hreach : ∀ w, heapGet hcur c = some w →
      heapGet (sanitize_parameters hcur r f).1 c = some (sanitizeObj w) := by
    rcases hF r o ho with hro | hro
    · exact fun w hw => sanitize_parameters_reach hro hne hfresh c hnest2 w hw
    · exact fun w hw =>
        sanitize_parameters_reach hro (hOK o ho hne) hfresh c hnest2 w hw
  rcases hF c u hu with hcu | hcu
  · exact hreach u hcu
  · have h2 := hreach (sanitizeObj u) hcu
    rw [sanitizeObj_idem] at h2
    exact h2

/-- The declaration-building fold: frame, covered-preservation and
per-tool coverage. -/
theorem gfd_fold_spec (h0 : Heap) :
    ∀ (ts : List ToolInfo) (acc : Heap × Nat × List FnDecl),
      FrameStar h0 acc.1 →
      (∀ n, acc.2.1 ≤ n → heapGet acc.1 n = none) →
      (∀ info ∈ ts, ∀ u, heapGet h0 info.tool.schemaRoot = some u →
        ¬u.entries = [] → ¬(sanitizeObj u).entries = []) →
      FrameStar h0 ((ts.foldl
        (fun (acc : Heap × Nat × List FnDecl) info =>
          let cleaned := sanitize_parameters acc.1 info.tool.schemaRoot acc.2.1
          (cleaned.1, acc.2.1 + 1,
           acc.2.2 ++ [⟨info.tool.name, info.tool.description, cleaned.2⟩])) acc)).1 ∧
      (∀ r, Covered h0 acc.1 r → Covered h0 ((ts.foldl
        (fun (acc : Heap × Nat × List FnDecl) info =>
          let cleaned := sanitize_parameters acc.1 info.tool.schemaRoot acc.2.1
          (cleaned.1, acc.2.1 + 1,
           acc.2.2 ++ [⟨info.tool.name, info.tool.description, cleaned.2⟩])) acc)).1 r) ∧
      (∀ info ∈ ts, Covered h0 ((ts.foldl
        (fun (acc : Heap × Nat × List FnDecl) info =>
          let cleaned := sanitize_parameters acc.1 info.tool.schemaRoot acc.2.1
          (cleaned.1, acc.2.1 + 1,
           acc.2.2 ++ [⟨info.tool.name, info.tool.description, cleaned.2⟩])) acc)).1
        info.tool.schemaRoot) := by
  intro ts
  induction ts with
  | nil =>
    intro acc hF hfr _
    exact ⟨hF, fun r hc => hc, by simp⟩
  | cons info ts ih =>
    intro acc hF hfr hOK
    rw [List.foldl_cons]
    have hfreshcur : heapGet acc.1 acc.2.1 = none := hfr _ (Nat.le_refl _)
    have htotal := sanitize_parameters_total info.tool.schemaRoot acc.2.1 hfreshcur
    have hF2 : FrameStar h0 (sanitize_parameters acc.1 info.tool.schemaRoot acc.2.1).1 :=
      FrameStar_trans hF htotal.1
    have hfr2 : ∀ n, acc.2.1 + 1 ≤ n →
        heapGet (sanitize_parameters acc.1 info.tool.schemaRoot acc.2.1).1 n = none := by
      intro n hn
      exact htotal.2 n (hfr n (by omega)) (by omega)
    have hcovNew : Covered h0 (sanitize_parameters acc.1 info.tool.schemaRoot acc.2.1).1
        info.tool.schemaRoot :=
      Covered_establish hF hfreshcur (hOK info (List.mem_cons_self _ _))
    obtain ⟨hFf, hpres, hall⟩ := ih
      ((sanitize_parameters acc.1 info.tool.schemaRoot acc.2.1).1, acc.2.1 + 1,
        acc.2.2 ++ [⟨info.tool.name, info.tool.description,
          (sanitize_parameters acc.1 info.tool.schemaRoot acc.2.1).2⟩])
      hF2 hfr2 (fun inf2 hm => hOK inf2 (List.mem_cons_of_mem _ hm))
    refine ⟨hFf, ?_, ?_⟩
    · intro r hc
      exact hpres r (Covered_mono htotal.1 hc)
    · intro info2 hmem
      rcases List.mem_cons.mp hmem with h2 | h2
      · subst h2
        exact hpres _ hcovNew
      · exact hall info2 h2

/-- C10: `sanitize_parameters` copies only the top level of its input
schema — the result is a sanitized shallow copy at the fresh id whose
kept entries (including the references to nested dicts) are the
original's — while every nested sub-schema reached through any chain of
`properties`, `items`, `anyOf`, `oneOf` or `allOf` references, at any
depth, is shared with the input and mutated in place: the unsupported
fields are deleted from the caller's original nested dicts (every
touched object is exactly the sanitized, deletion-only version of the
original).  In particular, `get_function_declarations` strips these
fields from every sub-schema transitively nested under every registered
tool's stored `parameter_schema` the first time it runs. -/
theorem sanitize_parameters_top_level_copy (h : Heap) (root fresh : Nat) (o : JObj)
    (hroot : heapGet h root = some o) (hne : ¬o.entries = [])
    (hfresh : heapGet h fresh = none)
    (reg : ToolRegistry) (h2 : Heap) (fresh2 : Nat)
    (hfr2 : ∀ n, fresh2 ≤ n → heapGet h2 n = none)
    (hOK : ∀ p ∈ reg.tools, ∀ u, heapGet h2 p.2.tool.schemaRoot = some u →
      ¬u.entries = [] → ¬(sanitizeObj u).entries = []) :
    ((sanitize_parameters h root fresh).2 = fresh ∧
     heapGet (sanitize_parameters h root fresh).1 fresh = some (sanitizeObj o) ∧
     (sanitizeObj o).entries.Sublist o.entries) ∧
    (∀ id, id ≠ fresh →
      heapGet (sanitize_parameters h root fresh).1 id = heapGet h id ∨
      ∃ u, heapGet h id = some u ∧
        heapGet (sanitize_parameters h root fresh).1 id = some (sanitizeObj u) ∧
        (sanitizeObj u).entries.Sublist u.entries ∧
        ∀ k ∈ unsupportedFields, (sanitizeObj u).lookup k = none) ∧
    (∀ c, NestedIn h root c → ∀ u, heapGet h c = some u →
      heapGet (sanitize_parameters h root fresh).1 c = some (sanitizeObj u) ∧
      ∀ k ∈ unsupportedFields, (sanitizeObj u).lookup k = none) ∧
    (∀ p ∈ reg.tools, ∀ u, heapGet h2 p.2.tool.schemaRoot = some u →
      ¬u.entries = [] → ∀ c, NestedIn h2 p.2.tool.schemaRoot c →
      ∀ w, heapGet h2 c = some w →
      heapGet (get_function_declarations reg h2 fresh2).1 c = some (sanitizeObj w) ∧
      ∀ k ∈ unsupportedFields, (sanitizeObj w).lookup k = none) := by
  obtain ⟨h1a, h1b, h1c, -, -⟩ := sanitize_parameters_spec hroot hne hfresh
  refine ⟨⟨h1a, h1b, sanitizeObj_sublist o⟩, ?_, ?_, ?_⟩
  · intro id hid
    rcases h1c id hid with hu | ⟨u, hu1, hu2⟩
    · exact Or.inl hu
    · exact Or.inr ⟨u, hu1, hu2, sanitizeObj_sublist u, fun _ hk => sanitizeObj_clean hk⟩
  · intro c hc u hu
    exact ⟨sanitize_parameters_reach hroot hne hfresh c hc u hu,
      fun _ hk => sanitizeObj_clean hk⟩
  · have hgfd : get_function_declarations reg h2 fresh2 =
        ((reg.tools.map Prod.snd).insertionSort priorityGe).foldl
          (fun (acc : Heap × Nat × List FnDecl) info =>
            let cleaned := sanitize_parameters acc.1 info.tool.schemaRoot acc.2.1
            (cleaned.1, acc.2.1 + 1,
             acc.2.2 ++ [⟨info.tool.name, info.tool.description, cleaned.2⟩]))
          (h2, fresh2, []) := by
      rw [get_function_declarations]
    have hOK2 : ∀ info ∈ (reg.tools.map Prod.snd).insertionSort priorityGe,
        ∀ u, heapGet h2 info.tool.schemaRoot = some u →
          ¬u.entries = [] → ¬(sanitizeObj u).entries = [] := by
      intro info hmem
      have hmem2 : info ∈ reg.tools.map Prod.snd :=
        (List.perm_insertionSort priorityGe _).mem_iff.mp hmem
      obtain ⟨p, hp, hps⟩ := List.mem_map.mp hmem2
      rw [← hps]
      exact hOK p hp
    obtain ⟨-, -, hall⟩ := gfd_fold_spec h2
      ((reg.tools.map Prod.snd).insertionSort priorityGe)
      (h2, fresh2, []) (FrameStar_refl h2) hfr2 hOK2
    intro p hp u hu hneu c hc w hw
    have hmemp : p.2 ∈ (reg.tools.map Prod.snd).insertionSort priorityGe :=
      (List.perm_insertionSort priorityGe _).mem_iff.mpr (List.mem_map.mpr ⟨p, hp, rfl⟩)
    have hcov := hall p.2 hmemp u hu hneu c hc w hw
    rw [hgfd]
    exact ⟨hcov, fun _ hk => sanitizeObj_clean hk⟩

/-- A stored schema dict: type/object with one nested property and an
unsupported `default` field. -/
def schemaRootW : JObj :=
  ⟨[("type", JVal.prim "object"), ("properties", JVal.omap [("a", JAtom.ref 1)]),
    ("default", JVal.prim "x")]⟩

/-- The nested sub-schema dict it references: an array schema whose
`items` references a further nested dict, with an unsupported `maximum`
field. -/
def schemaChildW : JObj :=
  ⟨[("type", JVal.prim "array"), ("items", JVal.ref 2), ("maximum", JVal.prim "9")]⟩

/-- The depth-two sub-schema, reached through `properties` then `items`,
with an unsupported `default` field. -/
def schemaGrandW : JObj :=
  ⟨[("type", JVal.prim "string"), ("default", JVal.prim "z")]⟩

/-- A concrete heap: the stored schema at id 0, its nested dict at id 1,
the depth-two dict at id 2. -/
def heapW : Heap := [(0, schemaRootW), (1, schemaChildW), (2, schemaGrandW)]

/-- A registry holding one tool whose stored `parameter_schema` is the
dict at heap id 0. -/
def regW : ToolRegistry :=
  { tools := [("t", ⟨⟨"t", "", 0⟩, [], [], 50, []⟩)] }

theorem sanitize_parameters_top_level_copy_witness :
    ((sanitize_parameters heapW 0 3).2 = 3 ∧
     heapGet (sanitize_parameters heapW 0 3).1 3 = some (sanitizeObj schemaRootW) ∧
     (sanitizeObj schemaRootW).entries.Sublist schemaRootW.entries) ∧
    (heapGet (sanitize_parameters heapW 0 3).1 1 = some (sanitizeObj schemaChildW) ∧
     heapGet (sanitize_parameters heapW 0 3).1 2 = some (sanitizeObj schemaGrandW) ∧
     ∀ k ∈ unsupportedFields, (sanitizeObj schemaGrandW).lookup k = none) ∧
    (heapGet (get_function_declarations regW heapW 3).1 2 =
       some (sanitizeObj schemaGrandW) ∧
     ∀ k ∈ unsupportedFields, (sanitizeObj schemaGrandW).lookup k = none) := by
  have hnest1 : NestedIn heapW 0 1 :=
    NestedIn.child (show heapGet heapW 0 = some schemaRootW from rfl) (by decide)
  have hnest2 : NestedIn heapW 0 2 :=
    NestedIn.step hnest1 (show heapGet heapW 1 = some schemaChildW from rfl) (by decide)
  have H := sanitize_parameters_top_level_copy heapW 0 3 schemaRootW rfl (by decide) rfl
    regW heapW 3
    (by
      intro n hn
      rw [heapGet_none_iff]
      intro hmem
      simp [heapW] at hmem
      rcases hmem with h | h | h <;> omega)
    (by
      intro p hp u hu hne2
      simp only [regW, List.mem_singleton] at hp
      subst hp
      have h0 : heapGet heapW 0 = some schemaRootW := rfl
      have h1 := h0.symm.trans hu
      injection h1 with h2
      rw [← h2]
      decide)
  refine ⟨H.1, ⟨?_, ?_, ?_⟩, ?_⟩
  · exact (H.2.2.1 1 hnest1 schemaChildW rfl).1
  · exact (H.2.2.1 2 hnest2 schemaGrandW rfl).1
  · exact (H.2.2.1 2 hnest2 schemaGrandW rfl).2
  · exact H.2.2.2 ("t", ⟨⟨"t", "", 0⟩, [], [], 50, []⟩) (by simp [regW]) schemaRootW rfl
      (by decide) 2 hnest2 schemaGrandW rfl

theorem terminal_response_shape_witness :
    ((cancelledW.status = .success ∨ cancelledW.status = .error) →
      ∃ r pl, cancelledW.response = some r ∧ r.call_id = cancelledW.request.call_id ∧
        r.response_parts =
          .functionResponse cancelledW.request.call_id cancelledW.request.name pl) ∧
    (cancelledW.status = .cancelled →
      ∃ r, cancelledW.response = some r ∧ r.call_id = cancelledW.request.call_id ∧
        r.response_parts = .text "User cancelled the operation") :=
  terminal_response_shape (applyOp (applyOp initState opC1) opC2)
    (Reach.step opC2 (Reach.step opC1 Reach.init (by decide)) (by decide))
    cancelledW (Or.inr ⟨[cancelledW], by decide, by decide⟩)

end DbRheo
